import Mathlib

/-!
# Verification of the maze-generation core (spanning-tree engine, grids, generator,
  validator, solver)

Shallow embedding of the TypeScript sources:
  * `src/spanning-tree.ts`  — randomized Kruskal engine with union-find
    (path compression, union by rank), Fisher–Yates shuffle;
  * `src/maze-generator.ts` — `generateMaze` and `validateMaze`;
  * `src/maze-solver.ts`    — BFS `solveMaze`;
  * `src/rectangular-grid.ts`, `src/hexagonal-grid.ts` — the two grid providers.

JavaScript `Map` values are modeled as association lists with distinct keys
(first match wins; insertion position is immaterial because the code never
iterates these maps).  JavaScript `Set` values are modeled as duplicate-free
lists in insertion order.  The recursive `find` of the union-find is modeled
with explicit fuel; exhausting the fuel surfaces as `none`, and a theorem below
shows the fuel is always sufficient, which is exactly the termination fact the
TypeScript code relies on.  The injected random source `() => number` is
modeled as the sequence of values it returns, a function `Nat → ℚ`; uses of
`Math.floor(random() * bound)` keep that shape.
-/

namespace Mazegen

variable {T V : Type}

/-- JS `Map.get`: first binding of the key, if any. -/
def mget [DecidableEq T] : List (T × V) → T → Option V
  | [], _ => none
  | (k, v) :: m, x => if k = x then some v else mget m x

/-- JS `Map.set`: overwrite the binding if the key is present, else add one. -/
def mset [DecidableEq T] : List (T × V) → T → V → List (T × V)
  | [], x, v => [(x, v)]
  | (k, w) :: m, x, v => if k = x then (k, v) :: m else (k, w) :: mset m x v

/-- The keys of an association list. -/
def keys (m : List (T × V)) : List T := m.map Prod.fst

/-- JS `Set.add`: append the element unless it is already present. -/
def jsInsert [DecidableEq T] (s : List T) (x : T) : List T :=
  if x ∈ s then s else s ++ [x]

/-- `new Set(l)`: deduplicate keeping first occurrences, in insertion order. -/
def jsSet [DecidableEq T] (l : List T) : List T := l.foldl jsInsert []

/-- `Edge<T>` from `spanning-tree.ts` (`isFixed?: boolean`, absent ↦ `false`). -/
structure Edge (T : Type) where
  «from» : T
  «to» : T
  isFixed : Bool
deriving DecidableEq, Repr

/-- `Graph<T>` from `spanning-tree.ts`; `nodes` is a JS `Set` (duplicate-free). -/
structure Graph (T : Type) where
  nodes : List T
  edges : List (Edge T)

/-- `Math.floor(q * bound)` for a random draw `q`, clamped to `Nat` as array
index (for `q ∈ [0,1)` this is the JS value exactly). -/
def jIdx (q : ℚ) (bound : Nat) : Nat := (Int.floor (q * bound)).toNat

/-- The in-place swap `[r[i], r[j]] = [r[j], r[i]]`; out-of-range indices leave
the list unchanged (unreachable for a random source with range `[0,1)`). -/
def swapIdx (l : List T) (i j : Nat) : List T :=
  match l[i]?, l[j]? with
  | some a, some b => (l.set i b).set j a
  | _, _ => l

/-- The Fisher–Yates loop of `shuffle`: the first argument of the recursion is
the running random-call index, the second the loop variable `i` (counting down
from `length - 1`; the loop body swaps positions `i` and
`Math.floor(random() * (i + 1))`). -/
def shuffleGo [DecidableEq T] (rand : Nat → ℚ) : List T → Nat → Nat → List T
  | l, _, 0 => l
  | l, k, i + 1 => shuffleGo rand (swapIdx l (i + 1) (jIdx (rand k) (i + 2))) (k + 1) i

/-- `shuffle` from `spanning-tree.ts`. -/
def shuffle [DecidableEq T] (l : List T) (rand : Nat → ℚ) : List T :=
  shuffleGo rand l 0 (l.length - 1)

/-- The two maps of the union-find in `spanningTree`. -/
structure UF (T : Type) where
  parent : List (T × T)
  rank : List (T × Nat)

/-- The lazy-initialization prefix of `find`: `if (!parent.has(x)) { parent.set(x, x); rank.set(x, 0); }`. -/
def ufEnsure [DecidableEq T] (s : UF T) (x : T) : UF T :=
  match mget s.parent x with
  | some _ => s
  | none => { parent := mset s.parent x x, rank := mset s.rank x 0 }

/-- The recursive `find` with path compression, with explicit fuel for the
recursion depth (`none` = fuel exhausted, shown unreachable below). -/
def findAux [DecidableEq T] : Nat → UF T → T → Option (T × UF T)
  | 0, _, _ => none
  | fuel + 1, s, x =>
    let s1 := ufEnsure s x
    match mget s1.parent x with
    | none => none
    | some p =>
      if p = x then some (x, s1)
      else
        match findAux fuel s1 p with
        | none => none
        | some (r, s2) => some (r, { s2 with parent := mset s2.parent x r })

/-- `find(x)`.  The fuel `|parent| + 1` dominates the parent-chain depth, which
is at most the number of keys. -/
def find [DecidableEq T] (s : UF T) (x : T) : Option (T × UF T) :=
  findAux (s.parent.length + 1) s x

/-- `union(x, y)` from `spanningTree`: returns whether the two sets were
distinct (and therefore merged), threading the mutated union-find state. -/
def union [DecidableEq T] (s : UF T) (x y : T) : Option (Bool × UF T) :=
  match find s x with
  | none => none
  | some (rootX, s1) =>
    match find s1 y with
    | none => none
    | some (rootY, s2) =>
      if rootX = rootY then some (false, s2)
      else
        let rankX := (mget s2.rank rootX).getD 0
        let rankY := (mget s2.rank rootY).getD 0
        if rankX < rankY then
          some (true, { s2 with parent := mset s2.parent rootX rootY })
        else if rankY < rankX then
          some (true, { s2 with parent := mset s2.parent rootY rootX })
        else
          some (true, { s2 with parent := mset s2.parent rootY rootX,
                                rank := mset s2.rank rootX (rankX + 1) })

/-- Body of `for (const edge of fixedEdges) { union(edge.from, edge.«to»); result.push(edge); }`. -/
def addFixed [DecidableEq T] (acc : Option (UF T × List (Edge T))) (e : Edge T) :
    Option (UF T × List (Edge T)) :=
  match acc with
  | none => none
  | some (s, out) =>
    match union s e.«from» e.«to» with
    | none => none
    | some (_, s') => some (s', out ++ [e])

/-- Body of `for (const edge of shuffled) { if (union(edge.from, edge.«to»)) result.push(edge); }`. -/
def addRemovable [DecidableEq T] (acc : Option (UF T × List (Edge T))) (e : Edge T) :
    Option (UF T × List (Edge T)) :=
  match acc with
  | none => none
  | some (s, out) =>
    match union s e.«from» e.«to» with
    | none => none
    | some (b, s') => some (s', if b then out ++ [e] else out)

/-- `spanningTree` from `spanning-tree.ts` (randomized Kruskal with fixed
edges).  `none` would mean a `find` ran out of fuel; it never happens. -/
def spanningTree [DecidableEq T] (g : Graph T) (rand : Nat → ℚ) :
    Option (List (Edge T)) :=
  if g.nodes.isEmpty then some []
  else
    let fixedEdges := g.edges.filter (fun e => e.isFixed)
    let removableEdges := g.edges.filter (fun e => !e.isFixed)
    let shuffled := shuffle removableEdges rand
    match fixedEdges.foldl addFixed (some ({ parent := [], rank := [] }, [])) with
    | none => none
    | some (s, out) =>
      match shuffled.foldl addRemovable (some (s, out)) with
      | none => none
      | some (_, out') => some out'

/-! ## Association-list map lemmas -/

theorem mget_mset_self [DecidableEq T] (m : List (T × V)) (x : T) (v : V) :
    mget (mset m x v) x = some v := by
  induction m with
  | nil => simp [mset, mget]
  | cons kv m ih =>
    obtain ⟨k, w⟩ := kv
    by_cases h : k = x <;> simp [mset, mget, h, ih]

theorem mget_mset_ne [DecidableEq T] (m : List (T × V)) (x y : T) (v : V)
    (h : y ≠ x) : mget (mset m x v) y = mget m y := by
  induction m with
  | nil => simp [mset, mget, Ne.symm h]
  | cons kv m ih =>
    obtain ⟨k, w⟩ := kv
    by_cases hk : k = x
    · subst hk
      simp [mset, mget, Ne.symm h]
    · by_cases hky : k = y
      · subst hky
        simp [mset, mget, hk]
      · simp [mset, mget, hk, hky, ih]

@[simp] theorem keys_nil : keys ([] : List (T × V)) = [] := rfl

@[simp] theorem keys_cons (k : T) (w : V) (m : List (T × V)) :
    keys ((k, w) :: m) = k :: keys m := rfl

theorem mget_eq_none_iff [DecidableEq T] (m : List (T × V)) (x : T) :
    mget m x = none ↔ x ∉ keys m := by
  induction m with
  | nil => simp [mget]
  | cons kv m ih =>
    obtain ⟨k, w⟩ := kv
    by_cases h : k = x
    · subst h; simp [mget]
    · have hxk : ¬x = k := fun hh => h hh.symm
      simp [mget, h, ih, hxk]

theorem mget_isSome_of_mem [DecidableEq T] {m : List (T × V)} {x : T}
    (h : x ∈ keys m) : ∃ v, mget m x = some v := by
  rcases hh : mget m x with _ | v
  · exact absurd ((mget_eq_none_iff m x).mp hh) (not_not_intro h)
  · exact ⟨v, rfl⟩

theorem mem_keys_of_mget [DecidableEq T] {m : List (T × V)} {x : T} {v : V}
    (h : mget m x = some v) : x ∈ keys m := by
  by_contra hx
  rw [(mget_eq_none_iff m x).mpr hx] at h
  cases h

theorem keys_mset_of_mem [DecidableEq T] (m : List (T × V)) (x : T) (v : V)
    (h : x ∈ keys m) : keys (mset m x v) = keys m := by
  induction m with
  | nil => simp at h
  | cons kv m ih =>
    obtain ⟨k, w⟩ := kv
    by_cases hk : k = x
    · simp [mset, hk]
    · simp only [keys_cons, List.mem_cons] at h
      rcases h with h1 | h1
      · exact absurd h1.symm hk
      · simp [mset, hk, ih h1]

theorem keys_mset_of_not_mem [DecidableEq T] (m : List (T × V)) (x : T) (v : V)
    (h : x ∉ keys m) : keys (mset m x v) = keys m ++ [x] := by
  induction m with
  | nil => simp [mset]
  | cons kv m ih =>
    obtain ⟨k, w⟩ := kv
    simp only [keys_cons, List.mem_cons] at h
    push_neg at h
    have hkx : ¬k = x := fun hh => h.1 hh.symm
    simp [mset, hkx, ih h.2]

theorem keys_subset_mset [DecidableEq T] (m : List (T × V)) (x : T) (v : V) :
    keys m ⊆ keys (mset m x v) := by
  by_cases h : x ∈ keys m
  · rw [keys_mset_of_mem m x v h]
    exact List.Subset.refl _
  · rw [keys_mset_of_not_mem m x v h]
    exact fun a ha => List.mem_append_left _ ha

theorem keys_nodup_mset [DecidableEq T] (m : List (T × V)) (x : T) (v : V)
    (h : (keys m).Nodup) : (keys (mset m x v)).Nodup := by
  by_cases hx : x ∈ keys m
  · rwa [keys_mset_of_mem m x v hx]
  · rw [keys_mset_of_not_mem m x v hx]
    simpa [List.nodup_append] using ⟨h, hx⟩

theorem length_keys (m : List (T × V)) : (keys m).length = m.length := by
  simp [keys]

/-! ## Parent-chain predicates for the union-find -/

/-- A map entry at which the `find` recursion stops: absent key (lazily a
singleton) or a self-parented root. -/
def IsRoot [DecidableEq T] (m : List (T × T)) (x : T) : Prop :=
  mget m x = none ∨ mget m x = some x

/-- `ChainTo m x r n`: following parent pointers from `x` reaches the root `r`
in exactly `n` steps. -/
inductive ChainTo [DecidableEq T] (m : List (T × T)) : T → T → Nat → Prop
  | root (x : T) (h : IsRoot m x) : ChainTo m x x 0
  | step (x p r : T) (n : Nat) (hp : mget m x = some p) (hne : p ≠ x)
      (hc : ChainTo m p r n) : ChainTo m x r (n + 1)

/-- Non-mutating root chase with fuel (specification-level `find`). -/
def chase [DecidableEq T] : Nat → List (T × T) → T → Option T
  | 0, _, _ => none
  | fuel + 1, m, x =>
    match mget m x with
    | none => some x
    | some p => if p = x then some x else chase fuel m p

/-- The root of `x` in parent map `m` (well-defined whenever chains are
well-founded; the fuel `m.length + 1` dominates every chain depth). -/
def rootD [DecidableEq T] (m : List (T × T)) (x : T) : T :=
  (chase (m.length + 1) m x).getD x

/-- Invariant of the union-find state: keys are distinct, parent values are
keys, and every parent chain reaches a root. -/
structure UFInv [DecidableEq T] (s : UF T) : Prop where
  keysNodup : (keys s.parent).Nodup
  valKeys : ∀ x y, mget s.parent x = some y → y ∈ keys s.parent
  wf : ∀ x, ∃ r n, ChainTo s.parent x r n

theorem chainTo_unique [DecidableEq T] {m : List (T × T)} {x r r' : T} {n n' : Nat}
    (h : ChainTo m x r n) (h' : ChainTo m x r' n') : r = r' ∧ n = n' := by
  induction h generalizing r' n' with
  | root x hr =>
    cases h' with
    | root _ _ => exact ⟨rfl, rfl⟩
    | step _ p _ k hp hne hc =>
      rcases hr with hr | hr
      · rw [hr] at hp; cases hp
      · rw [hr] at hp; exact absurd (Option.some.inj hp).symm hne
  | step x p r n hp hne hc ih =>
    cases h' with
    | root _ hr =>
      rcases hr with hr | hr
      · rw [hr] at hp; cases hp
      · rw [hr] at hp; exact absurd (Option.some.inj hp).symm hne
    | step _ p' _ k hp' hne' hc' =>
      have hpp : p = p' := by rw [hp] at hp'; exact Option.some.inj hp'
      subst hpp
      obtain ⟨hr, hn⟩ := ih hc'
      exact ⟨hr, by omega⟩

theorem chainTo_root_isRoot [DecidableEq T] {m : List (T × T)} {x r : T} {n : Nat}
    (h : ChainTo m x r n) : IsRoot m r := by
  induction h with
  | root _ hr => exact hr
  | step _ _ _ _ _ _ _ ih => exact ih

/-- The nodes strictly before the root on a parent chain are distinct keys. -/
theorem chainTo_nodes [DecidableEq T] {m : List (T × T)} {x r : T} {n : Nat}
    (h : ChainTo m x r n) :
    ∃ l : List T, l.length = n ∧ l.Nodup ∧ (∀ y ∈ l, y ∈ keys m) ∧
      ∀ y ∈ l, ∃ k, 1 ≤ k ∧ k ≤ n ∧ ChainTo m y r k := by
  induction h with
  | root x hr => exact ⟨[], rfl, List.nodup_nil, by simp, by simp⟩
  | step x p r n hp hne hc ih =>
    obtain ⟨l, hlen, hnd, hkeys, hchain⟩ := ih
    refine ⟨x :: l, by simp [hlen], ?_, ?_, ?_⟩
    · refine List.nodup_cons.mpr ⟨?_, hnd⟩
      intro hx
      obtain ⟨k, hk1, hkn, hck⟩ := hchain x hx
      have := (chainTo_unique (ChainTo.step x p r n hp hne hc) hck).2
      omega
    · intro y hy
      rcases List.mem_cons.mp hy with rfl | hy
      · exact mem_keys_of_mget hp
      · exact hkeys y hy
    · intro y hy
      rcases List.mem_cons.mp hy with rfl | hy
      · exact ⟨n + 1, by omega, le_refl _, ChainTo.step y p r n hp hne hc⟩
      · obtain ⟨k, hk1, hkn, hck⟩ := hchain y hy
        exact ⟨k, hk1, by omega, hck⟩

theorem chainTo_depth_le [DecidableEq T] {m : List (T × T)} {x r : T} {n : Nat}
    (h : ChainTo m x r n) : n ≤ m.length := by
  obtain ⟨l, hlen, hnd, hkeys, -⟩ := chainTo_nodes h
  have hsub : l ⊆ keys m := fun y hy => hkeys y hy
  have hle := (hnd.subperm hsub).length_le
  have hk : (keys m).length = m.length := length_keys m
  omega

theorem chase_of_chainTo [DecidableEq T] {m : List (T × T)} {x r : T} {n : Nat}
    (h : ChainTo m x r n) : ∀ fuel, n < fuel → chase fuel m x = some r := by
  induction h with
  | root x hr =>
    intro fuel hf
    match fuel with
    | f + 1 =>
      rcases hr with hr | hr <;> simp [chase, hr]
  | step x p r n hp hne hc ih =>
    intro fuel hf
    match fuel with
    | f + 1 =>
      simp only [chase, hp, hne, if_false]
      exact ih f (by omega)

theorem rootD_of_chainTo [DecidableEq T] {m : List (T × T)} {x r : T} {n : Nat}
    (h : ChainTo m x r n) : rootD m x = r := by
  have hd := chainTo_depth_le h
  rw [rootD, chase_of_chainTo h (m.length + 1) (by omega)]
  rfl

theorem chainTo_rootD [DecidableEq T] {m : List (T × T)}
    (hwf : ∀ z, ∃ r n, ChainTo m z r n) (x : T) :
    ∃ n, ChainTo m x (rootD m x) n := by
  obtain ⟨r, n, h⟩ := hwf x
  rw [rootD_of_chainTo h]
  exact ⟨n, h⟩

theorem isRoot_rootD [DecidableEq T] {m : List (T × T)}
    (hwf : ∀ z, ∃ r n, ChainTo m z r n) (x : T) : IsRoot m (rootD m x) := by
  obtain ⟨n, h⟩ := chainTo_rootD hwf x
  exact chainTo_root_isRoot h

theorem rootD_of_isRoot [DecidableEq T] {m : List (T × T)} {x : T}
    (h : IsRoot m x) : rootD m x = x :=
  rootD_of_chainTo (ChainTo.root x h)

theorem rootD_step [DecidableEq T] {m : List (T × T)} {x p : T}
    (hwf : ∀ z, ∃ r n, ChainTo m z r n)
    (hp : mget m x = some p) (hne : p ≠ x) : rootD m x = rootD m p := by
  obtain ⟨n, hc⟩ := chainTo_rootD hwf p
  exact rootD_of_chainTo (ChainTo.step x p (rootD m p) n hp hne hc)

theorem rootD_ne_self_of_step [DecidableEq T] {m : List (T × T)} {x p : T}
    (hwf : ∀ z, ∃ r n, ChainTo m z r n)
    (hp : mget m x = some p) (hne : p ≠ x) : rootD m x ≠ x := by
  intro hx
  have hroot : IsRoot m (rootD m x) := isRoot_rootD hwf x
  rw [hx] at hroot
  rcases hroot with hr | hr
  · rw [hr] at hp; cases hp
  · rw [hr] at hp; exact hne (Option.some.inj hp).symm

theorem chainTo_root_mem_keys [DecidableEq T] {m : List (T × T)} {x r : T} {n : Nat}
    (hval : ∀ a b, mget m a = some b → b ∈ keys m)
    (h : ChainTo m x r n) (hx : x ∈ keys m) : r ∈ keys m := by
  induction h with
  | root y hr => exact hx
  | step y p r n hp hne hc ih => exact ih (hval _ _ hp)

theorem rootD_mem_keys [DecidableEq T] {m : List (T × T)} {x : T}
    (hwf : ∀ z, ∃ r n, ChainTo m z r n)
    (hval : ∀ a b, mget m a = some b → b ∈ keys m) (hx : x ∈ keys m) :
    rootD m x ∈ keys m := by
  obtain ⟨n, h⟩ := chainTo_rootD hwf x
  exact chainTo_root_mem_keys hval h hx

/-! ## Transfer lemmas for the three parent-map updates performed by
`find`/`union`: lazy self-loop insertion, path compression, root linking. -/

theorem chainTo_selfloop_mpr [DecidableEq T] {m : List (T × T)} {x : T}
    (hx : x ∉ keys m) {y r : T} {n : Nat} (h : ChainTo m y r n) :
    ChainTo (mset m x x) y r n := by
  induction h with
  | root z hz =>
    refine ChainTo.root z ?_
    by_cases hzx : z = x
    · subst hzx; right; exact mget_mset_self m z z
    · rcases hz with hz | hz
      · left; rwa [mget_mset_ne m x z x hzx]
      · right; rwa [mget_mset_ne m x z x hzx]
  | step z p r n hp hne hc ih =>
    have hzx : z ≠ x := by
      intro hzz; subst hzz
      exact hx (mem_keys_of_mget hp)
    exact ChainTo.step z p r n (by rwa [mget_mset_ne m x z x hzx]) hne ih

theorem chainTo_selfloop_mp [DecidableEq T] {m : List (T × T)} {x : T}
    (hx : x ∉ keys m) {y r : T} {n : Nat} (h : ChainTo (mset m x x) y r n) :
    ChainTo m y r n := by
  induction h with
  | root z hz =>
    refine ChainTo.root z ?_
    by_cases hzx : z = x
    · subst hzx; left; exact (mget_eq_none_iff m z).mpr hx
    · rcases hz with hz | hz
      · left; rwa [mget_mset_ne m x z x hzx] at hz
      · right; rwa [mget_mset_ne m x z x hzx] at hz
  | step z p r n hp hne hc ih =>
    by_cases hzx : z = x
    · subst hzx
      rw [mget_mset_self] at hp
      exact absurd (Option.some.inj hp).symm hne
    · exact ChainTo.step z p r n (by rwa [mget_mset_ne m x z x hzx] at hp) hne ih

theorem not_isRoot_elim [DecidableEq T] {m : List (T × T)} {x : T}
    (h : ¬IsRoot m x) : ∃ p, mget m x = some p ∧ p ≠ x := by
  rcases hm : mget m x with _ | p
  · exact absurd (Or.inl hm) h
  · refine ⟨p, rfl, ?_⟩
    intro hp
    exact h (Or.inr (hp ▸ hm))

/-- Path compression: pointing a non-root `x` directly at its root preserves
every chain's destination. -/
theorem chainTo_compress [DecidableEq T] {m : List (T × T)} {x r : T}
    (hwf : ∀ z, ∃ rr k, ChainTo m z rr k)
    (hnotroot : ¬IsRoot m x) (hr : rootD m x = r) {y ry : T} {n : Nat}
    (h : ChainTo m y ry n) : ∃ k, ChainTo (mset m x r) y ry k := by
  obtain ⟨p, hp, hpne⟩ := not_isRoot_elim hnotroot
  have hrx : r ≠ x := hr ▸ rootD_ne_self_of_step hwf hp hpne
  have hroot : IsRoot m r := hr ▸ isRoot_rootD hwf x
  induction h with
  | root z hz =>
    have hzx : z ≠ x := by
      intro hzz; subst hzz; exact hnotroot hz
    refine ⟨0, ChainTo.root z ?_⟩
    rcases hz with hz | hz
    · left; rwa [mget_mset_ne m x z r hzx]
    · right; rwa [mget_mset_ne m x z r hzx]
  | step z p2 ry n hp2 hne2 hc ih =>
    by_cases hzx : z = x
    · subst hzx
      have hry : ry = r := by
        have h1 := rootD_of_chainTo (ChainTo.step z p2 ry n hp2 hne2 hc)
        rw [hr] at h1; exact h1.symm
      subst hry
      refine ⟨1, ChainTo.step z ry ry 0 (mget_mset_self m z ry) hrx (ChainTo.root ry ?_)⟩
      rcases hroot with h0 | h0
      · left; rwa [mget_mset_ne m z ry ry hrx]
      · right; rwa [mget_mset_ne m z ry ry hrx]
    · obtain ⟨k, hk⟩ := ih
      exact ⟨k + 1, ChainTo.step z p2 ry k (by rwa [mget_mset_ne m x z r hzx]) hne2 hk⟩

theorem compress_wf [DecidableEq T] {m : List (T × T)} {x r : T}
    (hwf : ∀ z, ∃ rr k, ChainTo m z rr k)
    (hnotroot : ¬IsRoot m x) (hr : rootD m x = r) :
    ∀ z, ∃ rr k, ChainTo (mset m x r) z rr k := by
  intro z
  obtain ⟨rr, k, hc⟩ := hwf z
  obtain ⟨k', hc'⟩ := chainTo_compress hwf hnotroot hr hc
  exact ⟨rr, k', hc'⟩

theorem compress_rootD [DecidableEq T] {m : List (T × T)} {x r : T}
    (hwf : ∀ z, ∃ rr k, ChainTo m z rr k)
    (hnotroot : ¬IsRoot m x) (hr : rootD m x = r) (y : T) :
    rootD (mset m x r) y = rootD m y := by
  obtain ⟨n, hc⟩ := chainTo_rootD hwf y
  obtain ⟨k, hc'⟩ := chainTo_compress hwf hnotroot hr hc
  exact rootD_of_chainTo hc'

/-- Linking a root `a` beneath a root `b` redirects exactly the chains that
ended at `a`. -/
theorem chainTo_link [DecidableEq T] {m : List (T × T)} {a b : T}
    (ha : IsRoot m a) (hb : IsRoot m b) (hab : a ≠ b) {y ry : T} {n : Nat}
    (h : ChainTo m y ry n) :
    ∃ k, ChainTo (mset m a b) y (if ry = a then b else ry) k := by
  induction h with
  | root z hz =>
    by_cases hza : z = a
    · subst hza
      refine ⟨1, ?_⟩
      simp only [if_pos rfl]
      refine ChainTo.step z b b 0 (mget_mset_self m z b) (Ne.symm hab) (ChainTo.root b ?_)
      rcases hb with h0 | h0
      · left; rwa [mget_mset_ne m z b b (Ne.symm hab)]
      · right; rwa [mget_mset_ne m z b b (Ne.symm hab)]
    · refine ⟨0, ?_⟩
      simp only [if_neg hza]
      refine ChainTo.root z ?_
      rcases hz with h0 | h0
      · left; rwa [mget_mset_ne m a z b hza]
      · right; rwa [mget_mset_ne m a z b hza]
  | step z p ry n hp hne hc ih =>
    have hza : z ≠ a := by
      intro hzz; subst hzz
      rcases ha with h0 | h0
      · rw [h0] at hp; cases hp
      · rw [h0] at hp; exact hne (Option.some.inj hp).symm
    obtain ⟨k, hk⟩ := ih
    exact ⟨k + 1, ChainTo.step z p _ k (by rwa [mget_mset_ne m a z b hza]) hne hk⟩

theorem link_wf [DecidableEq T] {m : List (T × T)} {a b : T}
    (hwf : ∀ z, ∃ rr k, ChainTo m z rr k)
    (ha : IsRoot m a) (hb : IsRoot m b) (hab : a ≠ b) :
    ∀ z, ∃ rr k, ChainTo (mset m a b) z rr k := by
  intro z
  obtain ⟨rr, k, hc⟩ := hwf z
  obtain ⟨k', hc'⟩ := chainTo_link ha hb hab hc
  exact ⟨_, k', hc'⟩

theorem link_rootD [DecidableEq T] {m : List (T × T)} {a b : T}
    (hwf : ∀ z, ∃ rr k, ChainTo m z rr k)
    (ha : IsRoot m a) (hb : IsRoot m b) (hab : a ≠ b) (y : T) :
    rootD (mset m a b) y = if rootD m y = a then b else rootD m y := by
  obtain ⟨n, hc⟩ := chainTo_rootD hwf y
  obtain ⟨k, hc'⟩ := chainTo_link ha hb hab hc
  exact rootD_of_chainTo hc'

/-! ## Correctness of `find` -/

theorem ufEnsure_eq_of_mem [DecidableEq T] {s : UF T} {x : T} {p : T}
    (h : mget s.parent x = some p) : ufEnsure s x = s := by
  simp [ufEnsure, h]

theorem ufEnsure_spec [DecidableEq T] (s : UF T) (x : T) (hinv : UFInv s) :
    UFInv (ufEnsure s x) ∧
    (∀ y r n, ChainTo (ufEnsure s x).parent y r n ↔ ChainTo s.parent y r n) ∧
    (∀ y, rootD (ufEnsure s x).parent y = rootD s.parent y) ∧
    keys s.parent ⊆ keys (ufEnsure s x).parent ∧
    x ∈ keys (ufEnsure s x).parent := by
  rcases h : mget s.parent x with _ | p
  · have hx : x ∉ keys s.parent := (mget_eq_none_iff _ _).mp h
    have hpar : (ufEnsure s x).parent = mset s.parent x x := by
      simp [ufEnsure, h]
    have hiff : ∀ y r n, ChainTo (ufEnsure s x).parent y r n ↔ ChainTo s.parent y r n := by
      intro y r n
      rw [hpar]
      exact ⟨chainTo_selfloop_mp hx, chainTo_selfloop_mpr hx⟩
    have hkeys : keys (ufEnsure s x).parent = keys s.parent ++ [x] := by
      rw [hpar]; exact keys_mset_of_not_mem _ _ _ hx
    refine ⟨⟨?_, ?_, ?_⟩, hiff, ?_, ?_, ?_⟩
    · rw [hkeys]
      simpa [List.nodup_append] using ⟨hinv.keysNodup, hx⟩
    · intro a b hab
      rw [hkeys]
      rw [hpar] at hab
      by_cases hax : a = x
      · rw [hax, mget_mset_self] at hab
        have hbx : b = x := (Option.some.inj hab).symm
        rw [hbx]
        exact List.mem_append_right _ (by simp)
      · rw [mget_mset_ne _ _ _ _ hax] at hab
        exact List.mem_append_left _ (hinv.valKeys a b hab)
    · intro z
      obtain ⟨r, n, hc⟩ := hinv.wf z
      exact ⟨r, n, (hiff z r n).mpr hc⟩
    · intro z
      obtain ⟨r, n, hc⟩ := hinv.wf z
      rw [rootD_of_chainTo ((hiff z r n).mpr hc), rootD_of_chainTo hc]
    · rw [hkeys]; exact fun a ha => List.mem_append_left _ ha
    · rw [hkeys]; exact List.mem_append_right _ (by simp)
  · rw [ufEnsure_eq_of_mem h]
    exact ⟨hinv, fun y r n => Iff.rfl, fun y => rfl, List.Subset.refl _,
      mem_keys_of_mget h⟩

theorem findAux_ok [DecidableEq T] :
    ∀ (fuel : Nat) (s : UF T) (x : T), UFInv s →
    (∃ r n, ChainTo (ufEnsure s x).parent x r n ∧ n < fuel) →
    ∃ s', findAux fuel s x = some (rootD s.parent x, s') ∧ UFInv s' ∧
      (∀ z, rootD s'.parent z = rootD s.parent z) ∧
      rootD s.parent x ∈ keys s'.parent ∧
      keys s.parent ⊆ keys s'.parent := by
  intro fuel
  induction fuel with
  | zero =>
    rintro s x hinv ⟨r, n, hc, hn⟩
    omega
  | succ f ih =>
    rintro s x hinv ⟨r, n, hc, hn⟩
    obtain ⟨hinv1, hiff1, hroot1, hkeysub1, hxmem1⟩ := ufEnsure_spec s x hinv
    obtain ⟨px, hpx⟩ := mget_isSome_of_mem hxmem1
    by_cases hpxx : px = x
    · -- self-parented: return (x, ensured state)
      have hpx' : mget (ufEnsure s x).parent x = some x := by rw [hpx, hpxx]
      have hrx : rootD s.parent x = x := by
        rw [← hroot1 x]
        exact rootD_of_isRoot (Or.inr hpx')
      refine ⟨ufEnsure s x, ?_, hinv1, hroot1, ?_, hkeysub1⟩
      · simp [findAux, hpx', hrx]
      · rw [hrx]; exact hxmem1
    · -- recurse on the parent
      have hstep : ∃ n', n = n' + 1 ∧ ChainTo (ufEnsure s x).parent px r n' := by
        cases hc with
        | root _ h0 =>
          rcases h0 with h0 | h0
          · rw [h0] at hpx; cases hpx
          · rw [h0] at hpx; exact absurd (Option.some.inj hpx).symm hpxx
        | step _ p2 _ n2 hp2 hne2 hc2 =>
          rw [hpx] at hp2
          have hp2' : px = p2 := Option.some.inj hp2
          rw [hp2']
          exact ⟨n2, rfl, hc2⟩
      obtain ⟨n', hn', hcpx⟩ := hstep
      have hpxkeys : px ∈ keys (ufEnsure s x).parent := hinv1.valKeys x px hpx
      obtain ⟨q, hq⟩ := mget_isSome_of_mem hpxkeys
      have hens : ufEnsure (ufEnsure s x) px = ufEnsure s x := ufEnsure_eq_of_mem hq
      obtain ⟨s2, heq2, hinv2, hroot2, hrmem2, hkeys2⟩ :=
        ih (ufEnsure s x) px hinv1 ⟨r, n', by rw [hens]; exact hcpx, by omega⟩
      -- the root found for px is the root of x
      have hr1x : rootD (ufEnsure s x).parent x = rootD (ufEnsure s x).parent px :=
        rootD_step hinv1.wf hpx hpxx
      have hr2 : rootD (ufEnsure s x).parent px = rootD s.parent x := by
        rw [← hr1x, hroot1 x]
      have hrmem2' : rootD s.parent x ∈ keys s2.parent := hr2 ▸ hrmem2
      -- compression of x to the root
      have hxmem2 : x ∈ keys s2.parent := hkeys2 hxmem1
      have hrootne : rootD s2.parent x ≠ x := by
        rw [hroot2 x]
        exact rootD_ne_self_of_step hinv1.wf hpx hpxx
      have hnotroot : ¬IsRoot s2.parent x := by
        intro h0
        exact hrootne (rootD_of_isRoot h0)
      have hrcomp : rootD s2.parent x = rootD s.parent x := by
        rw [hroot2 x, hroot1 x]
      refine ⟨{ s2 with parent := mset s2.parent x (rootD s.parent x) },
        ?_, ⟨?_, ?_, ?_⟩, ?_, ?_, ?_⟩
      · simp only [findAux, hpx, if_neg hpxx, heq2, hr2]
      · simpa [keys_mset_of_mem _ _ _ hxmem2] using hinv2.keysNodup
      · intro a b hab
        simp only at hab
        rw [keys_mset_of_mem _ _ _ hxmem2]
        by_cases hax : a = x
        · rw [hax, mget_mset_self] at hab
          have hb : b = rootD s.parent x := (Option.some.inj hab).symm
          rw [hb]
          exact hrmem2'
        · rw [mget_mset_ne _ _ _ _ hax] at hab
          exact hinv2.valKeys a b hab
      · exact compress_wf hinv2.wf hnotroot hrcomp
      · intro z
        simp only
        rw [compress_rootD hinv2.wf hnotroot hrcomp z, hroot2 z, hroot1 z]
      · simp only
        rw [keys_mset_of_mem _ _ _ hxmem2]
        exact hrmem2'
      · simp only
        rw [keys_mset_of_mem _ _ _ hxmem2]
        exact fun a ha => hkeys2 (hkeysub1 ha)

theorem find_ok [DecidableEq T] (s : UF T) (x : T) (hinv : UFInv s) :
    ∃ s', find s x = some (rootD s.parent x, s') ∧ UFInv s' ∧
      (∀ z, rootD s'.parent z = rootD s.parent z) ∧
      rootD s.parent x ∈ keys s'.parent ∧
      keys s.parent ⊆ keys s'.parent := by
  apply findAux_ok (s.parent.length + 1) s x hinv
  rcases h : mget s.parent x with _ | p
  · have hpar : (ufEnsure s x).parent = mset s.parent x x := by simp [ufEnsure, h]
    refine ⟨x, 0, ChainTo.root x ?_, by omega⟩
    rw [hpar]
    right; exact mget_mset_self _ _ _
  · rw [ufEnsure_eq_of_mem h]
    obtain ⟨r, n, hc⟩ := hinv.wf x
    exact ⟨r, n, hc, by have := chainTo_depth_le hc; omega⟩

/-- Linking root `a` beneath root `b` preserves the union-find invariant and
redirects exactly the classes rooted at `a`. -/
theorem link_map_ok [DecidableEq T] {m : List (T × T)} {a b : T}
    (hnd : (keys m).Nodup) (hval : ∀ u v, mget m u = some v → v ∈ keys m)
    (hwf : ∀ z, ∃ r k, ChainTo m z r k)
    (hA : IsRoot m a) (hB : IsRoot m b) (hab : a ≠ b)
    (haK : a ∈ keys m) (hbK : b ∈ keys m) :
    (keys (mset m a b)).Nodup ∧
    (∀ u v, mget (mset m a b) u = some v → v ∈ keys (mset m a b)) ∧
    (∀ z, ∃ r k, ChainTo (mset m a b) z r k) ∧
    (∀ z, rootD (mset m a b) z = if rootD m z = a then b else rootD m z) ∧
    keys m ⊆ keys (mset m a b) := by
  have hkeq : keys (mset m a b) = keys m := keys_mset_of_mem _ _ _ haK
  refine ⟨by rwa [hkeq], ?_, link_wf hwf hA hB hab, link_rootD hwf hA hB hab, ?_⟩
  · intro u v huv
    rw [hkeq]
    by_cases hua : u = a
    · rw [hua, mget_mset_self] at huv
      rw [← Option.some.inj huv]
      exact hbK
    · rw [mget_mset_ne _ _ _ _ hua] at huv
      exact hval u v huv
  · rw [hkeq]
    exact fun z hz => hz

theorem union_ok [DecidableEq T] (s : UF T) (x y : T) (hinv : UFInv s) :
    ∃ b s', union s x y = some (b, s') ∧ UFInv s' ∧
      keys s.parent ⊆ keys s'.parent ∧
      (b = false → rootD s.parent x = rootD s.parent y ∧
        ∀ z, rootD s'.parent z = rootD s.parent z) ∧
      (b = true → rootD s.parent x ≠ rootD s.parent y ∧
        ∃ r0, (r0 = rootD s.parent x ∨ r0 = rootD s.parent y) ∧
          ∀ z, rootD s'.parent z =
            if rootD s.parent z = rootD s.parent x ∨ rootD s.parent z = rootD s.parent y
            then r0 else rootD s.parent z) := by
  obtain ⟨s1, hfx, hinv1, hroot1, hrxmem1, hkeys1⟩ := find_ok s x hinv
  obtain ⟨s2, hfy, hinv2, hroot2, hrymem2, hkeys2⟩ := find_ok s1 y hinv1
  have hry : rootD s1.parent y = rootD s.parent y := hroot1 y
  have hr2x : rootD s2.parent x = rootD s.parent x := by
    rw [hroot2 x, hroot1 x]
  have hr2y : rootD s2.parent y = rootD s.parent y := by
    rw [hroot2 y, hroot1 y]
  have hroot2s : ∀ z, rootD s2.parent z = rootD s.parent z := by
    intro z; rw [hroot2 z, hroot1 z]
  by_cases hxy : rootD s.parent x = rootD s1.parent y
  · -- same root: no merge
    refine ⟨false, s2, ?_, hinv2, fun z hz => hkeys2 (hkeys1 hz), ?_, ?_⟩
    · simp only [union, hfx, hfy, if_pos hxy]
    · intro _
      exact ⟨by rw [← hry]; exact hxy, hroot2s⟩
    · exact fun h0 => Bool.noConfusion h0
  · -- distinct roots: link
    have hxy' : rootD s.parent x ≠ rootD s.parent y := by rwa [hry] at hxy
    have hAx : IsRoot s2.parent (rootD s.parent x) := by
      rw [← hr2x]; exact isRoot_rootD hinv2.wf x
    have hAy : IsRoot s2.parent (rootD s.parent y) := by
      rw [← hr2y]; exact isRoot_rootD hinv2.wf y
    have hxK : rootD s.parent x ∈ keys s2.parent := hkeys2 hrxmem1
    have hyK : rootD s.parent y ∈ keys s2.parent := by
      rw [← hry]; exact hrymem2
    -- a helper to package either link direction
    have mk :
        ∀ (a b : T) (rk : List (T × Nat)),
          a ≠ b →
          IsRoot s2.parent a → IsRoot s2.parent b →
          a ∈ keys s2.parent → b ∈ keys s2.parent →
          ((a = rootD s.parent x ∧ b = rootD s.parent y) ∨
            (a = rootD s.parent y ∧ b = rootD s.parent x)) →
          UFInv { parent := mset s2.parent a b, rank := rk } ∧
          keys s.parent ⊆ keys (mset s2.parent a b) ∧
          (∃ r0, (r0 = rootD s.parent x ∨ r0 = rootD s.parent y) ∧
            ∀ z, rootD (mset s2.parent a b) z =
              if rootD s.parent z = rootD s.parent x ∨ rootD s.parent z = rootD s.parent y
              then r0 else rootD s.parent z) := by
      intro a b rk hab hA hB haK hbK hcase
      obtain ⟨hnd', hval', hwf', hroot', hsub'⟩ :=
        link_map_ok hinv2.keysNodup hinv2.valKeys hinv2.wf hA hB hab haK hbK
      refine ⟨⟨hnd', hval', hwf'⟩, fun z hz => hsub' (hkeys2 (hkeys1 hz)), b, ?_, ?_⟩
      · rcases hcase with ⟨_, hb⟩ | ⟨_, hb⟩
        · right; exact hb
        · left; exact hb
      · intro z
        rw [hroot' z, hroot2s z]
        rcases hcase with ⟨ha, hb⟩ | ⟨ha, hb⟩ <;> subst ha <;> subst hb
        · by_cases h1 : rootD s.parent z = rootD s.parent x
          · simp [h1]
          · by_cases h2 : rootD s.parent z = rootD s.parent y
            · simp [h1, h2]
            · simp [h1, h2]
        · by_cases h1 : rootD s.parent z = rootD s.parent y
          · simp [h1]
          · by_cases h2 : rootD s.parent z = rootD s.parent x
            · simp [h1, h2]
            · simp [h1, h2]
    set rankX := (mget s2.rank (rootD s.parent x)).getD 0 with hrankX
    set rankY := (mget s2.rank (rootD s1.parent y)).getD 0 with hrankY
    by_cases hr1 : rankX < rankY
    · -- parent[rootX] = rootY
      obtain ⟨hinv3, hsub3, hr03⟩ :=
        mk (rootD s.parent x) (rootD s1.parent y) s2.rank
          (by rwa [hry]) hAx (by rwa [hry]) hxK (by rwa [hry])
          (Or.inl ⟨rfl, hry⟩)
      refine ⟨true, _, ?_, hinv3, hsub3, fun h0 => Bool.noConfusion h0,
        fun _ => ⟨hxy', hr03⟩⟩
      simp only [union, hfx, hfy, if_neg hxy, if_pos hr1]
    · by_cases hr2 : rankY < rankX
      · -- parent[rootY] = rootX
        obtain ⟨hinv3, hsub3, hr03⟩ :=
          mk (rootD s1.parent y) (rootD s.parent x) s2.rank
            (by rw [hry]; exact hxy'.symm) (by rwa [hry]) hAx (by rwa [hry]) hxK
            (Or.inr ⟨hry, rfl⟩)
        refine ⟨true, _, ?_, hinv3, hsub3, fun h0 => Bool.noConfusion h0,
          fun _ => ⟨hxy', hr03⟩⟩
        simp only [union, hfx, hfy, if_neg hxy, if_neg hr1, if_pos hr2]
      · -- equal rank: parent[rootY] = rootX, rank[rootX] += 1
        obtain ⟨hinv3, hsub3, hr03⟩ :=
          mk (rootD s1.parent y) (rootD s.parent x)
            (mset s2.rank (rootD s.parent x) (rankX + 1))
            (by rw [hry]; exact hxy'.symm) (by rwa [hry]) hAx (by rwa [hry]) hxK
            (Or.inr ⟨hry, rfl⟩)
        refine ⟨true, _, ?_, hinv3, hsub3, fun h0 => Bool.noConfusion h0,
          fun _ => ⟨hxy', hr03⟩⟩
        simp only [union, hfx, hfy, if_neg hxy, if_neg hr1, if_neg hr2]

/-! ## Undirected reachability over edge-pair lists -/

/-- The unordered pairs of an edge list. -/
def edgePairs (es : List (Edge T)) : List (T × T) :=
  es.map (fun e => (e.«from», e.«to»))

/-- One undirected step along an edge of `E`. -/
def pairAdj (E : List (T × T)) (a b : T) : Prop := (a, b) ∈ E ∨ (b, a) ∈ E

/-- Reachability along the undirected edges of `E`. -/
def Reaches (E : List (T × T)) : T → T → Prop := Relation.ReflTransGen (pairAdj E)

theorem pairAdj_symm {E : List (T × T)} {a b : T} (h : pairAdj E a b) :
    pairAdj E b a := h.symm

theorem reaches_refl (E : List (T × T)) (a : T) : Reaches E a a :=
  Relation.ReflTransGen.refl

theorem reaches_trans {E : List (T × T)} {a b c : T} (h1 : Reaches E a b)
    (h2 : Reaches E b c) : Reaches E a c := h1.trans h2

theorem reaches_symm {E : List (T × T)} {a b : T} (h : Reaches E a b) :
    Reaches E b a := by
  induction h with
  | refl => exact Relation.ReflTransGen.refl
  | tail hab hbc ih =>
    exact Relation.ReflTransGen.trans (Relation.ReflTransGen.single (pairAdj_symm hbc)) ih

theorem reaches_single {E : List (T × T)} {a b : T} (h : (a, b) ∈ E) :
    Reaches E a b := Relation.ReflTransGen.single (Or.inl h)

theorem reaches_mono {E E' : List (T × T)} (hsub : E ⊆ E') {a b : T}
    (h : Reaches E a b) : Reaches E' a b := by
  refine Relation.ReflTransGen.mono ?_ h
  rintro u v (huv | huv)
  · exact Or.inl (hsub huv)
  · exact Or.inr (hsub huv)

theorem reaches_nil_iff {a b : T} : Reaches ([] : List (T × T)) a b ↔ a = b := by
  constructor
  · intro h
    induction h with
    | refl => rfl
    | tail hab hbc ih => rcases hbc with h0 | h0 <;> cases h0
  · rintro rfl; exact Relation.ReflTransGen.refl

/-- Decomposing a walk that may use one extra edge `(a, b)`. -/
theorem reaches_append_decomp {E : List (T × T)} {a b u v : T}
    (h : Reaches (E ++ [(a, b)]) u v) :
    Reaches E u v ∨ (Reaches E u a ∧ Reaches E b v) ∨
      (Reaches E u b ∧ Reaches E a v) := by
  induction h with
  | refl => exact Or.inl (reaches_refl E u)
  | tail hw hstep ih =>
    rename_i w z
    have hcase : pairAdj E w z ∨ (w = a ∧ z = b) ∨ (w = b ∧ z = a) := by
      rcases hstep with h0 | h0 <;> rcases List.mem_append.mp h0 with h1 | h1
      · exact Or.inl (Or.inl h1)
      · simp only [List.mem_singleton] at h1
        exact Or.inr (Or.inl ⟨congrArg Prod.fst h1, congrArg Prod.snd h1⟩)
      · exact Or.inl (Or.inr h1)
      · simp only [List.mem_singleton] at h1
        exact Or.inr (Or.inr ⟨congrArg Prod.snd h1, congrArg Prod.fst h1⟩)
    rcases hcase with hadj | ⟨hwa, hzb⟩ | ⟨hwb, hza⟩
    · rcases ih with h1 | ⟨h1, h2⟩ | ⟨h1, h2⟩
      · exact Or.inl (h1.tail hadj)
      · exact Or.inr (Or.inl ⟨h1, h2.tail hadj⟩)
      · exact Or.inr (Or.inr ⟨h1, h2.tail hadj⟩)
    · subst hwa; subst hzb
      rcases ih with h1 | ⟨h1, h2⟩ | ⟨h1, h2⟩
      · exact Or.inr (Or.inl ⟨h1, reaches_refl E _⟩)
      · exact Or.inr (Or.inl ⟨h1, reaches_refl E _⟩)
      · exact Or.inl h1
    · subst hwb; subst hza
      rcases ih with h1 | ⟨h1, h2⟩ | ⟨h1, h2⟩
      · exact Or.inr (Or.inr ⟨h1, reaches_refl E _⟩)
      · exact Or.inl h1
      · exact Or.inr (Or.inr ⟨h1, reaches_refl E _⟩)

theorem reaches_append_left {E E' : List (T × T)} {u v : T} (h : Reaches E u v) :
    Reaches (E ++ E') u v :=
  reaches_mono (fun p hp => List.mem_append_left E' hp) h

theorem reaches_append_edge {E : List (T × T)} (a b : T) :
    Reaches (E ++ [(a, b)]) a b :=
  reaches_single (List.mem_append_right E (by simp))

/-- Appending an edge between already-connected endpoints changes nothing. -/
theorem reaches_append_redundant {E : List (T × T)} {a b : T}
    (hab : Reaches E a b) {u v : T} :
    Reaches (E ++ [(a, b)]) u v ↔ Reaches E u v := by
  constructor
  · intro h
    rcases reaches_append_decomp h with h1 | ⟨h1, h2⟩ | ⟨h1, h2⟩
    · exact h1
    · exact (h1.trans hab).trans h2
    · exact (h1.trans (reaches_symm hab)).trans h2
  · exact reaches_append_left

/-- If every edge of `E2` joins endpoints already connected in `E1`, appending
`E2` adds no connectivity. -/
theorem reaches_append_covered {E1 E2 : List (T × T)}
    (hcov : ∀ p ∈ E2, Reaches E1 p.1 p.2) {u v : T}
    (h : Reaches (E1 ++ E2) u v) : Reaches E1 u v := by
  induction h with
  | refl => exact reaches_refl E1 u
  | tail hw hstep ih =>
    rename_i w z
    refine ih.trans ?_
    rcases hstep with h0 | h0 <;> rcases List.mem_append.mp h0 with h1 | h1
    · exact Relation.ReflTransGen.single (Or.inl h1)
    · exact hcov _ h1
    · exact Relation.ReflTransGen.single (Or.inr h1)
    · exact reaches_symm (hcov _ h1)

/-! ## Forests -/

/-- Lists of edges accepted one at a time, each joining two components that
were not yet connected even through the ambient edge list `P`. -/
inductive ForestExt (P : List (T × T)) : List (T × T) → Prop
  | nil : ForestExt P []
  | snoc {A : List (T × T)} {a b : T} (hA : ForestExt P A)
      (hnew : ¬Reaches (P ++ A) a b) : ForestExt P (A ++ [(a, b)])

/-- Acyclicity: every edge is a bridge. -/
def Acyclic [DecidableEq T] (E : List (T × T)) : Prop :=
  ∀ e ∈ E, ¬Reaches (E.erase e) e.1 e.2

theorem forestExt_not_mem {P A : List (T × T)} {a b : T}
    (h : ForestExt P (A ++ [(a, b)]))
    (hstep : ¬Reaches (P ++ A) a b) : (a, b) ∉ A := by
  intro hmem
  exact hstep (reaches_mono (fun p hp => List.mem_append_right P hp)
    (reaches_single hmem))

theorem forestExt_acyclic [DecidableEq T] {P A : List (T × T)}
    (h : ForestExt P A) : Acyclic A := by
  induction h with
  | nil => intro e he; cases he
  | snoc hA hnew ih =>
    rename_i A a b
    intro e he
    have hmemA : (a, b) ∉ A := by
      intro hmem
      exact hnew (reaches_mono (fun p hp => List.mem_append_right P hp)
        (reaches_single hmem))
    rcases List.mem_append.mp he with heA | heLast
    · -- an old edge stays a bridge
      have herase : (A ++ [(a, b)]).erase e = A.erase e ++ [(a, b)] :=
        List.erase_append_left _ heA
      rw [herase]
      intro hreach
      have hAsub : A.erase e ⊆ A := fun p hp => List.mem_of_mem_erase hp
      rcases reaches_append_decomp hreach with h1 | ⟨h1, h2⟩ | ⟨h1, h2⟩
      · exact ih e heA h1
      · -- a walk through (a,b) would close a cycle of A containing a–b
        have he12 : Reaches A e.1 e.2 := reaches_single (by
          have : (e.1, e.2) = e := rfl
          rw [this]; exact heA)
        have hab : Reaches A a b :=
          ((reaches_symm (reaches_mono hAsub h1)).trans he12).trans
            (reaches_symm (reaches_mono hAsub h2))
        exact hnew (reaches_mono (fun p hp => List.mem_append_right P hp) hab)
      · have he12 : Reaches A e.1 e.2 := reaches_single (by
          have : (e.1, e.2) = e := rfl
          rw [this]; exact heA)
        have hab : Reaches A b a :=
          ((reaches_symm (reaches_mono hAsub h1)).trans he12).trans
            (reaches_symm (reaches_mono hAsub h2))
        exact hnew (reaches_mono (fun p hp => List.mem_append_right P hp)
          (reaches_symm hab))
    · -- the new edge is a bridge because its endpoints were unconnected
      simp only [List.mem_singleton] at heLast
      subst heLast
      have herase : (A ++ [(a, b)]).erase (a, b) = A := by
        rw [List.erase_append_right _ hmemA]
        simp
      rw [herase]
      intro hreach
      exact hnew (reaches_mono (fun p hp => List.mem_append_right P hp) hreach)

/-! ## The union-find equivalence mirrors reachability over processed edges -/

theorem rootD_iff_append_false [DecidableEq T] {s : UF T} {x y : T} {P : List (T × T)}
    (hiff : ∀ u v, rootD s.parent u = rootD s.parent v ↔ Reaches P u v)
    (heq : rootD s.parent x = rootD s.parent y) (u v : T) :
    rootD s.parent u = rootD s.parent v ↔ Reaches (P ++ [(x, y)]) u v := by
  rw [reaches_append_redundant ((hiff x y).mp heq)]
  exact hiff u v

theorem rootD_iff_append_true [DecidableEq T] {s s' : UF T} {x y : T} {P : List (T × T)}
    (hiff : ∀ u v, rootD s.parent u = rootD s.parent v ↔ Reaches P u v)
    (hne : rootD s.parent x ≠ rootD s.parent y) (r0 : T)
    (hr0 : r0 = rootD s.parent x ∨ r0 = rootD s.parent y)
    (htr : ∀ z, rootD s'.parent z =
      if rootD s.parent z = rootD s.parent x ∨ rootD s.parent z = rootD s.parent y
      then r0 else rootD s.parent z) :
    ∀ u v, rootD s'.parent u = rootD s'.parent v ↔ Reaches (P ++ [(x, y)]) u v := by
  intro u v
  have hedge : Reaches (P ++ [(x, y)]) x y := reaches_append_edge x y
  constructor
  · intro h
    rw [htr u, htr v] at h
    by_cases hu : rootD s.parent u = rootD s.parent x ∨ rootD s.parent u = rootD s.parent y
    · by_cases hv : rootD s.parent v = rootD s.parent x ∨ rootD s.parent v = rootD s.parent y
      · have hu' : Reaches (P ++ [(x, y)]) u x ∨ Reaches (P ++ [(x, y)]) u y := by
          rcases hu with h1 | h1
          · exact Or.inl (reaches_append_left ((hiff u x).mp h1))
          · exact Or.inr (reaches_append_left ((hiff u y).mp h1))
        have hv' : Reaches (P ++ [(x, y)]) x v ∨ Reaches (P ++ [(x, y)]) y v := by
          rcases hv with h1 | h1
          · exact Or.inl (reaches_symm (reaches_append_left ((hiff v x).mp h1)))
          · exact Or.inr (reaches_symm (reaches_append_left ((hiff v y).mp h1)))
        rcases hu' with h1 | h1 <;> rcases hv' with h2 | h2
        · exact h1.trans h2
        · exact (h1.trans hedge).trans h2
        · exact (h1.trans (reaches_symm hedge)).trans h2
        · exact h1.trans h2
      · rw [if_pos hu, if_neg hv] at h
        exfalso
        rcases hr0 with h0 | h0 <;> rw [h0] at h
        · exact hv (Or.inl h.symm)
        · exact hv (Or.inr h.symm)
    · by_cases hv : rootD s.parent v = rootD s.parent x ∨ rootD s.parent v = rootD s.parent y
      · rw [if_neg hu, if_pos hv] at h
        exfalso
        rcases hr0 with h0 | h0 <;> rw [h0] at h
        · exact hu (Or.inl h)
        · exact hu (Or.inr h)
      · rw [if_neg hu, if_neg hv] at h
        exact reaches_append_left ((hiff u v).mp h)
  · intro h
    rcases reaches_append_decomp h with h1 | ⟨h1, h2⟩ | ⟨h1, h2⟩
    · have heq := (hiff u v).mpr h1
      rw [htr u, htr v, heq]
    · have hux := (hiff u x).mpr h1
      have hyv := (hiff y v).mpr h2
      rw [htr u, htr v, if_pos (Or.inl hux), if_pos (Or.inr hyv.symm)]
    · have huy := (hiff u y).mpr h1
      have hxv := (hiff x v).mpr h2
      rw [htr u, htr v, if_pos (Or.inr huy), if_pos (Or.inl hxv.symm)]

/-- Processing the fixed edges: every edge is pushed, and the union-find
partition ends up mirroring reachability over all their pairs. -/
theorem addFixed_fold_ok [DecidableEq T] :
    ∀ (es : List (Edge T)) (s : UF T) (out : List (Edge T)) (P : List (T × T)),
    UFInv s →
    (∀ u v, rootD s.parent u = rootD s.parent v ↔ Reaches P u v) →
    ∃ s', es.foldl addFixed (some (s, out)) = some (s', out ++ es) ∧ UFInv s' ∧
      ∀ u v, rootD s'.parent u = rootD s'.parent v ↔
        Reaches (P ++ edgePairs es) u v := by
  intro es
  induction es with
  | nil =>
    intro s out P hinv hiff
    exact ⟨s, by simp, hinv, by simpa [edgePairs] using hiff⟩
  | cons e es ih =>
    intro s out P hinv hiff
    obtain ⟨b, s1, huni, hinv1, hkeys1, hfalse, htrue⟩ :=
      union_ok s e.«from» e.«to» hinv
    have hstep : addFixed (some (s, out)) e = some (s1, out ++ [e]) := by
      simp [addFixed, huni]
    have hiff1 : ∀ u v, rootD s1.parent u = rootD s1.parent v ↔
        Reaches (P ++ [(e.«from», e.«to»)]) u v := by
      cases b with
      | false =>
        obtain ⟨heq, hpres⟩ := hfalse rfl
        intro u v
        rw [hpres u, hpres v]
        exact rootD_iff_append_false hiff heq u v
      | true =>
        obtain ⟨hne, r0, hr0, htr⟩ := htrue rfl
        exact rootD_iff_append_true hiff hne r0 hr0 htr
    obtain ⟨s', hfold, hinv', hiff'⟩ :=
      ih s1 (out ++ [e]) (P ++ [(e.«from», e.«to»)]) hinv1 hiff1
    refine ⟨s', ?_, hinv', ?_⟩
    · rw [List.foldl_cons, hstep, hfold]
      simp
    · intro u v
      rw [hiff' u v]
      simp [edgePairs, List.append_assoc]

theorem list_toFinset_map {A B : Type} [DecidableEq A] [DecidableEq B]
    (l : List A) (f : A → B) : (l.map f).toFinset = l.toFinset.image f := by
  ext b
  simp

/-- Merging exactly the two classes rooted at `rx` and `ry` drops the number of
distinct roots by one. -/
theorem card_image_collapse [DecidableEq T] (S : Finset T) (rx ry r0 : T)
    (hrx : rx ∈ S) (hry : ry ∈ S) (hne : rx ≠ ry) (hr0 : r0 = rx ∨ r0 = ry) :
    (S.image (fun t => if t = rx ∨ t = ry then r0 else t)).card + 1 = S.card := by
  have himg : S.image (fun t => if t = rx ∨ t = ry then r0 else t) =
      insert r0 ((S.erase rx).erase ry) := by
    ext t
    simp only [Finset.mem_image, Finset.mem_insert, Finset.mem_erase]
    constructor
    · rintro ⟨u, hu, hut⟩
      by_cases hcase : u = rx ∨ u = ry
      · rw [if_pos hcase] at hut
        exact Or.inl hut.symm
      · rw [if_neg hcase] at hut
        push_neg at hcase
        subst hut
        exact Or.inr ⟨hcase.2, hcase.1, hu⟩
    · rintro (rfl | ⟨hty, htx, htS⟩)
      · exact ⟨rx, hrx, by rw [if_pos (Or.inl rfl)]⟩
      · exact ⟨t, htS, by rw [if_neg (by push_neg; exact ⟨htx, hty⟩)]⟩
  have hr0ne : r0 ∉ (S.erase rx).erase ry := by
    rcases hr0 with rfl | rfl
    · intro hmem
      exact (Finset.not_mem_erase r0 S) (Finset.mem_of_mem_erase hmem)
    · intro hmem
      exact (Finset.not_mem_erase r0 (S.erase rx)) hmem
  have hryx : ry ∈ S.erase rx := Finset.mem_erase.mpr ⟨Ne.symm hne, hry⟩
  have h2 : 1 < S.card := Finset.one_lt_card.mpr ⟨rx, hrx, ry, hry, hne⟩
  rw [himg, Finset.card_insert_of_not_mem hr0ne,
    Finset.card_erase_of_mem hryx, Finset.card_erase_of_mem hrx]
  omega

theorem forestExt_cons {P A : List (T × T)} {p : T × T}
    (h : ForestExt (P ++ [p]) A) (hp : ¬Reaches P p.1 p.2) :
    ForestExt P (p :: A) := by
  induction h with
  | nil =>
    have : (p :: ([] : List (T × T))) = [] ++ [p] := by simp
    rw [this]
    refine ForestExt.snoc ForestExt.nil ?_
    simpa using hp
  | snoc hA hnew ih =>
    rename_i A a b
    have hr : (p :: (A ++ [(a, b)])) = (p :: A) ++ [(a, b)] := by simp
    rw [hr]
    refine ForestExt.snoc ih ?_
    intro hreach
    apply hnew
    have : (P ++ [p]) ++ A = P ++ (p :: A) := by simp
    rw [this]
    exact hreach

/-- Processing the shuffled removable edges: the accepted edges extend the
fixed-phase forest, preserve the reachability mirror, cover every processed
edge, and each acceptance merges exactly two root classes. -/
theorem addRemovable_fold_ok [DecidableEq T] (W : List T) :
    ∀ (es : List (Edge T)) (s : UF T) (out : List (Edge T)) (P : List (T × T)),
    UFInv s →
    (∀ u v, rootD s.parent u = rootD s.parent v ↔ Reaches P u v) →
    (∀ e ∈ es, e.«from» ∈ W ∧ e.«to» ∈ W) →
    ∃ (s' : UF T) (acc : List (Edge T)),
      es.foldl addRemovable (some (s, out)) = some (s', out ++ acc) ∧
      UFInv s' ∧
      (∀ u v, rootD s'.parent u = rootD s'.parent v ↔
        Reaches (P ++ edgePairs acc) u v) ∧
      (∀ e ∈ acc, e ∈ es) ∧
      ForestExt P (edgePairs acc) ∧
      (∀ e ∈ es, Reaches (P ++ edgePairs acc) e.«from» e.«to») ∧
      (W.map (rootD s'.parent)).toFinset.card + acc.length =
        (W.map (rootD s.parent)).toFinset.card := by
  intro es
  induction es with
  | nil =>
    intro s out P hinv hiff hW
    refine ⟨s, [], by simp, hinv, ?_, by simp, ForestExt.nil, by simp, by simp⟩
    simpa [edgePairs] using hiff
  | cons e es ih =>
    intro s out P hinv hiff hW
    obtain ⟨b, s1, huni, hinv1, hkeys1, hfalse, htrue⟩ :=
      union_ok s e.«from» e.«to» hinv
    cases b with
    | false =>
      obtain ⟨heq, hpres⟩ := hfalse rfl
      have hstep : addRemovable (some (s, out)) e = some (s1, out) := by
        simp [addRemovable, huni]
      have hiff1 : ∀ u v, rootD s1.parent u = rootD s1.parent v ↔ Reaches P u v := by
        intro u v
        rw [hpres u, hpres v]
        exact hiff u v
      obtain ⟨s', acc, hfold, hinv', hiff', hsub', hforest', hcov', hcard'⟩ :=
        ih s1 out P hinv1 hiff1 (fun e' he' => hW e' (List.mem_cons_of_mem e he'))
      refine ⟨s', acc, ?_, hinv', hiff', ?_, hforest', ?_, ?_⟩
      · rw [List.foldl_cons, hstep, hfold]
      · exact fun e' he' => List.mem_cons_of_mem e (hsub' e' he')
      · intro e' he'
        rcases List.mem_cons.mp he' with rfl | he'
        · exact reaches_append_left ((hiff _ _).mp heq)
        · exact hcov' e' he'
      · have hmapeq : W.map (rootD s1.parent) = W.map (rootD s.parent) :=
          List.map_congr_left (fun a _ => hpres a)
        rw [← hmapeq]
        exact hcard'
    | true =>
      obtain ⟨hne, r0, hr0, htr⟩ := htrue rfl
      have hstep : addRemovable (some (s, out)) e = some (s1, out ++ [e]) := by
        simp [addRemovable, huni]
      have hiff1 := rootD_iff_append_true hiff hne r0 hr0 htr
      obtain ⟨s', acc, hfold, hinv', hiff', hsub', hforest', hcov', hcard'⟩ :=
        ih s1 (out ++ [e]) (P ++ [(e.«from», e.«to»)]) hinv1 hiff1
          (fun e' he' => hW e' (List.mem_cons_of_mem e he'))
      have hassoc : ∀ (L : List (T × T)),
          (P ++ [(e.«from», e.«to»)]) ++ L = P ++ ((e.«from», e.«to») :: L) := by
        intro L; simp
      refine ⟨s', e :: acc, ?_, hinv', ?_, ?_, ?_, ?_, ?_⟩
      · rw [List.foldl_cons, hstep, hfold]
        simp
      · intro u v
        rw [hiff' u v]
        rw [show edgePairs (e :: acc) = (e.«from», e.«to») :: edgePairs acc from rfl,
          ← hassoc (edgePairs acc)]
      · intro e' he'
        rcases List.mem_cons.mp he' with rfl | he'
        · exact List.mem_cons_self e' es
        · exact List.mem_cons_of_mem e (hsub' e' he')
      · rw [show edgePairs (e :: acc) = (e.«from», e.«to») :: edgePairs acc from rfl]
        refine forestExt_cons hforest' ?_
        intro hreach
        exact hne ((hiff _ _).mpr hreach)
      · intro e' he'
        rw [show edgePairs (e :: acc) = (e.«from», e.«to») :: edgePairs acc from rfl,
          ← hassoc (edgePairs acc)]
        rcases List.mem_cons.mp he' with rfl | he'
        · exact reaches_single
            (List.mem_append_left _ (List.mem_append_right _ (by simp)))
        · exact hcov' e' he'
      · -- counting: this acceptance merged two distinct root classes
        have hfrom : e.«from» ∈ W := (hW e (List.mem_cons_self e es)).1
        have hto : e.«to» ∈ W := (hW e (List.mem_cons_self e es)).2
        have hmapeq : W.map (rootD s1.parent) =
            (W.map (rootD s.parent)).map
              (fun t => if t = rootD s.parent e.«from» ∨ t = rootD s.parent e.«to»
                then r0 else t) := by
          rw [List.map_map]
          exact List.map_congr_left (fun a _ => htr a)
        have hrxS : rootD s.parent e.«from» ∈ (W.map (rootD s.parent)).toFinset := by
          rw [List.mem_toFinset]
          exact List.mem_map_of_mem _ hfrom
        have hryS : rootD s.parent e.«to» ∈ (W.map (rootD s.parent)).toFinset := by
          rw [List.mem_toFinset]
          exact List.mem_map_of_mem _ hto
        have hcollapse := card_image_collapse (W.map (rootD s.parent)).toFinset
          (rootD s.parent e.«from») (rootD s.parent e.«to») r0 hrxS hryS hne hr0
        rw [hmapeq] at hcard'
        rw [← list_toFinset_map] at hcollapse
        simp only [List.length_cons]
        omega

/-! ## The Fisher–Yates shuffle is a permutation -/

theorem set_self_eq : ∀ (l : List T) (i : Nat) (a : T), l[i]? = some a →
    l.set i a = l := by
  intro l
  induction l with
  | nil => intro i a h; cases h
  | cons x xs ih =>
    intro i a h
    match i with
    | 0 =>
      simp only [List.getElem?_cons_zero, Option.some.injEq] at h
      simp [h]
    | k + 1 =>
      simp only [List.getElem?_cons_succ] at h
      simp [List.set_cons_succ, ih k a h]

theorem cons_set_perm : ∀ (xs : List T) (k : Nat) (x b : T), xs[k]? = some b →
    (b :: xs.set k x).Perm (x :: xs) := by
  intro xs
  induction xs with
  | nil => intro k x b h; cases h
  | cons c t ih =>
    intro k x b h
    match k with
    | 0 =>
      simp only [List.getElem?_cons_zero, Option.some.injEq] at h
      rw [← h]
      exact List.Perm.swap x c t
    | m + 1 =>
      simp only [List.getElem?_cons_succ] at h
      exact ((List.Perm.swap c b (t.set m x)).trans
        ((ih m x b h).cons c)).trans (List.Perm.swap x c t)

theorem set_set_perm : ∀ (l : List T) (i j : Nat) (a b : T),
    l[i]? = some a → l[j]? = some b → ((l.set i b).set j a).Perm l := by
  intro l
  induction l with
  | nil => intro i j a b h; cases h
  | cons x xs ih =>
    intro i j a b hi hj
    match i, j with
    | 0, 0 =>
      simp only [List.getElem?_cons_zero, Option.some.injEq] at hi hj
      rw [← hi]
      exact List.Perm.refl _
    | 0, m + 1 =>
      simp only [List.getElem?_cons_zero, Option.some.injEq] at hi
      simp only [List.getElem?_cons_succ] at hj
      rw [← hi]
      exact cons_set_perm xs m x b hj
    | k + 1, 0 =>
      simp only [List.getElem?_cons_zero, Option.some.injEq] at hj
      simp only [List.getElem?_cons_succ] at hi
      rw [← hj]
      exact cons_set_perm xs k x a hi
    | k + 1, m + 1 =>
      simp only [List.getElem?_cons_succ] at hi hj
      exact (ih k m a b hi hj).cons x

theorem swapIdx_perm (l : List T) (i j : Nat) : (swapIdx l i j).Perm l := by
  rcases hi : l[i]? with _ | a <;> rcases hj : l[j]? with _ | b <;>
    simp only [swapIdx, hi, hj]
  · exact List.Perm.refl l
  · exact List.Perm.refl l
  · exact List.Perm.refl l
  · exact set_set_perm l i j a b hi hj

theorem shuffleGo_perm [DecidableEq T] (rand : Nat → ℚ) :
    ∀ (i : Nat) (l : List T) (k : Nat), (shuffleGo rand l k i).Perm l := by
  intro i
  induction i with
  | zero => intro l k; exact List.Perm.refl l
  | succ n ih =>
    intro l k
    exact (ih _ _).trans (swapIdx_perm l (n + 1) (jIdx (rand k) (n + 2)))

theorem shuffle_perm [DecidableEq T] (l : List T) (rand : Nat → ℚ) :
    (shuffle l rand).Perm l := shuffleGo_perm rand (l.length - 1) l 0

/-! ## Running the whole engine -/

theorem rootD_nil [DecidableEq T] (x : T) : rootD ([] : List (T × T)) x = x := rfl

theorem UFInv_init [DecidableEq T] : UFInv ({ parent := [], rank := [] } : UF T) := by
  refine ⟨by simp [keys], fun x y h => ?_, fun x => ⟨x, 0, ChainTo.root x (Or.inl rfl)⟩⟩
  cases h

/-- The complete run of `spanningTree` on a graph with nonempty node set:
all fixed edges first, then the accepted removable edges, with the union-find
partition mirroring reachability, coverage of every removable edge, and the
root-class count dropping once per accepted edge. -/
theorem spanningTree_run [DecidableEq T] (g : Graph T) (rand : Nat → ℚ)
    (hne : g.nodes.isEmpty = false) (W : List T)
    (hW : ∀ e ∈ shuffle (g.edges.filter (fun e => !e.isFixed)) rand,
      e.«from» ∈ W ∧ e.«to» ∈ W) :
    ∃ (sF sR : UF T) (acc : List (Edge T)),
      spanningTree g rand =
        some (g.edges.filter (fun e => e.isFixed) ++ acc) ∧
      (∀ u v, rootD sF.parent u = rootD sF.parent v ↔
        Reaches (edgePairs (g.edges.filter (fun e => e.isFixed))) u v) ∧
      (∀ u v, rootD sR.parent u = rootD sR.parent v ↔
        Reaches (edgePairs (g.edges.filter (fun e => e.isFixed)) ++ edgePairs acc)
          u v) ∧
      (∀ e ∈ acc, e ∈ shuffle (g.edges.filter (fun e => !e.isFixed)) rand) ∧
      ForestExt (edgePairs (g.edges.filter (fun e => e.isFixed))) (edgePairs acc) ∧
      (∀ e ∈ shuffle (g.edges.filter (fun e => !e.isFixed)) rand,
        Reaches (edgePairs (g.edges.filter (fun e => e.isFixed)) ++ edgePairs acc)
          e.«from» e.«to») ∧
      (W.map (rootD sR.parent)).toFinset.card + acc.length =
        (W.map (rootD sF.parent)).toFinset.card := by
  have hiff0 : ∀ u v : T,
      rootD ({ parent := [], rank := [] } : UF T).parent u =
        rootD ({ parent := [], rank := [] } : UF T).parent v ↔
      Reaches ([] : List (T × T)) u v := by
    intro u v
    rw [show ({ parent := [], rank := [] } : UF T).parent = [] from rfl,
      rootD_nil, rootD_nil]
    exact reaches_nil_iff.symm
  obtain ⟨sF, hfoldF, hinvF, hiffF0⟩ :=
    addFixed_fold_ok (g.edges.filter (fun e => e.isFixed))
      { parent := [], rank := [] } [] [] UFInv_init hiff0
  rw [List.nil_append] at hfoldF
  have hiffF : ∀ u v, rootD sF.parent u = rootD sF.parent v ↔
      Reaches (edgePairs (g.edges.filter (fun e => e.isFixed))) u v := by
    intro u v
    rw [hiffF0 u v, List.nil_append]
  obtain ⟨sR, acc, hfoldR, hinvR, hiffR, hsub, hforest, hcov, hcard⟩ :=
    addRemovable_fold_ok W (shuffle (g.edges.filter (fun e => !e.isFixed)) rand)
      sF (g.edges.filter (fun e => e.isFixed))
      (edgePairs (g.edges.filter (fun e => e.isFixed))) hinvF hiffF hW
  refine ⟨sF, sR, acc, ?_, hiffF, hiffR, hsub, hforest, hcov, hcard⟩
  simp only [spanningTree, hne, Bool.false_eq_true, if_false, hfoldF, hfoldR]

/-! ## The maze layer (`maze-core.ts`, `maze-generator.ts`)

`CellId` is the string type in the source; the embedding is generic over any
totally ordered identifier type (the source compares cell ids with `<` to
canonicalize undirected pairs).  A JS `Set` of *arrays* compares members by
reference, so `maze.passages`/`maze.boundaryWalls` never deduplicate; they are
modeled as plain lists in insertion order. -/

/-- `Maze` from `maze-core.ts`. -/
structure Maze (T : Type) where
  cells : List T
  passages : List (T × T)
  boundaryWalls : List (T × T)
  entrance : T
  exit : T

/-- The `Grid` interface of `maze-core.ts`, restricted to the members the
algorithmic core consults (`position`/`toRenderable` are render-only). -/
structure Grid (T : Type) where
  cells : List T
  neighbors : T → List T
  entranceCell : T
  exitCell : T
  boundaryWalls : T → List (T × T)

/-- `makePassage` from `maze-core.ts`: sorted pair. -/
def makePassage [LinearOrder T] (a b : T) : T × T :=
  if a < b then (a, b) else (b, a)

/-- One iteration of the partition loop at the end of `generateMaze`. -/
def classifyStep [LinearOrder T] (cells : List T)
    (pw : List (T × T) × List (T × T)) (e : Edge T) :
    List (T × T) × List (T × T) :=
  if e.«from» ∈ cells ∧ e.«to» ∈ cells then
    (pw.1 ++ [makePassage e.«from» e.«to»], pw.2)
  else if e.«from» ∈ cells ∨ e.«to» ∈ cells then
    (pw.1, pw.2 ++ [makePassage e.«from» e.«to»])
  else pw

/-- The partition loop at the end of `generateMaze`: internal passages (both
endpoints real cells) vs boundary walls (exactly one real endpoint); edges
between two virtual cells are ignored. -/
def classifyEdges [LinearOrder T] (cells : List T) (treeEdges : List (Edge T)) :
    List (T × T) × List (T × T) :=
  treeEdges.foldl (classifyStep cells) ([], [])

/-- `generateMaze` from `maze-generator.ts`; thrown errors become `Except.error`. -/
def generateMaze [LinearOrder T] (grid : Grid T) (rand : Nat → ℚ) :
    Except String (Maze T) :=
  let cells := jsSet grid.cells
  let entrance := grid.entranceCell
  let exit := grid.exitCell
  if entrance ∉ cells then Except.error "Entrance cell not in grid"
  else if exit ∉ cells then Except.error "Exit cell not in grid"
  else
    let internalEdges : List (Edge T) := cells.flatMap (fun cell =>
      (grid.neighbors cell).filterMap (fun neighbor =>
        if cell < neighbor then some ⟨cell, neighbor, false⟩ else none))
    let boundaryEdges : List (Edge T) := cells.flatMap (fun cell =>
      if cell = entrance ∨ cell = exit then []
      else (grid.boundaryWalls cell).map (fun p => ⟨p.1, p.2, true⟩))
    let edges := internalEdges ++ boundaryEdges
    let allNodes := jsSet (cells ++ edges.flatMap (fun e => [e.«from», e.«to»]))
    match spanningTree { nodes := allNodes, edges := edges } rand with
    | none => Except.error "union-find out of fuel"
    | some treeEdges =>
      let pw := classifyEdges cells treeEdges
      Except.ok { cells := cells, passages := pw.1, boundaryWalls := pw.2,
                  entrance := entrance, exit := exit }

/-! ## JS `Set` lemmas -/

theorem mem_jsInsert [DecidableEq T] (s : List T) (x y : T) :
    y ∈ jsInsert s x ↔ y = x ∨ y ∈ s := by
  by_cases h : x ∈ s
  · simp only [jsInsert, if_pos h]
    constructor
    · exact Or.inr
    · rintro (rfl | hy)
      · exact h
      · exact hy
  · simp only [jsInsert, if_neg h, List.mem_append, List.mem_singleton]
    tauto

theorem jsSet_go_mem [DecidableEq T] :
    ∀ (l acc : List T) (x : T), x ∈ l.foldl jsInsert acc ↔ x ∈ acc ∨ x ∈ l := by
  intro l
  induction l with
  | nil => intro acc x; simp
  | cons a l ih =>
    intro acc x
    rw [List.foldl_cons, ih (jsInsert acc a) x, mem_jsInsert]
    simp only [List.mem_cons]
    tauto

theorem mem_jsSet [DecidableEq T] (l : List T) (x : T) :
    x ∈ jsSet l ↔ x ∈ l := by
  rw [jsSet, jsSet_go_mem]
  simp

theorem jsSet_go_of_disjoint [DecidableEq T] :
    ∀ (l acc : List T), l.Nodup → (∀ x ∈ l, x ∉ acc) →
      l.foldl jsInsert acc = acc ++ l := by
  intro l
  induction l with
  | nil => intro acc _ _; simp
  | cons a l ih =>
    intro acc hnd hdisj
    rw [List.foldl_cons]
    have ha : a ∉ acc := hdisj a (List.mem_cons_self a l)
    have hins : jsInsert acc a = acc ++ [a] := by simp [jsInsert, ha]
    rw [hins, ih (acc ++ [a]) (List.nodup_cons.mp hnd).2 ?_]
    · simp
    · intro x hx
      rw [List.mem_append, List.mem_singleton]
      rintro (hxa | rfl)
      · exact hdisj x (List.mem_cons_of_mem a hx) hxa
      · exact (List.nodup_cons.mp hnd).1 hx

theorem jsSet_of_nodup [DecidableEq T] (l : List T) (h : l.Nodup) :
    jsSet l = l := by
  rw [jsSet, jsSet_go_of_disjoint l [] h (by simp)]
  simp

/-! ## The Grid contract (spec §3 and §4.1), formalized -/

/-- The virtual-exterior endpoint of a boundary-wall pair of cell `c`. -/
def wallExt [DecidableEq T] (c : T) (p : T × T) : T := if p.1 = c then p.2 else p.1

/-- The obligations §4.1 places on a `Grid` implementation: stable duplicate-free
cell enumeration; entrance/exit are cells; neighbors are duplicate-free, stay
inside the grid and are symmetric; each boundary wall joins its cell to a
virtual exterior identifier that is not a cell, and the exterior identifiers
are distinct across all walls of all cells. -/
structure GridContract [LinearOrder T] (g : Grid T) : Prop where
  cellsNodup : g.cells.Nodup
  entranceMem : g.entranceCell ∈ g.cells
  exitMem : g.exitCell ∈ g.cells
  neighborsNodup : ∀ c ∈ g.cells, (g.neighbors c).Nodup
  neighborsMem : ∀ c ∈ g.cells, ∀ n ∈ g.neighbors c, n ∈ g.cells
  neighborsSymm : ∀ c ∈ g.cells, ∀ n ∈ g.cells, n ∈ g.neighbors c → c ∈ g.neighbors n
  wallsShape : ∀ c ∈ g.cells, ∀ p ∈ g.boundaryWalls c,
    (p.1 = c ∨ p.2 = c) ∧ wallExt c p ∉ g.cells
  wallsExtNodup : (g.cells.flatMap (fun c => (g.boundaryWalls c).map (wallExt c))).Nodup

/-- All directed adjacency pairs of the grid. -/
def gridAdjPairs (g : Grid T) : List (T × T) :=
  g.cells.flatMap (fun c => (g.neighbors c).map (fun n => (c, n)))

/-- The grid's adjacency graph is connected (not required by §4.1). -/
def GridConnected (g : Grid T) : Prop :=
  ∀ u ∈ g.cells, ∀ v ∈ g.cells, Reaches (gridAdjPairs g) u v

/-! ## Structure of the edge list built by `generateMaze` -/

/-- The deduplicated cell set of the generator. -/
def genCells [DecidableEq T] (g : Grid T) : List T := jsSet g.cells

/-- The removable internal edges the generator builds (canonical direction). -/
def internalEdges [LinearOrder T] (g : Grid T) : List (Edge T) :=
  (genCells g).flatMap (fun cell =>
    (g.neighbors cell).filterMap (fun neighbor =>
      if cell < neighbor then some ⟨cell, neighbor, false⟩ else none))

/-- The fixed boundary-wall edges the generator builds (entrance/exit skipped). -/
def boundaryEdges [LinearOrder T] (g : Grid T) : List (Edge T) :=
  (genCells g).flatMap (fun cell =>
    if cell = g.entranceCell ∨ cell = g.exitCell then []
    else (g.boundaryWalls cell).map (fun p => ⟨p.1, p.2, true⟩))

/-- The node set handed to the engine. -/
def genNodes [LinearOrder T] (g : Grid T) : List T :=
  jsSet (genCells g ++ (internalEdges g ++ boundaryEdges g).flatMap
    (fun e => [e.«from», e.«to»]))

theorem generateMaze_def [LinearOrder T] (g : Grid T) (rand : Nat → ℚ) :
    generateMaze g rand =
      if g.entranceCell ∉ genCells g then Except.error "Entrance cell not in grid"
      else if g.exitCell ∉ genCells g then Except.error "Exit cell not in grid"
      else
        match spanningTree
            { nodes := genNodes g, edges := internalEdges g ++ boundaryEdges g }
            rand with
        | none => Except.error "union-find out of fuel"
        | some treeEdges =>
          Except.ok
            { cells := genCells g,
              passages := (classifyEdges (genCells g) treeEdges).1,
              boundaryWalls := (classifyEdges (genCells g) treeEdges).2,
              entrance := g.entranceCell, exit := g.exitCell } := rfl

theorem genCells_eq [LinearOrder T] {g : Grid T} (hc : GridContract g) :
    genCells g = g.cells := jsSet_of_nodup g.cells hc.cellsNodup

theorem internalEdges_shape [LinearOrder T] {g : Grid T} (hc : GridContract g) :
    ∀ e ∈ internalEdges g, e.isFixed = false ∧ e.«from» ∈ g.cells ∧
      e.«to» ∈ g.cells ∧ e.«from» < e.«to» ∧ e.«to» ∈ g.neighbors e.«from» := by
  intro e he
  rw [internalEdges, genCells_eq hc] at he
  obtain ⟨c, hcmem, he⟩ := List.mem_flatMap.mp he
  obtain ⟨n, hnmem, he⟩ := List.mem_filterMap.mp he
  by_cases hlt : c < n
  · rw [if_pos hlt] at he
    obtain rfl := Option.some.inj he
    exact ⟨rfl, hcmem, hc.neighborsMem c hcmem n hnmem, hlt, hnmem⟩
  · rw [if_neg hlt] at he
    cases he

theorem boundaryEdges_shape [LinearOrder T] {g : Grid T} (hc : GridContract g) :
    ∀ e ∈ boundaryEdges g, e.isFixed = true ∧
      ∃ c ∈ g.cells, c ≠ g.entranceCell ∧ c ≠ g.exitCell ∧
        (e.«from», e.«to») ∈ g.boundaryWalls c := by
  intro e he
  rw [boundaryEdges, genCells_eq hc] at he
  obtain ⟨c, hcmem, he⟩ := List.mem_flatMap.mp he
  by_cases hskip : c = g.entranceCell ∨ c = g.exitCell
  · rw [if_pos hskip] at he
    cases he
  · rw [if_neg hskip] at he
    push_neg at hskip
    obtain ⟨p, hpmem, he⟩ := List.mem_map.mp he
    subst he
    exact ⟨rfl, c, hcmem, hskip.1, hskip.2, by simpa using hpmem⟩

theorem genEdges_filter_fixed [LinearOrder T] {g : Grid T} (hc : GridContract g) :
    (internalEdges g ++ boundaryEdges g).filter (fun e => e.isFixed) =
      boundaryEdges g := by
  rw [List.filter_append]
  have h1 : (internalEdges g).filter (fun e => e.isFixed) = [] := by
    rw [List.filter_eq_nil_iff]
    intro e he
    rw [(internalEdges_shape hc e he).1]
    exact Bool.false_ne_true
  have h2 : (boundaryEdges g).filter (fun e => e.isFixed) = boundaryEdges g := by
    rw [List.filter_eq_self]
    intro e he
    rw [(boundaryEdges_shape hc e he).1]
  rw [h1, h2, List.nil_append]

theorem genEdges_filter_removable [LinearOrder T] {g : Grid T} (hc : GridContract g) :
    (internalEdges g ++ boundaryEdges g).filter (fun e => !e.isFixed) =
      internalEdges g := by
  rw [List.filter_append]
  have h1 : (internalEdges g).filter (fun e => !e.isFixed) = internalEdges g := by
    rw [List.filter_eq_self]
    intro e he
    rw [(internalEdges_shape hc e he).1]
    rfl
  have h2 : (boundaryEdges g).filter (fun e => !e.isFixed) = [] := by
    rw [List.filter_eq_nil_iff]
    intro e he
    rw [(boundaryEdges_shape hc e he).1]
    exact Bool.false_ne_true
  rw [h1, h2, List.append_nil]

/-! ## Behavior of the partition loop -/

theorem classify_go_both [LinearOrder T] (cells : List T) :
    ∀ (es : List (Edge T)) (p w : List (T × T)),
    (∀ e ∈ es, e.«from» ∈ cells ∧ e.«to» ∈ cells) →
    es.foldl (classifyStep cells) (p, w) =
      (p ++ es.map (fun e => makePassage e.«from» e.«to»), w) := by
  intro es
  induction es with
  | nil => intro p w _; simp
  | cons e es ih =>
    intro p w h
    rw [List.foldl_cons]
    have hstep : classifyStep cells (p, w) e =
        (p ++ [makePassage e.«from» e.«to»], w) := by
      simp [classifyStep, h e (List.mem_cons_self e es)]
    rw [hstep, ih _ _ (fun e' he' => h e' (List.mem_cons_of_mem e he'))]
    simp

theorem classify_go_one [LinearOrder T] (cells : List T) :
    ∀ (es : List (Edge T)) (p w : List (T × T)),
    (∀ e ∈ es, ¬(e.«from» ∈ cells ∧ e.«to» ∈ cells) ∧
      (e.«from» ∈ cells ∨ e.«to» ∈ cells)) →
    es.foldl (classifyStep cells) (p, w) =
      (p, w ++ es.map (fun e => makePassage e.«from» e.«to»)) := by
  intro es
  induction es with
  | nil => intro p w _; simp
  | cons e es ih =>
    intro p w h
    rw [List.foldl_cons]
    have hstep : classifyStep cells (p, w) e =
        (p, w ++ [makePassage e.«from» e.«to»]) := by
      have h1 := (h e (List.mem_cons_self e es)).1
      have h2 := (h e (List.mem_cons_self e es)).2
      simp [classifyStep, h1, h2]
    rw [hstep, ih _ _ (fun e' he' => h e' (List.mem_cons_of_mem e he'))]
    simp

/-- With all fixed edges first (one real endpoint) and the accepted removable
edges after (two real endpoints), the partition is exact. -/
theorem classifyEdges_split [LinearOrder T] (cells : List T)
    (F acc : List (Edge T))
    (hF : ∀ e ∈ F, ¬(e.«from» ∈ cells ∧ e.«to» ∈ cells) ∧
      (e.«from» ∈ cells ∨ e.«to» ∈ cells))
    (hacc : ∀ e ∈ acc, e.«from» ∈ cells ∧ e.«to» ∈ cells) :
    classifyEdges cells (F ++ acc) =
      (acc.map (fun e => makePassage e.«from» e.«to»),
        F.map (fun e => makePassage e.«from» e.«to»)) := by
  rw [classifyEdges, List.foldl_append, classify_go_one cells F [] [] hF,
    classify_go_both cells acc _ _ hacc]
  simp

/-! ## The fixed boundary edges form disjoint stars -/

theorem wall_components [LinearOrder T] {g : Grid T} (hc : GridContract g)
    {c : T} {q : T × T} (hcm : c ∈ g.cells) (hq : q ∈ g.boundaryWalls c) :
    ((q.1 = c ∧ q.2 = wallExt c q) ∨ (q.2 = c ∧ q.1 = wallExt c q)) ∧
      wallExt c q ∉ g.cells := by
  obtain ⟨hor, hext⟩ := hc.wallsShape c hcm q hq
  refine ⟨?_, hext⟩
  by_cases h1 : q.1 = c
  · exact Or.inl ⟨h1, by rw [wallExt, if_pos h1]⟩
  · rcases hor with h | h
    · exact absurd h h1
    · exact Or.inr ⟨h, by rw [wallExt, if_neg h1]⟩

theorem wallExt_inj [LinearOrder T] {g : Grid T} (hc : GridContract g)
    {c c' : T} {p p' : T × T} (hcm : c ∈ g.cells) (hcm' : c' ∈ g.cells)
    (hp : p ∈ g.boundaryWalls c) (hp' : p' ∈ g.boundaryWalls c')
    (heq : wallExt c p = wallExt c' p') : c = c' ∧ p = p' := by
  have hnd := hc.wallsExtNodup
  rw [List.nodup_flatMap] at hnd
  obtain ⟨hblocks, hpair⟩ := hnd
  by_cases hcc : c = c'
  · subst hcc
    refine ⟨rfl, ?_⟩
    exact List.inj_on_of_nodup_map (hblocks c hcm) hp hp' heq
  · exfalso
    have hsymm : Symmetric (Function.onFun List.Disjoint
        (fun c => (g.boundaryWalls c).map (wallExt c))) := by
      intro a b hab
      exact List.Disjoint.symm hab
    have hdisj := (hpair.forall hsymm) hcm hcm' hcc
    have h1 : wallExt c p ∈ (g.boundaryWalls c).map (wallExt c) :=
      List.mem_map_of_mem _ hp
    have h2 : wallExt c p ∈ (g.boundaryWalls c').map (wallExt c') := by
      rw [heq]; exact List.mem_map_of_mem _ hp'
    exact hdisj h1 h2

/-- Characterization of the fixed-edge pairs. -/
theorem mem_boundaryPairs [LinearOrder T] {g : Grid T} (hc : GridContract g)
    (q : T × T) :
    q ∈ edgePairs (boundaryEdges g) ↔
      ∃ c ∈ g.cells, c ≠ g.entranceCell ∧ c ≠ g.exitCell ∧
        q ∈ g.boundaryWalls c := by
  constructor
  · intro hq
    obtain ⟨e, he, hq⟩ := List.mem_map.mp hq
    obtain ⟨-, c, hcm, hne, hnx, hw⟩ := boundaryEdges_shape hc e he
    subst hq
    exact ⟨c, hcm, hne, hnx, hw⟩
  · rintro ⟨c, hcm, hne, hnx, hq⟩
    rw [edgePairs, List.mem_map]
    refine ⟨⟨q.1, q.2, true⟩, ?_, rfl⟩
    rw [boundaryEdges, genCells_eq hc, List.mem_flatMap]
    refine ⟨c, hcm, ?_⟩
    rw [if_neg (by push_neg; exact ⟨hne, hnx⟩), List.mem_map]
    exact ⟨q, hq, rfl⟩

/-- Walks through the fixed star edges cannot join two distinct real cells:
any walk from a cell through `boundaryEdges g ++ A` (with `A` wholly inside
the cells) stays within the cells connected by `A` and their exterior tips. -/
theorem fixedStar_factor [LinearOrder T] {g : Grid T} (hc : GridContract g)
    {A : List (T × T)} (hA : ∀ p ∈ A, p.1 ∈ g.cells ∧ p.2 ∈ g.cells)
    {u v : T} (hu : u ∈ g.cells) (hv : v ∈ g.cells)
    (h : Reaches (edgePairs (boundaryEdges g) ++ A) u v) : Reaches A u v := by
  have main : ∀ x, Reaches (edgePairs (boundaryEdges g) ++ A) u x →
      (x ∈ g.cells ∧ Reaches A u x) ∨
      (x ∉ g.cells ∧ ∃ c ∈ g.cells, Reaches A u c ∧
        ∃ p ∈ g.boundaryWalls c, x = wallExt c p) := by
    intro x hx
    induction hx with
    | refl => exact Or.inl ⟨hu, reaches_refl A u⟩
    | tail hw hstep ih =>
      rename_i w z
      have hq : ∃ q, (q ∈ edgePairs (boundaryEdges g) ∨ q ∈ A) ∧
          ((q.1 = w ∧ q.2 = z) ∨ (q.1 = z ∧ q.2 = w)) := by
        rcases hstep with h0 | h0 <;> rcases List.mem_append.mp h0 with h1 | h1
        · exact ⟨(w, z), Or.inl h1, Or.inl ⟨rfl, rfl⟩⟩
        · exact ⟨(w, z), Or.inr h1, Or.inl ⟨rfl, rfl⟩⟩
        · exact ⟨(z, w), Or.inl h1, Or.inr ⟨rfl, rfl⟩⟩
        · exact ⟨(z, w), Or.inr h1, Or.inr ⟨rfl, rfl⟩⟩
      obtain ⟨q, hqmem, hqor⟩ := hq
      rcases hqmem with hqB | hqA
      · -- a fixed wall pair: one end a non-entrance cell, the other its tip
        obtain ⟨c, hcm, -, -, hwall⟩ := (mem_boundaryPairs hc q).mp hqB
        obtain ⟨hcomp, hextnc⟩ := wall_components hc hcm hwall
        rcases ih with ⟨hwc, hreach⟩ | ⟨hwnc, c0, hc0m, hreach0, p0, hp0, hwext⟩
        · -- from a real cell we can only step to its own exterior tip
          have hwc_eq : w = c ∧ z = wallExt c q := by
            rcases hcomp with ⟨h1, h2⟩ | ⟨h1, h2⟩ <;>
              rcases hqor with ⟨h3, h4⟩ | ⟨h3, h4⟩
            · exact ⟨h3.symm.trans h1, h4.symm.trans h2⟩
            · exfalso
              have hwext' : w = wallExt c q := h4.symm.trans h2
              rw [hwext'] at hwc
              exact hextnc hwc
            · exfalso
              have hwext' : w = wallExt c q := h3.symm.trans h2
              rw [hwext'] at hwc
              exact hextnc hwc
            · exact ⟨h4.symm.trans h1, h3.symm.trans h2⟩
          refine Or.inr ⟨?_, c, hcm, ?_, q, hwall, hwc_eq.2⟩
          · rw [hwc_eq.2]; exact hextnc
          · rw [← hwc_eq.1]; exact hreach
        · -- from an exterior tip the only step goes back to its own cell
          have hwx : w = wallExt c q := by
            rcases hcomp with ⟨h1, h2⟩ | ⟨h1, h2⟩ <;>
              rcases hqor with ⟨h3, h4⟩ | ⟨h3, h4⟩
            · exfalso
              apply hwnc
              rw [h3.symm.trans h1]
              exact hcm
            · exact h4.symm.trans h2
            · exact h3.symm.trans h2
            · exfalso
              apply hwnc
              rw [h4.symm.trans h1]
              exact hcm
          have huniq : c0 = c ∧ p0 = q :=
            wallExt_inj hc hc0m hcm hp0 hwall (hwext.symm.trans hwx)
          have hzc : z = c := by
            rcases hcomp with ⟨h1, h2⟩ | ⟨h1, h2⟩ <;>
              rcases hqor with ⟨h3, h4⟩ | ⟨h3, h4⟩
            · exfalso
              apply hwnc
              rw [h3.symm.trans h1]
              exact hcm
            · exact h3.symm.trans h1
            · exact h4.symm.trans h1
            · exfalso
              apply hwnc
              rw [h4.symm.trans h1]
              exact hcm
          refine Or.inl ⟨?_, ?_⟩
          · rw [hzc]; exact hcm
          · rw [hzc, ← huniq.1]; exact hreach0
      · -- an internal pair: both endpoints are real cells
        obtain ⟨hq1, hq2⟩ := hA q hqA
        rcases ih with ⟨hwc, hreach⟩ | ⟨hwnc, -, -, -, -, -, -⟩
        · have hz : z ∈ g.cells ∧ pairAdj A w z := by
            rcases hqor with ⟨h3, h4⟩ | ⟨h3, h4⟩
            · exact ⟨h4 ▸ hq2, Or.inl (by rw [← h3, ← h4]; simpa using hqA)⟩
            · exact ⟨h3 ▸ hq1, Or.inr (by rw [← h3, ← h4]; simpa using hqA)⟩
          exact Or.inl ⟨hz.1, hreach.tail hz.2⟩
        · exfalso
          rcases hqor with ⟨h3, h4⟩ | ⟨h3, h4⟩
          · exact hwnc (h3 ▸ hq1)
          · exact hwnc (h4 ▸ hq2)
  rcases main v h with ⟨-, hr⟩ | ⟨hvnc, -⟩
  · exact hr
  · exact absurd hv hvnc

theorem makePassage_of_lt [LinearOrder T] {a b : T} (h : a < b) :
    makePassage a b = (a, b) := if_pos h

/-- Replacing each edge by any walk between its endpoints preserves
reachability. -/
theorem reaches_of_cover {E1 E2 : List (T × T)}
    (hcov : ∀ p ∈ E2, Reaches E1 p.1 p.2) {u v : T} (h : Reaches E2 u v) :
    Reaches E1 u v := by
  induction h with
  | refl => exact reaches_refl E1 u
  | tail hw hstep ih =>
    rename_i w z
    refine ih.trans ?_
    rcases hstep with h0 | h0
    · exact hcov _ h0
    · exact reaches_symm (hcov _ h0)

theorem isEmpty_false_of_mem {l : List T} {x : T} (h : x ∈ l) :
    l.isEmpty = false := by
  cases l with
  | nil => cases h
  | cons a l => rfl

theorem toFinset_card_of_const [DecidableEq T] {l : List T} {f : T → T}
    (hne : l ≠ []) (hconst : ∀ a ∈ l, ∀ b ∈ l, f a = f b) :
    (l.map f).toFinset.card = 1 := by
  obtain ⟨a, l', rfl⟩ := List.exists_cons_of_ne_nil hne
  rw [Finset.card_eq_one]
  refine ⟨f a, ?_⟩
  ext x
  simp only [List.mem_toFinset, List.mem_map, Finset.mem_singleton]
  constructor
  · rintro ⟨b, hb, rfl⟩
    exact hconst b hb a (List.mem_cons_self a l')
  · rintro rfl
    exact ⟨a, List.mem_cons_self a l', rfl⟩

theorem mem_gridAdjPairs {g : Grid T} {q : T × T} :
    q ∈ gridAdjPairs g ↔ ∃ c ∈ g.cells, ∃ n ∈ g.neighbors c, q = (c, n) := by
  rw [gridAdjPairs, List.mem_flatMap]
  constructor
  · rintro ⟨c, hcm, hq⟩
    obtain ⟨n, hn, hq⟩ := List.mem_map.mp hq
    exact ⟨c, hcm, n, hn, hq.symm⟩
  · rintro ⟨c, hcm, n, hn, rfl⟩
    exact ⟨c, hcm, List.mem_map_of_mem _ hn⟩

theorem mem_internalEdges_of [LinearOrder T] {g : Grid T} (hc : GridContract g)
    {c n : T} (hcm : c ∈ g.cells) (hn : n ∈ g.neighbors c) (hlt : c < n) :
    (⟨c, n, false⟩ : Edge T) ∈ internalEdges g := by
  rw [internalEdges, genCells_eq hc, List.mem_flatMap]
  refine ⟨c, hcm, ?_⟩
  rw [List.mem_filterMap]
  exact ⟨n, hn, by rw [if_pos hlt]⟩

/-- Grid adjacency walks can be replayed over the generator's canonical
internal edges. -/
theorem adj_reaches_internal [LinearOrder T] {g : Grid T} (hc : GridContract g)
    {u v : T} (h : Reaches (gridAdjPairs g) u v) :
    Reaches (edgePairs (internalEdges g)) u v := by
  induction h with
  | refl => exact reaches_refl _ u
  | tail hw hstep ih =>
    rename_i w z
    have hq : ∃ c ∈ g.cells, ∃ n ∈ g.neighbors c,
        (w = c ∧ z = n) ∨ (w = n ∧ z = c) := by
      rcases hstep with h0 | h0 <;> obtain ⟨c, hcm, n, hn, hq⟩ := mem_gridAdjPairs.mp h0
      · exact ⟨c, hcm, n, hn, Or.inl ⟨congrArg Prod.fst hq, congrArg Prod.snd hq⟩⟩
      · exact ⟨c, hcm, n, hn, Or.inr ⟨congrArg Prod.snd hq, congrArg Prod.fst hq⟩⟩
    obtain ⟨c, hcm, n, hn, hor⟩ := hq
    have hnm : n ∈ g.cells := hc.neighborsMem c hcm n hn
    have hstep' : w = z ∨ pairAdj (edgePairs (internalEdges g)) w z := by
      rcases lt_trichotomy c n with hlt | heq | hgt
      · have hmem : (c, n) ∈ edgePairs (internalEdges g) :=
          List.mem_map_of_mem _ (mem_internalEdges_of hc hcm hn hlt)
        rcases hor with ⟨rfl, rfl⟩ | ⟨rfl, rfl⟩
        · exact Or.inr (Or.inl hmem)
        · exact Or.inr (Or.inr hmem)
      · rcases hor with ⟨rfl, rfl⟩ | ⟨rfl, rfl⟩
        · exact Or.inl heq
        · exact Or.inl heq.symm
      · have hcn : c ∈ g.neighbors n := hc.neighborsSymm c hcm n hnm hn
        have hmem : (n, c) ∈ edgePairs (internalEdges g) :=
          List.mem_map_of_mem _ (mem_internalEdges_of hc hnm hcn hgt)
        rcases hor with ⟨rfl, rfl⟩ | ⟨rfl, rfl⟩
        · exact Or.inr (Or.inr hmem)
        · exact Or.inr (Or.inl hmem)
    rcases hstep' with rfl | hadj
    · exact ih
    · exact ih.tail hadj

theorem makePassage_cases [LinearOrder T] (a b : T) :
    makePassage a b = (a, b) ∨ makePassage a b = (b, a) := by
  rw [makePassage]
  split
  · exact Or.inl rfl
  · exact Or.inr rfl

/-- Master run of `generateMaze` under the Grid contract plus connectivity of
the adjacency graph: the maze satisfies every §3 invariant. -/
theorem generateMaze_run [LinearOrder T] (g : Grid T) (rand : Nat → ℚ)
    (hc : GridContract g) (hconn : GridConnected g) :
    ∃ mz : Maze T, generateMaze g rand = Except.ok mz ∧
      mz.cells = g.cells ∧ mz.entrance = g.entranceCell ∧ mz.exit = g.exitCell ∧
      mz.passages.length + 1 = mz.cells.length ∧
      (∀ u ∈ mz.cells, ∀ v ∈ mz.cells, Reaches mz.passages u v) ∧
      Acyclic mz.passages ∧
      (∀ p ∈ mz.boundaryWalls, p.1 ≠ mz.entrance ∧ p.1 ≠ mz.exit ∧
        p.2 ≠ mz.entrance ∧ p.2 ≠ mz.exit) := by
  have hcells := genCells_eq hc
  have hentm : g.entranceCell ∈ genCells g := by rw [hcells]; exact hc.entranceMem
  have hexm : g.exitCell ∈ genCells g := by rw [hcells]; exact hc.exitMem
  have hnodes : g.entranceCell ∈ genNodes g := by
    rw [genNodes, mem_jsSet, List.mem_append]
    exact Or.inl hentm
  have hnodes_ne :
      ({ nodes := genNodes g, edges := internalEdges g ++ boundaryEdges g } :
        Graph T).nodes.isEmpty = false := isEmpty_false_of_mem hnodes
  have hfilF :
      ({ nodes := genNodes g, edges := internalEdges g ++ boundaryEdges g } :
        Graph T).edges.filter (fun e => e.isFixed) = boundaryEdges g :=
    genEdges_filter_fixed hc
  have hfilR :
      ({ nodes := genNodes g, edges := internalEdges g ++ boundaryEdges g } :
        Graph T).edges.filter (fun e => !e.isFixed) = internalEdges g :=
    genEdges_filter_removable hc
  have hW : ∀ e ∈ shuffle
      (({ nodes := genNodes g, edges := internalEdges g ++ boundaryEdges g } :
        Graph T).edges.filter (fun e => !e.isFixed)) rand,
      e.«from» ∈ g.cells ∧ e.«to» ∈ g.cells := by
    intro e he
    rw [hfilR] at he
    have hmem : e ∈ internalEdges g :=
      ((shuffle_perm (internalEdges g) rand).mem_iff).mp he
    obtain ⟨-, h1, h2, -, -⟩ := internalEdges_shape hc e hmem
    exact ⟨h1, h2⟩
  obtain ⟨sF, sR, acc, htree, hiffF, hiffR, hsub, hforest, hcov, hcard⟩ :=
    spanningTree_run
      { nodes := genNodes g, edges := internalEdges g ++ boundaryEdges g }
      rand hnodes_ne g.cells hW
  rw [hfilF] at htree hiffF hiffR hforest
  rw [hfilR] at hsub
  rw [hfilF, hfilR] at hcov
  have haccmem : ∀ e ∈ acc, e ∈ internalEdges g := fun e he =>
    ((shuffle_perm (internalEdges g) rand).mem_iff).mp (hsub e he)
  have haccshape := fun e he => internalEdges_shape hc e (haccmem e he)
  -- the partition loop splits the tree exactly
  have hclass : classifyEdges (genCells g) (boundaryEdges g ++ acc) =
      (acc.map (fun e => makePassage e.«from» e.«to»),
        (boundaryEdges g).map (fun e => makePassage e.«from» e.«to»)) := by
    apply classifyEdges_split
    · intro e he
      obtain ⟨-, c, hcm, -, -, hw⟩ := boundaryEdges_shape hc e he
      obtain ⟨hcomp, hext⟩ := wall_components hc hcm hw
      rw [hcells]
      rcases hcomp with ⟨h1, h2⟩ | ⟨h1, h2⟩
      · constructor
        · rintro ⟨-, h4⟩
          rw [show e.«to» = wallExt c (e.«from», e.«to») from h2] at h4
          exact hext h4
        · left
          rw [show e.«from» = c from h1]
          exact hcm
      · constructor
        · rintro ⟨h3, -⟩
          rw [show e.«from» = wallExt c (e.«from», e.«to») from h2] at h3
          exact hext h3
        · right
          rw [show e.«to» = c from h1]
          exact hcm
    · intro e he
      have hsh := haccshape e he
      rw [hcells]
      exact ⟨hsh.2.1, hsh.2.2.1⟩
  have hpass_eq : acc.map (fun e => makePassage e.«from» e.«to») = edgePairs acc := by
    rw [edgePairs]
    apply List.map_congr_left
    intro e he
    exact makePassage_of_lt (haccshape e he).2.2.2.1
  -- all cells end up equivalent
  have hreach_all : ∀ u ∈ g.cells, ∀ v ∈ g.cells,
      Reaches (edgePairs (boundaryEdges g) ++ edgePairs acc) u v := by
    intro u hu v hv
    have h1 : Reaches (edgePairs (internalEdges g)) u v :=
      adj_reaches_internal hc (hconn u hu v hv)
    refine reaches_of_cover ?_ h1
    intro p hp
    obtain ⟨e, he, hpe⟩ := List.mem_map.mp hp
    have hes : e ∈ shuffle (internalEdges g) rand :=
      ((shuffle_perm (internalEdges g) rand).mem_iff).mpr he
    rw [← hpe]
    exact hcov e hes
  have haccPairs_cells : ∀ p ∈ edgePairs acc, p.1 ∈ g.cells ∧ p.2 ∈ g.cells := by
    intro p hp
    obtain ⟨e, he, hpe⟩ := List.mem_map.mp hp
    have hsh := haccshape e he
    rw [← hpe]
    exact ⟨hsh.2.1, hsh.2.2.1⟩
  -- counting
  have hRHS : (g.cells.map (rootD sF.parent)).toFinset.card = g.cells.length := by
    have hinj : ∀ x ∈ g.cells, ∀ y ∈ g.cells,
        rootD sF.parent x = rootD sF.parent y → x = y := by
      intro x hx y hy hxy
      have hr : Reaches (edgePairs (boundaryEdges g)) x y := (hiffF x y).mp hxy
      have hr' : Reaches (edgePairs (boundaryEdges g) ++ ([] : List (T × T))) x y := by
        rwa [List.append_nil]
      have := fixedStar_factor hc (fun p hp => absurd hp (List.not_mem_nil p)) hx hy hr'
      exact reaches_nil_iff.mp this
    rw [List.toFinset_card_of_nodup (hc.cellsNodup.map_on hinj), List.length_map]
  have hLHS : (g.cells.map (rootD sR.parent)).toFinset.card = 1 := by
    refine toFinset_card_of_const (List.ne_nil_of_mem hc.entranceMem) ?_
    intro a ha b hb
    exact (hiffR a b).mpr (hreach_all a ha b hb)
  refine ⟨Maze.mk (genCells g) (edgePairs acc)
      ((boundaryEdges g).map (fun e => makePassage e.«from» e.«to»))
      g.entranceCell g.exitCell, ?_, ?_, rfl, rfl, ?_, ?_, ?_, ?_⟩
  · -- the generator returns exactly this maze
    rw [generateMaze_def, if_neg (not_not_intro hentm), if_neg (not_not_intro hexm)]
    rw [htree]
    simp only [hclass, hpass_eq]
  · exact hcells
  · -- |passages| + 1 = |cells|
    simp only [edgePairs, List.length_map]
    rw [hcells]
    omega
  · -- connectivity over passages
    intro u hu v hv
    simp only at hu hv ⊢
    rw [hcells] at hu hv
    exact fixedStar_factor hc haccPairs_cells hu hv (hreach_all u hu v hv)
  · -- acyclicity
    exact forestExt_acyclic hforest
  · -- no boundary wall touches entrance or exit
    intro p hp
    simp only at hp ⊢
    obtain ⟨e, he, hpe⟩ := List.mem_map.mp hp
    obtain ⟨-, c, hcm, hnent, hnex, hw⟩ := boundaryEdges_shape hc e he
    obtain ⟨hcomp, hext⟩ := wall_components hc hcm hw
    have hextnent : wallExt c (e.«from», e.«to») ≠ g.entranceCell := by
      intro h0; exact hext (h0 ▸ hc.entranceMem)
    have hextnex : wallExt c (e.«from», e.«to») ≠ g.exitCell := by
      intro h0; exact hext (h0 ▸ hc.exitMem)
    have hfromto : (e.«from» = c ∧ e.«to» = wallExt c (e.«from», e.«to»)) ∨
        (e.«to» = c ∧ e.«from» = wallExt c (e.«from», e.«to»)) := hcomp
    rcases makePassage_cases e.«from» e.«to» with hmk | hmk <;> rw [← hpe, hmk] <;>
      rcases hfromto with ⟨h1, h2⟩ | ⟨h1, h2⟩
    · exact ⟨h1 ▸ hnent, h1 ▸ hnex, h2 ▸ hextnent, h2 ▸ hextnex⟩
    · exact ⟨h2 ▸ hextnent, h2 ▸ hextnex, h1 ▸ hnent, h1 ▸ hnex⟩
    · exact ⟨h2 ▸ hextnent, h2 ▸ hextnex, h1 ▸ hnent, h1 ▸ hnex⟩
    · exact ⟨h1 ▸ hnent, h1 ▸ hnex, h2 ▸ hextnent, h2 ▸ hextnex⟩

/-! ## Totality of the engine (fuel sufficiency) -/

theorem spanningTree_isSome [DecidableEq T] (g : Graph T) (rand : Nat → ℚ) :
    (spanningTree g rand).isSome = true := by
  rcases hne : g.nodes.isEmpty with _ | _
  · -- nonempty node set: run the whole engine
    obtain ⟨sF, sR, acc, htree, -, -, -, -, -, -⟩ :=
      spanningTree_run g rand hne
        ((shuffle (g.edges.filter (fun e => !e.isFixed)) rand).flatMap
          (fun e => [e.«from», e.«to»]))
        (fun e he => ⟨List.mem_flatMap.mpr ⟨e, he, by simp⟩,
          List.mem_flatMap.mpr ⟨e, he, by simp⟩⟩)
    rw [htree]
    rfl
  · simp [spanningTree, hne]

/-- The removable part of the input graph's edges. -/
theorem filter_fixed_append_acc [DecidableEq T] (F acc : List (Edge T))
    (hF : ∀ e ∈ F, e.isFixed = true) (hacc : ∀ e ∈ acc, e.isFixed = false) :
    (F ++ acc).filter (fun e => !e.isFixed) = acc := by
  rw [List.filter_append]
  have h1 : F.filter (fun e => !e.isFixed) = [] := by
    rw [List.filter_eq_nil_iff]
    intro e he
    rw [hF e he]
    exact Bool.false_ne_true
  have h2 : acc.filter (fun e => !e.isFixed) = acc := by
    rw [List.filter_eq_self]
    intro e he
    rw [hacc e he]
    rfl
  rw [h1, h2, List.nil_append]

/-- A node touched by some removable edge of the graph. -/
def removableTouched [DecidableEq T] (g : Graph T) (x : T) : Prop :=
  ∃ e ∈ g.edges, e.isFixed = false ∧ (e.«from» = x ∨ e.«to» = x)

/-- The run of `spanningTree` packaged for the two spanning-tree claims. -/
theorem spanningTree_removable [DecidableEq T] (g : Graph T) (rand : Nat → ℚ)
    (hne : g.nodes.isEmpty = false) :
    ∃ acc : List (Edge T),
      spanningTree g rand =
        some (g.edges.filter (fun e => e.isFixed) ++ acc) ∧
      (∀ e ∈ acc, e ∈ g.edges.filter (fun e => !e.isFixed)) ∧
      Acyclic (edgePairs acc) ∧
      (∀ e ∈ g.edges.filter (fun e => !e.isFixed),
        Reaches (edgePairs (g.edges.filter (fun e => e.isFixed)) ++ edgePairs acc)
          e.«from» e.«to») := by
  obtain ⟨sF, sR, acc, htree, hiffF, hiffR, hsub, hforest, hcov, -⟩ :=
    spanningTree_run g rand hne
      ((shuffle (g.edges.filter (fun e => !e.isFixed)) rand).flatMap
        (fun e => [e.«from», e.«to»]))
      (fun e he => ⟨List.mem_flatMap.mpr ⟨e, he, by simp⟩,
        List.mem_flatMap.mpr ⟨e, he, by simp⟩⟩)
  refine ⟨acc, htree, ?_, forestExt_acyclic hforest, ?_⟩
  · intro e he
    exact ((shuffle_perm _ rand).mem_iff).mp (hsub e he)
  · intro e he
    exact hcov e (((shuffle_perm _ rand).mem_iff).mpr he)

/-- When no fixed edge touches a node that removable edges touch, walks over
the output between removable-touched nodes never use fixed edges. -/
theorem removable_only_factor [DecidableEq T] (g : Graph T) (acc : List (Edge T))
    (hacc : ∀ e ∈ acc, e ∈ g.edges.filter (fun e => !e.isFixed))
    (hprov : ∀ eF ∈ g.edges, eF.isFixed = true →
      ¬removableTouched g eF.«from» ∧ ¬removableTouched g eF.«to»)
    {u v : T} (hu : removableTouched g u)
    (h : Reaches
      (edgePairs (g.edges.filter (fun e => e.isFixed)) ++ edgePairs acc) u v) :
    Reaches (edgePairs acc) u v := by
  have main : ∀ x, Reaches
      (edgePairs (g.edges.filter (fun e => e.isFixed)) ++ edgePairs acc) u x →
      Reaches (edgePairs acc) u x ∧ removableTouched g x := by
    intro x hx
    induction hx with
    | refl => exact ⟨reaches_refl _ u, hu⟩
    | tail hw hstep ih =>
      rename_i w z
      obtain ⟨hreach, htouch⟩ := ih
      have hq : ∃ q, (q ∈ edgePairs (g.edges.filter (fun e => e.isFixed)) ∨
          q ∈ edgePairs acc) ∧ ((q.1 = w ∧ q.2 = z) ∨ (q.1 = z ∧ q.2 = w)) := by
        rcases hstep with h0 | h0 <;> rcases List.mem_append.mp h0 with h1 | h1
        · exact ⟨(w, z), Or.inl h1, Or.inl ⟨rfl, rfl⟩⟩
        · exact ⟨(w, z), Or.inr h1, Or.inl ⟨rfl, rfl⟩⟩
        · exact ⟨(z, w), Or.inl h1, Or.inr ⟨rfl, rfl⟩⟩
        · exact ⟨(z, w), Or.inr h1, Or.inr ⟨rfl, rfl⟩⟩
      obtain ⟨q, hqmem, hqor⟩ := hq
      rcases hqmem with hqF | hqA
      · -- a fixed edge cannot touch the removable-touched node w
        exfalso
        obtain ⟨e, he, hpe⟩ := List.mem_map.mp hqF
        have heg : e ∈ g.edges ∧ e.isFixed = true := by
          have h1 := List.mem_filter.mp he
          exact ⟨h1.1, by simpa using h1.2⟩
        obtain ⟨hnf, hnt⟩ := hprov e heg.1 heg.2
        rcases hqor with ⟨h3, h4⟩ | ⟨h3, h4⟩
        · have h5 : e.«from» = w := (congrArg Prod.fst hpe).trans h3
          exact hnf (by rw [h5]; exact htouch)
        · have h5 : e.«to» = w := (congrArg Prod.snd hpe).trans h4
          exact hnt (by rw [h5]; exact htouch)
      · -- a removable output edge extends the walk and keeps z touched
        obtain ⟨e, he, hpe⟩ := List.mem_map.mp hqA
        have heg : e ∈ g.edges ∧ e.isFixed = false := by
          have h1 := List.mem_filter.mp (hacc e he)
          exact ⟨h1.1, by simpa using h1.2⟩
        have hz : removableTouched g z := by
          rcases hqor with ⟨h3, h4⟩ | ⟨h3, h4⟩
          · exact ⟨e, heg.1, heg.2, Or.inr ((congrArg Prod.snd hpe).trans h4)⟩
          · exact ⟨e, heg.1, heg.2, Or.inl ((congrArg Prod.fst hpe).trans h3)⟩
        have hadj : pairAdj (edgePairs acc) w z := by
          rcases hqor with ⟨h3, h4⟩ | ⟨h3, h4⟩
          · exact Or.inl (by rw [← h3, ← h4]; simpa using hqA)
          · exact Or.inr (by rw [← h3, ← h4]; simpa using hqA)
        exact ⟨hreach.tail hadj, hz⟩
  exact (main v h).1

/-- C2 (amended): on a graph with a nonempty node set, the removable edges in
the output are always acyclic, and when no fixed edge touches a node that
removable edges touch, they connect every pair of nodes connected by removable
input edges. -/
theorem spanningTree_removable_spanning [DecidableEq T] (g : Graph T)
    (rand : Nat → ℚ) (out : List (Edge T)) (hne : g.nodes.isEmpty = false)
    (hout : spanningTree g rand = some out) :
    Acyclic (edgePairs (out.filter (fun e => !e.isFixed))) ∧
    ((∀ eF ∈ g.edges, eF.isFixed = true →
        ¬removableTouched g eF.«from» ∧ ¬removableTouched g eF.«to») →
      ∀ u v, Reaches (edgePairs (g.edges.filter (fun e => !e.isFixed))) u v →
        Reaches (edgePairs (out.filter (fun e => !e.isFixed))) u v) := by
  obtain ⟨acc, htree, hsub, hacyc, hcov⟩ := spanningTree_removable g rand hne
  rw [htree] at hout
  have hout' : out = g.edges.filter (fun e => e.isFixed) ++ acc :=
    (Option.some.inj hout).symm
  subst hout'
  have hfilter : (g.edges.filter (fun e => e.isFixed) ++ acc).filter
      (fun e => !e.isFixed) = acc := by
    apply filter_fixed_append_acc
    · intro e he
      have h1 := List.mem_filter.mp he
      simpa using h1.2
    · intro e he
      have h1 := List.mem_filter.mp (hsub e he)
      simpa using h1.2
  rw [hfilter]
  refine ⟨hacyc, ?_⟩
  intro hprov u v hreach
  by_cases huv : u = v
  · subst huv; exact reaches_refl _ u
  · -- u is touched by a removable edge (the walk is nontrivial)
    have hu : removableTouched g u := by
      rcases Relation.ReflTransGen.cases_head hreach with h0 | ⟨w, hstep, -⟩
      · exact absurd h0 huv
      · rcases hstep with h1 | h1 <;> obtain ⟨e, he, hpe⟩ := List.mem_map.mp h1 <;>
          have heg := List.mem_filter.mp he
        · exact ⟨e, heg.1, by simpa using heg.2, Or.inl (congrArg Prod.fst hpe)⟩
        · exact ⟨e, heg.1, by simpa using heg.2, Or.inr (congrArg Prod.snd hpe)⟩
    have hcover : Reaches
        (edgePairs (g.edges.filter (fun e => e.isFixed)) ++ edgePairs acc) u v := by
      refine reaches_of_cover ?_ hreach
      intro p hp
      obtain ⟨e, he, hpe⟩ := List.mem_map.mp hp
      rw [← hpe]
      exact hcov e he
    exact removable_only_factor g acc hsub hprov hu hcover

/-- The two-node graph whose single pair carries both a fixed and a removable
edge. -/
def g2 : Graph Nat := { nodes := [0, 1], edges := [⟨0, 1, true⟩, ⟨0, 1, false⟩] }

/-- C2 (counterexample to the claim as stated): with a fixed edge on the same
pair, the removable edge is discarded, so the output's removable edges do not
connect the removable subgraph's component {0, 1}. -/
theorem spanningTree_removable_not_spanning :
    spanningTree g2 (fun _ => 0) = some [⟨0, 1, true⟩] ∧
    Reaches (edgePairs (g2.edges.filter (fun e => !e.isFixed))) 0 1 ∧
    ¬Reaches (edgePairs
      (([⟨0, 1, true⟩] : List (Edge Nat)).filter (fun e => !e.isFixed))) 0 1 := by
  refine ⟨by rfl, reaches_single (by decide), ?_⟩
  have h0 : edgePairs (([⟨0, 1, true⟩] : List (Edge Nat)).filter
      (fun e => !e.isFixed)) = [] := rfl
  rw [h0, reaches_nil_iff]
  decide

instance [DecidableEq T] (g : Graph T) (x : T) : Decidable (removableTouched g x) :=
  decidable_of_iff (∃ e ∈ g.edges, e.isFixed = false ∧ (e.«from» = x ∨ e.«to» = x))
    Iff.rfl

/-- The two-node graph carrying a single removable edge, used as the witness
input. -/
def g3 : Graph Nat := { nodes := [0, 1], edges := [⟨0, 1, false⟩] }

/-- C2's theorem applied at the concrete single-removable-edge graph: the
output's removable edges are acyclic and connect node 0 to node 1. -/
theorem spanningTree_removable_spanning_witness :
    Acyclic (edgePairs ((([⟨0, 1, false⟩] : List (Edge Nat))).filter
      (fun e => !e.isFixed))) ∧
    Reaches (edgePairs ((([⟨0, 1, false⟩] : List (Edge Nat))).filter
      (fun e => !e.isFixed))) 0 1 := by
  have h := spanningTree_removable_spanning g3 (fun _ => 0)
    [⟨0, 1, false⟩] rfl (by rfl)
  refine ⟨h.1, ?_⟩
  apply h.2
  · decide
  · exact reaches_single (by decide)

/-- C10: the union-find parent maps reached by the algorithm are always
well-founded (no cycle apart from root self-loops), so the recursive `find`
always has enough fuel: the engine never returns the fuel-exhaustion marker,
and `find` succeeds on every state satisfying the union-find invariant. -/
theorem spanningTree_find_terminates [DecidableEq T] :
    (∀ (g : Graph T) (rand : Nat → ℚ), (spanningTree g rand).isSome = true) ∧
    (∀ (s : UF T) (x : T), UFInv s → (find s x).isSome = true) := by
  constructor
  · exact fun g rand => spanningTree_isSome g rand
  · intro s x hinv
    obtain ⟨s', heq, -, -, -, -⟩ := find_ok s x hinv
    rw [heq]
    rfl

/-- C10's theorem applied at a concrete graph and a concrete union-find state. -/
theorem spanningTree_find_terminates_witness :
    (spanningTree ({ nodes := [0], edges := [] } : Graph Nat) (fun _ => 0)).isSome
      = true ∧
    (find ({ parent := [], rank := [] } : UF Nat) 0).isSome = true :=
  ⟨spanningTree_find_terminates.1 { nodes := [0], edges := [] } (fun _ => 0),
    spanningTree_find_terminates.2 { parent := [], rank := [] } 0 UFInv_init⟩

/-- C1 (amended): under the Grid contract of §4.1 *plus connectivity of the
grid's adjacency graph*, `generateMaze` returns a maze satisfying every §3
invariant: entrance/exit membership, passage count = cell count − 1, the
passage graph on the cells is connected and acyclic, and no boundary wall
touches the entrance or exit cell. -/
theorem generateMaze_satisfies_invariants [LinearOrder T] (g : Grid T)
    (rand : Nat → ℚ) (hc : GridContract g) (hconn : GridConnected g) :
    ∃ mz : Maze T, generateMaze g rand = Except.ok mz ∧
      mz.cells = g.cells ∧ mz.entrance = g.entranceCell ∧ mz.exit = g.exitCell ∧
      mz.passages.length + 1 = mz.cells.length ∧
      (∀ u ∈ mz.cells, ∀ v ∈ mz.cells, Reaches mz.passages u v) ∧
      Acyclic mz.passages ∧
      (∀ p ∈ mz.boundaryWalls, p.1 ≠ mz.entrance ∧ p.1 ≠ mz.exit ∧
        p.2 ≠ mz.entrance ∧ p.2 ≠ mz.exit) :=
  generateMaze_run g rand hc hconn

/-- A two-cell grid whose adjacency graph is disconnected: it satisfies every
obligation of §4.1 yet its cells have no neighbors at all. -/
def discGrid : Grid Nat :=
  { cells := [0, 1], neighbors := fun _ => [], entranceCell := 0,
    exitCell := 1, boundaryWalls := fun _ => [] }

/-- C1 (counterexample to the claim as stated): `discGrid` satisfies the Grid
contract, yet the generated maze has two cells, no passages (so the passage
count is not cell count − 1), and its entrance cannot reach its exit. -/
theorem generateMaze_contract_insufficient :
    GridContract discGrid ∧
    generateMaze discGrid (fun _ => 0) =
      Except.ok { cells := [0, 1], passages := [], boundaryWalls := [],
                  entrance := 0, exit := 1 } ∧
    ¬Reaches ([] : List (Nat × Nat)) 0 1 := by
  refine ⟨⟨by decide, by decide, by decide, by decide, by decide, by decide,
    by decide, by decide⟩, by rfl, ?_⟩
  rw [reaches_nil_iff]
  decide

/-- A two-cell grid whose two cells are mutual neighbors. -/
def wit2Grid : Grid Nat :=
  { cells := [0, 1],
    neighbors := fun c => if c = 0 then [1] else if c = 1 then [0] else [],
    entranceCell := 0, exitCell := 1, boundaryWalls := fun _ => [] }

/-- C1's theorem applied at the concrete connected two-cell grid. -/
theorem generateMaze_satisfies_invariants_witness :
    ∃ mz : Maze Nat, generateMaze wit2Grid (fun _ => 0) = Except.ok mz ∧
      mz.cells = wit2Grid.cells ∧ mz.entrance = wit2Grid.entranceCell ∧
      mz.exit = wit2Grid.exitCell ∧
      mz.passages.length + 1 = mz.cells.length ∧
      (∀ u ∈ mz.cells, ∀ v ∈ mz.cells, Reaches mz.passages u v) ∧
      Acyclic mz.passages ∧
      (∀ p ∈ mz.boundaryWalls, p.1 ≠ mz.entrance ∧ p.1 ≠ mz.exit ∧
        p.2 ≠ mz.entrance ∧ p.2 ≠ mz.exit) := by
  have hconn : GridConnected wit2Grid := by
    intro u hu v hv
    fin_cases hu <;> fin_cases hv
    · exact Relation.ReflTransGen.refl
    · exact reaches_single (by decide)
    · exact reaches_single (by decide)
    · exact Relation.ReflTransGen.refl
  exact generateMaze_satisfies_invariants wit2Grid (fun _ => 0)
    ⟨by decide, by decide, by decide, by decide, by decide, by decide,
      by decide, by decide⟩ hconn

/-- C8: the generator is a pure function of the grid and the injected random
sequence — two runs with the same grid and pointwise-equal random sequences
produce identical passage and boundary-wall lists. -/
theorem generateMaze_deterministic [LinearOrder T] (g : Grid T)
    (r1 r2 : Nat → ℚ) (hr : ∀ k, r1 k = r2 k) (mz1 mz2 : Maze T)
    (h1 : generateMaze g r1 = Except.ok mz1)
    (h2 : generateMaze g r2 = Except.ok mz2) :
    mz1.passages = mz2.passages ∧ mz1.boundaryWalls = mz2.boundaryWalls := by
  have hfun : r1 = r2 := funext hr
  subst hfun
  rw [h1] at h2
  cases Except.ok.inj h2
  exact ⟨rfl, rfl⟩

/-- The maze produced by running the generator on `wit2Grid`. -/
def mzW : Maze Nat :=
  { cells := [0, 1], passages := [(0, 1)], boundaryWalls := [],
    entrance := 0, exit := 1 }

/-- C8's theorem applied at the concrete two-cell grid with two syntactically
different but pointwise-equal random sequences. -/
theorem generateMaze_deterministic_witness :
    mzW.passages = mzW.passages ∧ mzW.boundaryWalls = mzW.boundaryWalls :=
  generateMaze_deterministic wit2Grid (fun _ => 0) (fun k => 0 * (k : ℚ))
    (fun k => (zero_mul (k : ℚ)).symm) mzW mzW rfl rfl

/-! ## `maze-solver.ts`: `solveMaze`

The adjacency `Map<CellId, Set<CellId>>` is an association list whose values
are duplicate-free lists (`jsInsert`).  The BFS `while` loop and the parent
walk of the path reconstruction receive fuel; the run theorem shows the fuel
chosen by `solveMaze` always suffices. -/

/-- `adj.get(x)` with the `|| []` default of the source. -/
def adjGet [DecidableEq T] (adj : List (T × List T)) (x : T) : List T :=
  (mget adj x).getD []

/-- The initialization loop: `adj.set(cell, new Set())` for every cell. -/
def adjInit [DecidableEq T] (cells : List T) : List (T × List T) :=
  cells.foldl (fun m c => mset m c []) []

/-- `adj.get(a)!.add(b)` (the key is always present when the source runs it). -/
def adjAdd [DecidableEq T] (m : List (T × List T)) (a b : T) : List (T × List T) :=
  mset m a (jsInsert (adjGet m a) b)

/-- The adjacency built from the passages whose two endpoints are maze cells. -/
def buildAdj [DecidableEq T] (mz : Maze T) : List (T × List T) :=
  mz.passages.foldl (fun m p =>
    if p.1 ∈ mz.cells ∧ p.2 ∈ mz.cells then adjAdd (adjAdd m p.1 p.2) p.2 p.1
    else m) (adjInit mz.cells)

/-- The passages the solver and validator actually traverse: both endpoints in
`cells`. -/
def cellPassages [DecidableEq T] (mz : Maze T) : List (T × T) :=
  mz.passages.filter (fun p => decide (p.1 ∈ mz.cells) && decide (p.2 ∈ mz.cells))

/-- The path-reconstruction `while` loop of `solveMaze` (walks parent
pointers from `exit` back to `entrance`, prepending). -/
def rebuildPath [DecidableEq T] (parent : List (T × T)) (ent : T) :
    Nat → T → List T → Option (List T)
  | 0, _, _ => none
  | fuel + 1, node, acc =>
    if node = ent then some (ent :: acc)
    else
      match mget parent node with
      | none => none
      | some p => rebuildPath parent ent fuel p (node :: acc)

/-- One neighbor-processing step of the BFS loop: enqueue a neighbor and
record its parent unless it already has one. -/
def enqStep [DecidableEq T] (current : T) (pq : List (T × T) × List T) (n : T) :
    List (T × T) × List T :=
  if (mget pq.1 n).isSome then pq else (mset pq.1 n current, pq.2 ++ [n])

/-- The BFS `while` loop of `solveMaze`. -/
def solveGo [DecidableEq T] (ex ent : T) (adj : List (T × List T)) :
    Nat → List T → List (T × T) → Option (Option (List T))
  | 0, _, _ => none
  | fuel + 1, queue, parent =>
    match queue with
    | [] => some none
    | current :: rest =>
      if current = ex then
        match rebuildPath parent ent (parent.length + 1) ex [] with
        | none => none
        | some path => some (some path)
      else
        let pq := (adjGet adj current).foldl (enqStep current) (parent, rest)
        solveGo ex ent adj fuel pq.2 pq.1

/-- `solveMaze` from `maze-solver.ts`.  `some (some path)` is a returned
`Solution`, `some none` is the source's `null`; the outer `none` (fuel
exhaustion) never occurs, as proved below. -/
def solveMaze [DecidableEq T] (mz : Maze T) : Option (Option (List T)) :=
  solveGo mz.exit mz.entrance (buildAdj mz) (mz.cells.length + 2)
    [mz.entrance] (mset [] mz.entrance mz.entrance)

/-! ### Adjacency-construction lemmas -/

theorem adjInit_mget [DecidableEq T] (cells : List T) (x : T) :
    mget (adjInit cells) x = if x ∈ cells then some [] else none := by
  have main : ∀ (l acc : List (T × List T)) (hacc : acc = acc), True := fun _ _ _ => trivial
  clear main
  suffices h : ∀ (l : List T) (acc : List (T × List T)),
      mget (l.foldl (fun m c => mset m c []) acc) x =
        if x ∈ l then some [] else mget acc x by
    rw [adjInit, h]
    rcases Decidable.em (x ∈ cells) with hm | hm <;> simp [hm, mget]
  intro l
  induction l with
  | nil => intro acc; simp
  | cons c cs ih =>
    intro acc
    rw [List.foldl_cons, ih]
    by_cases hcs : x ∈ cs
    · simp [hcs]
    · by_cases hcx : c = x
      · subst hcx
        simp [hcs, mget_mset_self]
      · have hxc : ¬x = c := fun hh => hcx hh.symm
        simp [hcs, hxc, mget_mset_ne _ _ _ _ (fun hh => hcx hh.symm)]

theorem adjAdd_mem [DecidableEq T] (m : List (T × List T)) (a b x y : T) :
    y ∈ adjGet (adjAdd m a b) x ↔ (x = a ∧ y = b) ∨ y ∈ adjGet m x := by
  by_cases hxa : x = a
  · subst hxa
    simp only [adjAdd, adjGet, mget_mset_self, Option.getD_some]
    rw [mem_jsInsert]
    tauto
  · simp only [adjAdd, adjGet, mget_mset_ne _ _ _ _ hxa]
    tauto

theorem adjAdd_isSome [DecidableEq T] (m : List (T × List T)) (a b x : T) :
    (mget (adjAdd m a b) x).isSome ↔ x = a ∨ (mget m x).isSome := by
  by_cases hxa : x = a
  · subst hxa
    simp [adjAdd, mget_mset_self]
  · simp [adjAdd, mget_mset_ne _ _ _ _ hxa, hxa]

theorem buildAdj_spec [DecidableEq T] (mz : Maze T) :
    (∀ x, (mget (buildAdj mz) x).isSome ↔ x ∈ mz.cells) ∧
    (∀ x y, y ∈ adjGet (buildAdj mz) x ↔
      ∃ p ∈ mz.passages, p.1 ∈ mz.cells ∧ p.2 ∈ mz.cells ∧
        ((p.1 = x ∧ p.2 = y) ∨ (p.2 = x ∧ p.1 = y))) := by
  suffices h : ∀ (ps : List (T × T)) (m : List (T × List T)),
      (∀ z, (mget m z).isSome ↔ z ∈ mz.cells) →
      (∀ x, (mget (ps.foldl (fun m p =>
          if p.1 ∈ mz.cells ∧ p.2 ∈ mz.cells then adjAdd (adjAdd m p.1 p.2) p.2 p.1
          else m) m) x).isSome ↔ x ∈ mz.cells) ∧
      (∀ x y, y ∈ adjGet (ps.foldl (fun m p =>
          if p.1 ∈ mz.cells ∧ p.2 ∈ mz.cells then adjAdd (adjAdd m p.1 p.2) p.2 p.1
          else m) m) x ↔
        (∃ p ∈ ps, p.1 ∈ mz.cells ∧ p.2 ∈ mz.cells ∧
          ((p.1 = x ∧ p.2 = y) ∨ (p.2 = x ∧ p.1 = y))) ∨ y ∈ adjGet m x) by
    have hinit : ∀ z, (mget (adjInit mz.cells) z).isSome ↔ z ∈ mz.cells := by
      intro z
      rw [adjInit_mget]
      rcases Decidable.em (z ∈ mz.cells) with hm | hm <;> simp [hm]
    obtain ⟨h1, h2⟩ := h mz.passages (adjInit mz.cells) hinit
    refine ⟨h1, fun x y => ?_⟩
    rw [buildAdj, h2]
    have hempty : y ∉ adjGet (adjInit mz.cells) x := by
      rw [adjGet, adjInit_mget]
      rcases Decidable.em (x ∈ mz.cells) with hm | hm <;> simp [hm]
    constructor
    · rintro (h3 | h3)
      · exact h3
      · exact absurd h3 hempty
    · exact Or.inl
  intro ps
  induction ps with
  | nil =>
    intro m hm
    refine ⟨hm, fun x y => ?_⟩
    simp
  | cons p ps ih =>
    intro m hm
    rw [List.foldl_cons]
    by_cases hp : p.1 ∈ mz.cells ∧ p.2 ∈ mz.cells
    · rw [if_pos hp]
      have hm2 : ∀ z, (mget (adjAdd (adjAdd m p.1 p.2) p.2 p.1) z).isSome ↔
          z ∈ mz.cells := by
        intro z
        rw [adjAdd_isSome, adjAdd_isSome, hm]
        constructor
        · rintro (rfl | rfl | hz)
          · exact hp.2
          · exact hp.1
          · exact hz
        · exact fun hz => Or.inr (Or.inr hz)
      obtain ⟨h1, h2⟩ := ih (adjAdd (adjAdd m p.1 p.2) p.2 p.1) hm2
      refine ⟨h1, fun x y => ?_⟩
      rw [h2, adjAdd_mem, adjAdd_mem]
      constructor
      · rintro (⟨q, hq, hq1, hq2, hq3⟩ | ⟨hx, hy⟩ | ⟨hx, hy⟩ | hmem)
        · exact Or.inl ⟨q, List.mem_cons_of_mem p hq, hq1, hq2, hq3⟩
        · exact Or.inl ⟨p, List.mem_cons_self p ps, hp.1, hp.2,
            Or.inr ⟨hx.symm, hy.symm⟩⟩
        · exact Or.inl ⟨p, List.mem_cons_self p ps, hp.1, hp.2,
            Or.inl ⟨hx.symm, hy.symm⟩⟩
        · exact Or.inr hmem
      · rintro (⟨q, hq, hq1, hq2, hq3⟩ | hmem)
        · rcases List.mem_cons.mp hq with rfl | hq'
          · rcases hq3 with ⟨hx, hy⟩ | ⟨hx, hy⟩
            · exact Or.inr (Or.inr (Or.inl ⟨hx.symm, hy.symm⟩))
            · exact Or.inr (Or.inl ⟨hx.symm, hy.symm⟩)
          · exact Or.inl ⟨q, hq', hq1, hq2, hq3⟩
        · exact Or.inr (Or.inr (Or.inr hmem))
    · rw [if_neg hp]
      obtain ⟨h1, h2⟩ := ih m hm
      refine ⟨h1, fun x y => ?_⟩
      rw [h2]
      constructor
      · rintro (⟨q, hq, hq1, hq2, hq3⟩ | hmem)
        · exact Or.inl ⟨q, List.mem_cons_of_mem p hq, hq1, hq2, hq3⟩
        · exact Or.inr hmem
      · rintro (⟨q, hq, hq1, hq2, hq3⟩ | hmem)
        · rcases List.mem_cons.mp hq with rfl | hq'
          · exact absurd ⟨hq1, hq2⟩ hp
          · exact Or.inl ⟨q, hq', hq1, hq2, hq3⟩
        · exact Or.inr hmem

/-- Membership in the symmetric step relation of the solver's adjacency is
exactly `pairAdj` of the both-endpoints-in-cells passages. -/
theorem adjGet_iff_pairAdj [DecidableEq T] (mz : Maze T) (x y : T) :
    y ∈ adjGet (buildAdj mz) x ↔ pairAdj (cellPassages mz) x y := by
  rw [(buildAdj_spec mz).2]
  constructor
  · rintro ⟨p, hp, h1, h2, ⟨hx, hy⟩ | ⟨hx, hy⟩⟩
    · exact Or.inl (by
        rw [← hx, ← hy]
        refine List.mem_filter.mpr ⟨by simpa using hp, ?_⟩
        simp [h1, h2])
    · exact Or.inr (by
        rw [← hx, ← hy]
        refine List.mem_filter.mpr ⟨by simpa using hp, ?_⟩
        simp [h1, h2])
  · rintro (h | h) <;> obtain ⟨hmem, hcond⟩ := List.mem_filter.mp h
    · have h1 : x ∈ mz.cells ∧ y ∈ mz.cells := by simpa using hcond
      exact ⟨(x, y), hmem, h1.1, h1.2, Or.inl ⟨rfl, rfl⟩⟩
    · have h1 : y ∈ mz.cells ∧ x ∈ mz.cells := by simpa using hcond
      exact ⟨(y, x), hmem, h1.1, h1.2, Or.inr ⟨rfl, rfl⟩⟩

/-! ### Path reconstruction -/

/-- Parent chains survive any map extension that preserves existing bindings,
provided the root stays self-parented. -/
theorem chainTo_lift [DecidableEq T] {m m2 : List (T × T)}
    (hpres : ∀ y p, mget m y = some p → mget m2 y = some p) :
    ∀ {x r n}, ChainTo m x r n → mget m r = some r → ChainTo m2 x r n := by
  intro x r n h
  induction h with
  | root x hx =>
    intro hr
    exact ChainTo.root x (Or.inr (hpres _ _ hr))
  | step x p r n hp hne hc ih =>
    intro hr
    exact ChainTo.step x p r n (hpres _ _ hp) hne (ih hr)

/-- The reconstruction loop succeeds whenever the start of the walk chains to
the entrance, and returns the parent chain in forward order. -/
theorem rebuildPath_ok [DecidableEq T] {parent : List (T × T)} {ent : T} :
    ∀ {x n}, ChainTo parent x ent n → mget parent ent = some ent →
    ∀ fuel acc, n < fuel →
    ∃ mid, rebuildPath parent ent fuel x acc = some (ent :: (mid ++ acc)) ∧
      List.Chain' (fun a b => mget parent b = some a ∧ b ≠ ent) (ent :: mid) ∧
      (ent :: mid).getLast? = some x := by
  intro x n h
  induction h with
  | root x hx =>
    intro hr fuel acc hfuel
    obtain ⟨f, rfl⟩ : ∃ f, fuel = f + 1 :=
      ⟨fuel - 1, by omega⟩
    refine ⟨[], ?_, ?_, ?_⟩
    · simp [rebuildPath]
    · simp
    · simp
  | step x p r n hp hne hc ih =>
    intro hr fuel acc hfuel
    obtain ⟨f, rfl⟩ : ∃ f, fuel = f + 1 := ⟨fuel - 1, by omega⟩
    have hxr : x ≠ r := by
      intro hxx
      subst hxx
      rw [hp] at hr
      exact hne (Option.some.inj hr)
    obtain ⟨mid, heq, hch, hlast⟩ := ih hr f (x :: acc) (by omega)
    refine ⟨mid ++ [x], ?_, ?_, ?_⟩
    · simp only [rebuildPath, if_neg hxr, hp]
      rw [heq]
      simp
    · have hcons : r :: (mid ++ [x]) = (r :: mid) ++ [x] := by simp
      rw [hcons, List.chain'_append]
      refine ⟨hch, List.chain'_singleton x, ?_⟩
      intro a ha b hb
      rw [hlast] at ha
      cases Option.some.inj (Option.mem_def.mp ha)
      cases Option.some.inj (Option.mem_def.mp hb)
      exact ⟨hp, hxr⟩
    · have hcons : r :: (mid ++ [x]) = (r :: mid) ++ [x] := by simp
      rw [hcons]
      exact List.getLast?_concat _

/-- A chain of steps from the head of a list reaches its last element. -/
theorem chain_head_rtg {R : T → T → Prop} :
    ∀ (l : List T) (a z : T), List.Chain' R (a :: l) →
      (a :: l).getLast? = some z → Relation.ReflTransGen R a z := by
  intro l
  induction l with
  | nil =>
    intro a z _ hz
    cases Option.some.inj (by simpa using hz)
    exact Relation.ReflTransGen.refl
  | cons b l ih =>
    intro a z hch hz
    rw [List.chain'_cons] at hch
    have hz2 : (b :: l).getLast? = some z := by
      simpa [List.getLast?_cons_cons] using hz
    exact Relation.ReflTransGen.head hch.1 (ih b z hch.2 hz2)

/-! ### The neighbor-enqueue fold -/

theorem enqFold_fst_pres [DecidableEq T] (current : T) :
    ∀ (l : List T) (p0 : List (T × T)) (q0 : List T) (x p : T),
      mget p0 x = some p →
      mget (l.foldl (enqStep current) (p0, q0)).1 x = some p := by
  intro l
  induction l with
  | nil => intro p0 q0 x p h; exact h
  | cons n ns ih =>
    intro p0 q0 x p h
    rw [List.foldl_cons]
    by_cases hn : (mget p0 n).isSome
    · rw [enqStep, if_pos hn]
      exact ih p0 q0 x p h
    · rw [enqStep, if_neg hn]
      have hnx : x ≠ n := by
        intro hh
        rw [← hh] at hn
        exact hn (by rw [h]; rfl)
      exact ih _ _ x p (by rw [mget_mset_ne _ _ _ _ hnx]; exact h)

theorem enqFold_isSome [DecidableEq T] (current : T) :
    ∀ (l : List T) (p0 : List (T × T)) (q0 : List T) (x : T),
      (mget (l.foldl (enqStep current) (p0, q0)).1 x).isSome ↔
        (mget p0 x).isSome ∨ x ∈ l := by
  intro l
  induction l with
  | nil => intro p0 q0 x; simp
  | cons n ns ih =>
    intro p0 q0 x
    rw [List.foldl_cons]
    by_cases hn : (mget p0 n).isSome
    · rw [enqStep, if_pos hn, ih]
      constructor
      · rintro (h | h)
        · exact Or.inl h
        · exact Or.inr (List.mem_cons_of_mem n h)
      · rintro (h | h)
        · exact Or.inl h
        · rcases List.mem_cons.mp h with rfl | h2
          · exact Or.inl hn
          · exact Or.inr h2
    · rw [enqStep, if_neg hn, ih]
      by_cases hx : x = n
      · subst hx
        simp [mget_mset_self]
      · rw [mget_mset_ne _ _ _ _ hx]
        simp only [List.mem_cons]
        constructor
        · rintro (h | h)
          · exact Or.inl h
          · exact Or.inr (Or.inr h)
        · rintro (h | h | h)
          · exact Or.inl h
          · exact absurd h hx
          · exact Or.inr h

theorem enqFold_fst_new [DecidableEq T] (current : T) :
    ∀ (l : List T) (p0 : List (T × T)) (q0 : List T) (x p : T),
      mget (l.foldl (enqStep current) (p0, q0)).1 x = some p →
      mget p0 x = some p ∨ (x ∈ l ∧ p = current ∧ mget p0 x = none) := by
  intro l
  induction l with
  | nil => intro p0 q0 x p h; exact Or.inl h
  | cons n ns ih =>
    intro p0 q0 x p h
    rw [List.foldl_cons] at h
    by_cases hn : (mget p0 n).isSome
    · rw [enqStep, if_pos hn] at h
      rcases ih p0 q0 x p h with h1 | ⟨h1, h2, h3⟩
      · exact Or.inl h1
      · exact Or.inr ⟨List.mem_cons_of_mem n h1, h2, h3⟩
    · rw [enqStep, if_neg hn] at h
      rcases ih _ _ x p h with h1 | ⟨h1, h2, h3⟩
      · by_cases hx : x = n
        · subst hx
          rw [mget_mset_self] at h1
          exact Or.inr ⟨List.mem_cons_self _ _, (Option.some.inj h1).symm,
            Option.not_isSome_iff_eq_none.mp hn⟩
        · rw [mget_mset_ne _ _ _ _ hx] at h1
          exact Or.inl h1
      · by_cases hx : x = n
        · subst hx
          rw [mget_mset_self] at h3
          cases h3
        · rw [mget_mset_ne _ _ _ _ hx] at h3
          exact Or.inr ⟨List.mem_cons_of_mem n h1, h2, h3⟩

theorem enqFold_new_val [DecidableEq T] (current : T) :
    ∀ (l : List T) (p0 : List (T × T)) (q0 : List T) (x : T),
      x ∈ l → mget p0 x = none →
      mget (l.foldl (enqStep current) (p0, q0)).1 x = some current := by
  intro l
  induction l with
  | nil => intro p0 q0 x h; cases h
  | cons n ns ih =>
    intro p0 q0 x hx hnone
    rw [List.foldl_cons]
    by_cases hn : (mget p0 n).isSome
    · rw [enqStep, if_pos hn]
      rcases List.mem_cons.mp hx with rfl | h2
      · rw [hnone] at hn
        cases hn
      · exact ih p0 q0 x h2 hnone
    · rw [enqStep, if_neg hn]
      by_cases hxn : x = n
      · subst hxn
        exact enqFold_fst_pres current ns _ _ x current (mget_mset_self _ _ _)
      · rcases List.mem_cons.mp hx with h2 | h2
        · exact absurd h2 hxn
        · exact ih _ _ x h2 (by rw [mget_mset_ne _ _ _ _ hxn]; exact hnone)

theorem enqFold_queue [DecidableEq T] (current : T) :
    ∀ (l : List T) (p0 : List (T × T)) (q0 : List T) (x : T),
      x ∈ (l.foldl (enqStep current) (p0, q0)).2 ↔
        x ∈ q0 ∨ (x ∈ l ∧ mget p0 x = none) := by
  intro l
  induction l with
  | nil => intro p0 q0 x; simp
  | cons n ns ih =>
    intro p0 q0 x
    rw [List.foldl_cons]
    by_cases hn : (mget p0 n).isSome
    · rw [enqStep, if_pos hn, ih]
      constructor
      · rintro (h | ⟨h1, h2⟩)
        · exact Or.inl h
        · exact Or.inr ⟨List.mem_cons_of_mem n h1, h2⟩
      · rintro (h | ⟨h1, h2⟩)
        · exact Or.inl h
        · rcases List.mem_cons.mp h1 with rfl | h3
          · rw [h2] at hn
            cases hn
          · exact Or.inr ⟨h3, h2⟩
    · rw [enqStep, if_neg hn, ih]
      by_cases hx : x = n
      · subst hx
        simp [mget_mset_self, Option.not_isSome_iff_eq_none.mp hn]
      · rw [mget_mset_ne _ _ _ _ hx]
        simp only [List.mem_append, List.mem_cons, List.not_mem_nil, or_false]
        constructor
        · rintro ((h | h) | ⟨h1, h2⟩)
          · exact Or.inl h
          · exact absurd h hx
          · exact Or.inr ⟨Or.inr h1, h2⟩
        · rintro (h | ⟨h1, h2⟩)
          · exact Or.inl (Or.inl h)
          · rcases h1 with h1 | h1
            · exact absurd h1 hx
            · exact Or.inr ⟨h1, h2⟩

theorem enqFold_nodup [DecidableEq T] (current : T) :
    ∀ (l : List T) (p0 : List (T × T)) (q0 : List T),
      q0.Nodup → (∀ q ∈ q0, (mget p0 q).isSome) →
      (l.foldl (enqStep current) (p0, q0)).2.Nodup := by
  intro l
  induction l with
  | nil => intro p0 q0 h _; exact h
  | cons n ns ih =>
    intro p0 q0 hnd hqk
    rw [List.foldl_cons]
    by_cases hn : (mget p0 n).isSome
    · rw [enqStep, if_pos hn]
      exact ih p0 q0 hnd hqk
    · rw [enqStep, if_neg hn]
      apply ih
      · rw [List.nodup_append]
        refine ⟨hnd, List.nodup_singleton n, ?_⟩
        intro a ha hb
        rw [List.mem_singleton] at hb
        subst hb
        exact hn (hqk a ha)
      · intro q hq
        rcases List.mem_append.mp hq with h1 | h1
        · have hsome := hqk q h1
          rcases Option.isSome_iff_exists.mp hsome with ⟨v, hv⟩
          by_cases hqn : q = n
          · subst hqn
            rw [mget_mset_self]
            rfl
          · rw [mget_mset_ne _ _ _ _ hqn, hv]
            rfl
        · rw [List.mem_singleton] at h1
          subst h1
          rw [mget_mset_self]
          rfl

theorem enqFold_keys_nodup [DecidableEq T] (current : T) :
    ∀ (l : List T) (p0 : List (T × T)) (q0 : List T),
      (keys p0).Nodup → (keys (l.foldl (enqStep current) (p0, q0)).1).Nodup := by
  intro l
  induction l with
  | nil => intro p0 q0 h; exact h
  | cons n ns ih =>
    intro p0 q0 h
    rw [List.foldl_cons]
    by_cases hn : (mget p0 n).isSome
    · rw [enqStep, if_pos hn]
      exact ih p0 q0 h
    · rw [enqStep, if_neg hn]
      exact ih _ _ (keys_nodup_mset _ _ _ h)

theorem filter_isNone_mset_length [DecidableEq T] (p0 : List (T × T)) (n v : T) :
    ∀ (cells : List T), cells.Nodup → n ∈ cells → mget p0 n = none →
      (cells.filter (fun c => (mget (mset p0 n v) c).isNone)).length + 1 =
        (cells.filter (fun c => (mget p0 c).isNone)).length := by
  intro cells
  induction cells with
  | nil => intro _ h; cases h
  | cons c cs ih =>
    intro hnd hn hnone
    have hnd2 := List.nodup_cons.mp hnd
    by_cases hcn : c = n
    · subst hcn
      have hnotin : ∀ d ∈ cs, (mget (mset p0 c v) d).isNone = (mget p0 d).isNone := by
        intro d hd
        have hdc : d ≠ c := fun hh => hnd2.1 (hh ▸ hd)
        rw [mget_mset_ne _ _ _ _ hdc]
      rw [List.filter_cons, List.filter_cons]
      have h1 : ((mget (mset p0 c v) c).isNone = true) = False := by
        simp [mget_mset_self]
      have h2 : ((mget p0 c).isNone = true) = True := by
        simp [hnone]
      simp only [h1, h2, if_true, if_false]
      have hfil : cs.filter (fun c2 => (mget (mset p0 c v) c2).isNone) =
          cs.filter (fun c2 => (mget p0 c2).isNone) := by
        apply List.filter_congr
        intro d hd
        rw [hnotin d hd]
      rw [hfil]
      simp
    · rcases List.mem_cons.mp hn with h1 | h1
      · exact absurd h1.symm hcn
      · rw [List.filter_cons, List.filter_cons]
        have hceq : (mget (mset p0 n v) c).isNone = (mget p0 c).isNone := by
          rw [mget_mset_ne _ _ _ _ hcn]
        rw [hceq]
        by_cases hc : (mget p0 c).isNone
        · simp only [hc, if_true]
          have := ih hnd2.2 h1 hnone
          simp only [List.length_cons]
          omega
        · rw [if_neg hc, if_neg hc]
          exact ih hnd2.2 h1 hnone

theorem enqFold_measure [DecidableEq T] (current : T) (cells : List T)
    (hnd : cells.Nodup) :
    ∀ (l : List T) (p0 : List (T × T)) (q0 : List T), (∀ n ∈ l, n ∈ cells) →
      (l.foldl (enqStep current) (p0, q0)).2.length +
        (cells.filter (fun c => (mget (l.foldl (enqStep current) (p0, q0)).1 c).isNone)).length ≤
      q0.length + (cells.filter (fun c => (mget p0 c).isNone)).length := by
  intro l
  induction l with
  | nil => intro p0 q0 _; simp
  | cons n ns ih =>
    intro p0 q0 hl
    rw [List.foldl_cons]
    by_cases hn : (mget p0 n).isSome
    · rw [enqStep, if_pos hn]
      exact ih p0 q0 (fun m hm => hl m (List.mem_cons_of_mem n hm))
    · rw [enqStep, if_neg hn]
      have hred : (mset (p0, q0).1 n current, (p0, q0).2 ++ [n]) =
          (mset p0 n current, q0 ++ [n]) := rfl
      rw [hred]
      have hih := ih (mset p0 n current) (q0 ++ [n])
        (fun m hm => hl m (List.mem_cons_of_mem n hm))
      have hcount := filter_isNone_mset_length p0 n current cells hnd
        (hl n (List.mem_cons_self n ns)) (Option.not_isSome_iff_eq_none.mp hn)
      have hq : (q0 ++ [n]).length = q0.length + 1 := by simp
      omega

/-- Master run of the BFS loop of `solveMaze`: with the invariants of the
parent map and queue, the loop returns within fuel; a returned path goes from
the entrance to the exit along adjacency steps, and `null` is returned exactly
when the exit is unreachable. -/
theorem solveGo_run [DecidableEq T] (ex ent : T) (adj : List (T × List T))
    (cells : List T) (hnd : cells.Nodup)
    (hmem : ∀ x y, y ∈ adjGet adj x → y ∈ cells) :
    ∀ (fuel : Nat) (queue : List T) (parent : List (T × T)),
      mget parent ent = some ent →
      (∀ q ∈ queue, (mget parent q).isSome) →
      queue.Nodup →
      (∀ x p, mget parent x = some p → ∃ n, ChainTo parent x ent n) →
      (∀ x p, mget parent x = some p → x ≠ ent → x ∈ adjGet adj p) →
      (∀ x, (mget parent x).isSome → x ∈ queue ∨
        ∀ y ∈ adjGet adj x, (mget parent y).isSome) →
      ((mget parent ex).isSome → ex ∈ queue) →
      queue.length + (cells.filter (fun c => (mget parent c).isNone)).length < fuel →
      ∃ r, solveGo ex ent adj fuel queue parent = some r ∧
        (∀ path, r = some path → ∃ mid, path = ent :: mid ∧
          path.getLast? = some ex ∧
          List.Chain' (fun a b => b ∈ adjGet adj a) path) ∧
        (r = none → ¬ Relation.ReflTransGen (fun a b => b ∈ adjGet adj a) ent ex) ∧
        (∀ path, r = some path →
          Relation.ReflTransGen (fun a b => b ∈ adjGet adj a) ent ex) := by
  intro fuel
  induction fuel with
  | zero =>
    intro queue parent _ _ _ _ _ _ _ hfuel
    exact absurd hfuel (by omega)
  | succ f ih =>
    intro queue parent hroot hqk hqnd hwf hstep hclosed hexit hfuel
    cases queue with
    | nil =>
      refine ⟨none, rfl, ?_, ?_, ?_⟩
      · intro path h; cases h
      · intro _ hreach
        have hkeyed : ∀ z, Relation.ReflTransGen (fun a b => b ∈ adjGet adj a) ent z →
            (mget parent z).isSome := by
          intro z hz
          induction hz with
          | refl => rw [hroot]; rfl
          | tail hw hstep2 ih2 =>
            rcases hclosed _ ih2 with h1 | h1
            · exact absurd h1 (List.not_mem_nil _)
            · exact h1 _ hstep2
        exact absurd (hexit (hkeyed ex hreach)) (List.not_mem_nil ex)
      · intro path h; cases h
    | cons current rest =>
      have hck : (mget parent current).isSome := hqk current (List.mem_cons_self _ _)
      by_cases hce : current = ex
      · subst hce
        rcases Option.isSome_iff_exists.mp hck with ⟨pc, hpc⟩
        obtain ⟨nch, hch⟩ := hwf _ _ hpc
        have hdep := chainTo_depth_le hch
        obtain ⟨mid, hre, hchain, hlast⟩ :=
          rebuildPath_ok hch hroot (parent.length + 1) [] (by omega)
        have hre2 : rebuildPath parent ent (parent.length + 1) current [] =
            some (ent :: mid) := by simpa using hre
        have hpath_chain : List.Chain' (fun a b => b ∈ adjGet adj a) (ent :: mid) := by
          refine List.Chain'.imp ?_ hchain
          intro a b hab
          exact hstep b a hab.1 hab.2
        refine ⟨some (ent :: mid), ?_, ?_, ?_, ?_⟩
        · simp [solveGo, hre2]
        · intro path h
          cases Option.some.inj h
          exact ⟨mid, rfl, hlast, hpath_chain⟩
        · intro h; cases h
        · intro path h
          exact chain_head_rtg mid ent current hpath_chain hlast
      · rcases Option.isSome_iff_exists.mp hck with ⟨pc, hpc⟩
        have hpres : ∀ y p, mget parent y = some p →
            mget ((adjGet adj current).foldl (enqStep current) (parent, rest)).1 y = some p :=
          fun y p h => enqFold_fst_pres current _ parent rest y p h
        have hrestk : ∀ q ∈ rest, (mget parent q).isSome :=
          fun q hq => hqk q (List.mem_cons_of_mem _ hq)
        have hrootE : mget ((adjGet adj current).foldl (enqStep current) (parent, rest)).1 ent
            = some ent := hpres ent ent hroot
        have hqkE : ∀ q ∈ ((adjGet adj current).foldl (enqStep current) (parent, rest)).2,
            (mget ((adjGet adj current).foldl (enqStep current) (parent, rest)).1 q).isSome := by
          intro q hq
          rcases (enqFold_queue current _ parent rest q).mp hq with h1 | ⟨h1, h2⟩
          · rcases Option.isSome_iff_exists.mp (hrestk q h1) with ⟨v, hv⟩
            rw [hpres q v hv]; rfl
          · rw [enqFold_new_val current _ parent rest q h1 h2]; rfl
        have hqndE : ((adjGet adj current).foldl (enqStep current) (parent, rest)).2.Nodup :=
          enqFold_nodup current _ parent rest (List.nodup_cons.mp hqnd).2 hrestk
        have hwfE : ∀ x p,
            mget ((adjGet adj current).foldl (enqStep current) (parent, rest)).1 x = some p →
            ∃ n, ChainTo ((adjGet adj current).foldl (enqStep current) (parent, rest)).1 x ent n := by
          intro x p hx
          rcases enqFold_fst_new current _ parent rest x p hx with h1 | ⟨h1, h2, h3⟩
          · obtain ⟨n1, hc1⟩ := hwf x p h1
            exact ⟨n1, chainTo_lift hpres hc1 hroot⟩
          · obtain ⟨n1, hc1⟩ := hwf current pc hpc
            have hcE := chainTo_lift hpres hc1 hroot
            have hxc : current ≠ x := by
              intro hh
              rw [hh] at hpc
              rw [h3] at hpc
              cases hpc
            have hxval := enqFold_new_val current (adjGet adj current) parent rest x h1 h3
            exact ⟨n1 + 1, ChainTo.step x current ent n1 hxval hxc hcE⟩
        have hstepE : ∀ x p,
            mget ((adjGet adj current).foldl (enqStep current) (parent, rest)).1 x = some p →
            x ≠ ent → x ∈ adjGet adj p := by
          intro x p hx hxe
          rcases enqFold_fst_new current _ parent rest x p hx with h1 | ⟨h1, h2, h3⟩
          · exact hstep x p h1 hxe
          · rw [h2]; exact h1
        have hclosedE : ∀ x,
            (mget ((adjGet adj current).foldl (enqStep current) (parent, rest)).1 x).isSome →
            x ∈ ((adjGet adj current).foldl (enqStep current) (parent, rest)).2 ∨
            ∀ y ∈ adjGet adj x,
              (mget ((adjGet adj current).foldl (enqStep current) (parent, rest)).1 y).isSome := by
          intro x hx
          by_cases hxk : (mget parent x).isSome
          · by_cases hxc : x = current
            · refine Or.inr (fun y hy => ?_)
              rw [hxc] at hy
              exact (enqFold_isSome current _ parent rest y).mpr (Or.inr hy)
            · rcases hclosed x hxk with h2 | h2
              · rcases List.mem_cons.mp h2 with h3 | h3
                · exact absurd h3 hxc
                · exact Or.inl ((enqFold_queue current _ parent rest x).mpr (Or.inl h3))
              · refine Or.inr (fun y hy => ?_)
                exact (enqFold_isSome current _ parent rest y).mpr (Or.inl (h2 y hy))
          · have h1 : x ∈ adjGet adj current := by
              rcases (enqFold_isSome current _ parent rest x).mp hx with h | h
              · exact absurd h hxk
              · exact h
            exact Or.inl ((enqFold_queue current _ parent rest x).mpr
              (Or.inr ⟨h1, Option.not_isSome_iff_eq_none.mp hxk⟩))
        have hexitE :
            (mget ((adjGet adj current).foldl (enqStep current) (parent, rest)).1 ex).isSome →
            ex ∈ ((adjGet adj current).foldl (enqStep current) (parent, rest)).2 := by
          intro hx
          by_cases hxk : (mget parent ex).isSome
          · rcases List.mem_cons.mp (hexit hxk) with h3 | h3
            · exact absurd h3.symm hce
            · exact (enqFold_queue current _ parent rest ex).mpr (Or.inl h3)
          · have h1 : ex ∈ adjGet adj current := by
              rcases (enqFold_isSome current _ parent rest ex).mp hx with h | h
              · exact absurd h hxk
              · exact h
            exact (enqFold_queue current _ parent rest ex).mpr
              (Or.inr ⟨h1, Option.not_isSome_iff_eq_none.mp hxk⟩)
        have hfuelE :
            ((adjGet adj current).foldl (enqStep current) (parent, rest)).2.length +
              (cells.filter (fun c =>
                (mget ((adjGet adj current).foldl (enqStep current) (parent, rest)).1 c).isNone)).length < f := by
          have hm := enqFold_measure current cells hnd (adjGet adj current) parent rest
            (fun n hn => hmem current n hn)
          have hlen : (current :: rest).length = rest.length + 1 := by simp
          omega
        obtain ⟨r, heq, hsome, hnone, hrtg⟩ := ih
          ((adjGet adj current).foldl (enqStep current) (parent, rest)).2
          ((adjGet adj current).foldl (enqStep current) (parent, rest)).1
          hrootE hqkE hqndE hwfE hstepE hclosedE hexitE hfuelE
        refine ⟨r, ?_, hsome, hnone, hrtg⟩
        simp only [solveGo, if_neg hce]
        exact heq

/-- C9: the solver's fuel always suffices; a returned solution starts at the
entrance, ends at the exit, and every consecutive pair is joined by a passage
both of whose endpoints are maze cells; and the source's `null` is returned
exactly when no passage path connects the entrance to the exit.
(`mz.cells.Nodup` models that `maze.cells` is a JS `Set`.) -/
theorem solveMaze_ok [DecidableEq T] (mz : Maze T) (hnd : mz.cells.Nodup) :
    ∃ r, solveMaze mz = some r ∧
      (∀ path, r = some path → ∃ mid, path = mz.entrance :: mid ∧
        path.getLast? = some mz.exit ∧
        List.Chain' (pairAdj (cellPassages mz)) path) ∧
      (r = none ↔ ¬Reaches (cellPassages mz) mz.entrance mz.exit) := by
  have hmem : ∀ x y, y ∈ adjGet (buildAdj mz) x → y ∈ mz.cells := by
    intro x y hy
    obtain ⟨p, -, h1, h2, h3⟩ := ((buildAdj_spec mz).2 x y).mp hy
    rcases h3 with ⟨-, hy2⟩ | ⟨-, hy2⟩
    · exact hy2 ▸ h2
    · exact hy2 ▸ h1
  have hroot0 : mget (mset [] mz.entrance mz.entrance) mz.entrance
      = some mz.entrance := mget_mset_self _ _ _
  have hsingle : ∀ x p, mget (mset ([] : List (T × T)) mz.entrance mz.entrance) x
      = some p → x = mz.entrance ∧ p = mz.entrance := by
    intro x p h
    by_cases hx : x = mz.entrance
    · subst hx
      rw [mget_mset_self] at h
      exact ⟨rfl, (Option.some.inj h).symm⟩
    · rw [mget_mset_ne _ _ _ _ hx] at h
      cases h
  obtain ⟨r, heq, hsome, hnone, hrtg⟩ :=
    solveGo_run mz.exit mz.entrance (buildAdj mz) mz.cells hnd hmem
      (mz.cells.length + 2) [mz.entrance] (mset [] mz.entrance mz.entrance)
      hroot0
      (by
        intro q hq
        rcases List.mem_singleton.mp hq with rfl
        rw [hroot0]; rfl)
      (List.nodup_singleton _)
      (by
        intro x p h
        obtain ⟨rfl, rfl⟩ := hsingle x p h
        exact ⟨0, ChainTo.root _ (Or.inr hroot0)⟩)
      (by
        intro x p h hxe
        exact absurd (hsingle x p h).1 hxe)
      (by
        intro x h
        rcases Option.isSome_iff_exists.mp h with ⟨v, hv⟩
        exact Or.inl (by rw [(hsingle x v hv).1]; exact List.mem_singleton_self _))
      (by
        intro h
        rcases Option.isSome_iff_exists.mp h with ⟨v, hv⟩
        rw [(hsingle _ v hv).1]
        exact List.mem_singleton_self _)
      (by
        have := List.length_filter_le
          (fun c => (mget (mset ([] : List (T × T)) mz.entrance mz.entrance) c).isNone)
          mz.cells
        simp only [List.length_singleton]
        omega)
  refine ⟨r, heq, ?_, ?_⟩
  · intro path h
    obtain ⟨mid, h1, h2, h3⟩ := hsome path h
    refine ⟨mid, h1, h2, ?_⟩
    refine List.Chain'.imp ?_ h3
    intro a b hab
    exact (adjGet_iff_pairAdj mz a b).mp hab
  · constructor
    · intro h hreach
      refine hnone h ?_
      refine Relation.ReflTransGen.mono ?_ hreach
      intro a b hab
      exact (adjGet_iff_pairAdj mz a b).mpr hab
    · intro h
      cases hr : r with
      | none => rfl
      | some path =>
        exfalso
        refine h ?_
        refine Relation.ReflTransGen.mono ?_ (hrtg path hr)
        intro a b hab
        exact (adjGet_iff_pairAdj mz a b).mp hab

/-- C9's theorem applied at the concrete two-cell maze with one passage. -/
theorem solveMaze_ok_witness :
    mzW.cells.Nodup ∧
    ∃ r, solveMaze mzW = some r ∧
      (∀ path, r = some path → ∃ mid, path = mzW.entrance :: mid ∧
        path.getLast? = some mzW.exit ∧
        List.Chain' (pairAdj (cellPassages mzW)) path) ∧
      (r = none ↔ ¬Reaches (cellPassages mzW) mzW.entrance mzW.exit) :=
  ⟨by decide, solveMaze_ok mzW (by decide)⟩

/-! ## String-level cell ids (`rectangular-grid.ts`, `hexagonal-grid.ts`)

Cell ids are JS strings; they are embedded as `List Char` (the character data
of the string).  JS numeric values flowing out of `Number(...)` are `JSNum`:
an integer, `NaN`, or `undefined` (from destructuring a too-short array).  The
embedding of `Number` covers the grammar the grids produce (optional minus
sign and decimal digits); on every id used in a theorem below it agrees with
JS. -/

/-- A JS number as used by the grid code: an integer, `NaN`, or `undefined`. -/
inductive JSNum where
  | int (n : Int)
  | nan
  | undef
deriving DecidableEq, Repr

/-- `s.split(',')` on character data (JS splitting: `""` gives `[""]`). -/
def splitComma : List Char → List (List Char)
  | [] => [[]]
  | c :: rest =>
    if c = ',' then [] :: splitComma rest
    else
      match splitComma rest with
      | h :: t => (c :: h) :: t
      | [] => [[c]]

/-- Accumulate decimal digits. -/
def digitsVal : List Char → Nat → Nat
  | [], acc => acc
  | c :: rest, acc =>
    if c.isDigit then digitsVal rest (acc * 10 + (c.toNat - 48)) else acc

/-- `Number(s)` restricted to the empty string, digit strings and
minus-prefixed digit strings (everything else is `NaN`). -/
def jsNumber (s : List Char) : JSNum :=
  match s with
  | [] => .int 0
  | '-' :: rest =>
    if rest ≠ [] ∧ rest.all Char.isDigit then .int (-(digitsVal rest 0 : Int))
    else .nan
  | _ =>
    if s.all Char.isDigit then .int (digitsVal s 0 : Int) else .nan

/-- The maximal digit prefix, `none` when the first character is no digit. -/
def parseDigits (s : List Char) : Option Nat :=
  match s with
  | [] => none
  | c :: _ => if c.isDigit then some (digitsVal (s.takeWhile Char.isDigit) 0) else none

/-- `parseInt(s, 10)`: optional sign, then the maximal digit prefix;
`none` is `NaN`. -/
def parseIntJS (s : List Char) : Option Int :=
  match s with
  | '-' :: rest => (parseDigits rest).map (fun n => -(n : Int))
  | '+' :: rest => (parseDigits rest).map (fun n => (n : Int))
  | _ => (parseDigits s).map (fun n => (n : Int))

/-- Index into the `split(',').map(Number)` array; a missing index is
`undefined`. -/
def getPart (parts : List (List Char)) (i : Nat) : JSNum :=
  match parts.get? i with
  | some s => jsNumber s
  | none => .undef

def jadd : JSNum → JSNum → JSNum
  | .int a, .int b => .int (a + b)
  | _, _ => .nan

def jsub : JSNum → JSNum → JSNum
  | .int a, .int b => .int (a - b)
  | _, _ => .nan

/-- `x < y` (false on `NaN`/`undefined`, as in JS). -/
def jlt : JSNum → JSNum → Bool
  | .int a, .int b => decide (a < b)
  | _, _ => false

/-- `x > y`. -/
def jgt : JSNum → JSNum → Bool
  | .int a, .int b => decide (b < a)
  | _, _ => false

/-- `x === n` against a number literal. -/
def jeqInt (x : JSNum) (n : Int) : Bool :=
  match x with
  | .int a => decide (a = n)
  | _ => false

/-- Decimal digits of a natural number (fuel-based so the kernel reduces it). -/
def natToCharsAux : Nat → Nat → List Char
  | 0, _ => []
  | fuel + 1, n =>
    if n < 10 then [Nat.digitChar n]
    else natToCharsAux fuel (n / 10) ++ [Nat.digitChar (n % 10)]

def natToChars (n : Nat) : List Char := natToCharsAux (n + 1) n

/-- Template-literal rendering of an integer. -/
def intToChars (n : Int) : List Char :=
  if n < 0 then '-' :: natToChars (-n).toNat else natToChars n.toNat

/-- Template-literal rendering of a `JSNum`. -/
def jstr : JSNum → List Char
  | .int n => intToChars n
  | .nan => ['N', 'a', 'N']
  | .undef => ['u', 'n', 'd', 'e', 'f', 'i', 'n', 'e', 'd']

/-- JS string comparison `a < b` (lexicographic on character codes). -/
def jsStrLt : List Char → List Char → Bool
  | [], [] => false
  | [], _ :: _ => true
  | _ :: _, [] => false
  | a :: as, b :: bs => if a = b then jsStrLt as bs else decide (a < b)

/-- `makePassage` at the string level. -/
def makePassageL (a b : List Char) : List Char × List Char :=
  if jsStrLt a b then (a, b) else (b, a)

/-- `[lo, lo+1, …, hi]` (empty when `hi < lo`), for the grid generation
loops. -/
def intRange (lo hi : Int) : List Int :=
  (List.range (hi + 1 - lo).toNat).map (fun i => lo + (i : Int))

/-! ### `RectangularGrid` -/

/-- The constructor check of `RectangularGrid`. -/
def rectMake (width height : Int) : Except String (Int × Int) :=
  if width < 2 ∨ height < 2 then Except.error "Grid must be at least 2x2"
  else Except.ok (width, height)

/-- `RectangularGrid.cells`. -/
def rectCells (width height : Int) : List (List Char) :=
  (intRange 0 (height - 1)).flatMap (fun y =>
    (intRange 0 (width - 1)).map (fun x => intToChars x ++ ',' :: intToChars y))

/-- `RectangularGrid.neighbors`: parse, then push the four in-bounds
candidates.  No membership validation and no thrown error. -/
def rectNeighbors (width height : Int) (cell : List Char) : List (List Char) :=
  let parts := splitComma cell
  let x := getPart parts 0
  let y := getPart parts 1
  (if jgt x (.int 0) then [jstr (jsub x (.int 1)) ++ ',' :: jstr y] else []) ++
  (if jlt x (.int (width - 1)) then [jstr (jadd x (.int 1)) ++ ',' :: jstr y] else []) ++
  (if jgt y (.int 0) then [jstr x ++ ',' :: jstr (jsub y (.int 1))] else []) ++
  (if jlt y (.int (height - 1)) then [jstr x ++ ',' :: jstr (jadd y (.int 1))] else [])

/-- `RectangularGrid.entranceCell`. -/
def rectEntrance : List Char := ['0', ',', '0']

/-- `RectangularGrid.exitCell`. -/
def rectExit (width height : Int) : List Char :=
  intToChars (width - 1) ++ ',' :: intToChars (height - 1)

/-- `RectangularGrid.boundaryWalls`: one wall per boundary-facing side. -/
def rectBoundaryWalls (width height : Int) (cell : List Char) :
    List (List Char × List Char) :=
  let parts := splitComma cell
  let x := getPart parts 0
  let y := getPart parts 1
  (if jeqInt x 0 then [makePassageL (['-', '1', ','] ++ jstr y) cell] else []) ++
  (if jeqInt x (width - 1) then
    [makePassageL cell (intToChars width ++ ',' :: jstr y)] else []) ++
  (if jeqInt y 0 then [makePassageL (jstr x ++ [',', '-', '1']) cell] else []) ++
  (if jeqInt y (height - 1) then
    [makePassageL cell (jstr x ++ ',' :: intToChars height)] else [])

/-! ### `HexagonalGrid` -/

/-- The constructor check of `HexagonalGrid`. -/
def hexMake (radius : Int) : Except String Int :=
  if radius < 1 then Except.error "Hexagonal grid radius must be at least 1"
  else Except.ok radius

/-- `parseAxialCoords`: split on comma, require exactly two parts, `parseInt`
both; thrown errors become `Except.error`. -/
def parseAxialCoords (cell : List Char) : Except String (Int × Int) :=
  match splitComma cell with
  | [p0, p1] =>
    match parseIntJS p0, parseIntJS p1 with
    | some q, some r => Except.ok (q, r)
    | _, _ => Except.error "Invalid numeric coordinates in cell"
  | _ => Except.error "Invalid cell ID format"

/-- `isValidCell` (the `try`/`catch` makes a parse failure `false`). -/
def hexIsValidCell (radius : Int) (cell : List Char) : Bool :=
  match parseAxialCoords cell with
  | Except.ok (q, r) => decide (max (max |q| |r|) |q + r| ≤ radius)
  | Except.error _ => false

/-- `isBoundaryCell`. -/
def hexIsBoundaryCell (radius : Int) (cell : List Char) : Bool :=
  match parseAxialCoords cell with
  | Except.ok (q, r) => decide (max (max |q| |r|) |q + r| = radius)
  | Except.error _ => false

/-- `HexagonalGrid.cells`. -/
def hexCells (radius : Int) : List (List Char) :=
  (intRange (-radius) radius).flatMap (fun q =>
    (intRange (max (-radius) (-q - radius)) (min radius (-q + radius))).map
      (fun r => intToChars q ++ ',' :: intToChars r))

/-- `HexagonalGrid.neighbors`: parse (may throw), then keep the valid ones of
the six offset candidates.  No membership check on `cell` itself. -/
def hexNeighbors (radius : Int) (cell : List Char) :
    Except String (List (List Char)) :=
  match parseAxialCoords cell with
  | Except.error e => Except.error e
  | Except.ok (q, r) =>
    Except.ok (([((1 : Int), (0 : Int)), (-1, 0), (0, 1), (0, -1), (1, -1),
        (-1, 1)]).filterMap (fun d =>
      let nb := intToChars (q + d.1) ++ ',' :: intToChars (r + d.2)
      if hexIsValidCell radius nb then some nb else none))

/-- `HexagonalGrid.boundaryWalls`: a single wall to one virtual outside cell
for a boundary cell, regardless of how many of its sides face the outside. -/
def hexBoundaryWalls (radius : Int) (cell : List Char) :
    Except String (List (List Char × List Char)) :=
  if hexIsBoundaryCell radius cell = false then Except.ok []
  else
    match parseAxialCoords cell with
    | Except.error e => Except.error e
    | Except.ok (q, r) =>
      Except.ok [makePassageL cell
        (['o', 'u', 't', 's', 'i', 'd', 'e', '-'] ++
          intToChars q ++ ',' :: intToChars r)]

/-- C5 (counterexample to the claim as stated): neither provider rejects
non-member cells: on a 2×2 rectangular grid the non-member "5,5" yields a
non-empty neighbor list, and on a radius-1 hexagonal grid the well-formed
non-member "9,9" yields an ordinary empty list, not an error. -/
theorem neighbors_nonmember_no_error :
    (String.data "5,5" ∉ rectCells 2 2) ∧
    rectNeighbors 2 2 (String.data "5,5") =
      [String.data "4,5", String.data "5,4"] ∧
    (String.data "9,9" ∉ hexCells 1) ∧
    hexNeighbors 1 (String.data "9,9") = Except.ok [] := by
  refine ⟨by decide, by decide, by decide, by rfl⟩

/-- C5 (amended): `neighbors` performs no membership validation.
`HexagonalGrid.neighbors` fails only when the id does not parse — for every
parseable id (member or not) it returns a list of valid cells — and
`RectangularGrid.neighbors` is total. -/
theorem neighbors_no_membership_validation (radius w h : Int) (cell : List Char) :
    (∀ q r, parseAxialCoords cell = Except.ok (q, r) →
      ∃ l, hexNeighbors radius cell = Except.ok l ∧
        ∀ nb ∈ l, hexIsValidCell radius nb = true) ∧
    ∃ l2, rectNeighbors w h cell = l2 := by
  constructor
  · intro q r hp
    refine ⟨_, by rw [hexNeighbors, hp], ?_⟩
    intro nb hnb
    obtain ⟨d, hd, hval⟩ := List.mem_filterMap.mp hnb
    by_cases hcond : hexIsValidCell radius
        (intToChars (q + d.1) ++ ',' :: intToChars (r + d.2)) = true
    · simp only [hcond, if_true] at hval
      rw [← Option.some.inj hval]
      exact hcond
    · simp only [hcond] at hval
      rw [if_neg (by simpa using hcond)] at hval
      cases hval
  · exact ⟨_, rfl⟩

/-- C5's amended theorem applied at the parseable non-member id "9,9" on the
radius-1 hexagonal grid. -/
theorem neighbors_no_membership_validation_witness :
    ∃ l, hexNeighbors 1 (String.data "9,9") = Except.ok l ∧
      ∀ nb ∈ l, hexIsValidCell 1 nb = true :=
  (neighbors_no_membership_validation 1 2 2 (String.data "9,9")).1 9 9 (by rfl)

/-- C6 (counterexample to the claim as stated): the rectangular constructor
rejects the positive dimensions 1×5. -/
theorem rect_constructor_rejects_positive :
    (1 : Int) ≥ 1 ∧ (5 : Int) ≥ 1 ∧
    rectMake 1 5 = Except.error "Grid must be at least 2x2" :=
  ⟨by norm_num, by norm_num, rfl⟩

/-- C6 (amended): `RectangularGrid` succeeds exactly on `width ≥ 2` and
`height ≥ 2` (not on all positive dimensions); `HexagonalGrid` succeeds
exactly on `radius ≥ 1`. -/
theorem constructors_dimension_check :
    (∀ w h : Int, (∃ g, rectMake w h = Except.ok g) ↔ 2 ≤ w ∧ 2 ≤ h) ∧
    (∀ radius : Int, (∃ g, hexMake radius = Except.ok g) ↔ 1 ≤ radius) := by
  constructor
  · intro w h
    constructor
    · rintro ⟨g, hg⟩
      rw [rectMake] at hg
      by_cases hc : w < 2 ∨ h < 2
      · rw [if_pos hc] at hg
        cases hg
      · push_neg at hc
        omega
    · rintro ⟨h1, h2⟩
      exact ⟨(w, h), by rw [rectMake, if_neg (by omega)]⟩
  · intro radius
    constructor
    · rintro ⟨g, hg⟩
      rw [hexMake] at hg
      by_cases hc : radius < 1
      · rw [if_pos hc] at hg
        cases hg
      · omega
    · intro h1
      exact ⟨radius, by rw [hexMake, if_neg (by omega)]⟩

/-- C6's theorem applied at concrete dimensions. -/
theorem constructors_dimension_check_witness :
    ((∃ g, rectMake 3 4 = Except.ok g) ↔ 2 ≤ (3 : Int) ∧ 2 ≤ (4 : Int)) ∧
    ((∃ g, hexMake 2 = Except.ok g) ↔ 1 ≤ (2 : Int)) :=
  ⟨constructors_dimension_check.1 3 4, constructors_dimension_check.2 2⟩

/-- C7 (counterexample to the claim as stated): the radius-1 hexagonal cell
"1,0" has three boundary-facing sides (six sides, three in-grid neighbors) but
`boundaryWalls` returns a single wall, not one per boundary-facing side. -/
theorem hex_boundary_single_wall :
    hexIsBoundaryCell 1 (String.data "1,0") = true ∧
    hexNeighbors 1 (String.data "1,0") =
      Except.ok [String.data "0,0", String.data "1,-1", String.data "0,1"] ∧
    hexBoundaryWalls 1 (String.data "1,0") =
      Except.ok [(String.data "1,0", String.data "outside-1,0")] := by
  refine ⟨by rfl, by rfl, by rfl⟩

/-- C7 (amended): `RectangularGrid.boundaryWalls` does return one wall per
boundary-facing side (a corner yields 2); `HexagonalGrid.boundaryWalls`
returns no wall for a non-boundary cell and exactly one wall — to a single
virtual outside id — for a boundary cell, regardless of its number of
boundary-facing sides. -/
theorem boundaryWalls_per_provider :
    (∀ (w h : Int) (cell : List Char) (x y : Int),
      getPart (splitComma cell) 0 = JSNum.int x →
      getPart (splitComma cell) 1 = JSNum.int y →
      (rectBoundaryWalls w h cell).length =
        (if x = 0 then 1 else 0) + (if x = w - 1 then 1 else 0) +
        (if y = 0 then 1 else 0) + (if y = h - 1 then 1 else 0)) ∧
    (∀ (radius : Int) (cell : List Char),
      (hexIsBoundaryCell radius cell = false →
        hexBoundaryWalls radius cell = Except.ok []) ∧
      (∀ q r, parseAxialCoords cell = Except.ok (q, r) →
        hexIsBoundaryCell radius cell = true →
        hexBoundaryWalls radius cell = Except.ok
          [makePassageL cell
            (['o', 'u', 't', 's', 'i', 'd', 'e', '-'] ++
              intToChars q ++ ',' :: intToChars r)])) := by
  constructor
  · intro w h cell x y hx hy
    simp only [rectBoundaryWalls, hx, hy, jeqInt, List.length_append,
      apply_ite List.length, List.length_singleton, List.length_nil,
      decide_eq_true_eq]
  · intro radius cell
    constructor
    · intro hb
      rw [hexBoundaryWalls, if_pos hb]
    · intro q r hparse hb
      rw [hexBoundaryWalls, if_neg (by simp [hb]), hparse]

/-- C7's theorem applied at the rectangular corner "0,0" of a 2×2 grid (two
walls) and the hexagonal boundary cell "1,0" at radius 1 (one wall). -/
theorem boundaryWalls_per_provider_witness :
    (rectBoundaryWalls 2 2 (String.data "0,0")).length =
      (if (0 : Int) = 0 then 1 else 0) + (if (0 : Int) = 2 - 1 then 1 else 0) +
      (if (0 : Int) = 0 then 1 else 0) + (if (0 : Int) = 2 - 1 then 1 else 0) ∧
    hexBoundaryWalls 1 (String.data "1,0") = Except.ok
      [makePassageL (String.data "1,0")
        (['o', 'u', 't', 's', 'i', 'd', 'e', '-'] ++
          intToChars 1 ++ ',' :: intToChars 0)] :=
  ⟨boundaryWalls_per_provider.1 2 2 (String.data "0,0") 0 0 (by rfl) (by rfl),
    (boundaryWalls_per_provider.2 1 (String.data "1,0")).2 1 0 (by rfl) (by rfl)⟩

/-! ## `validateMaze` from `maze-generator.ts`

The grid argument is represented by its `neighbors` member (the only member
`validateMaze` consults), as `T → Except String (List T)` since
`HexagonalGrid.neighbors` can throw.  Interpolated cell ids are elided from
the error strings (the embedding is generic in the id type).  The BFS loop
gets fuel; the totality theorem shows the chosen fuel suffices. -/

/-- The passage-checking loop: skip passages with a non-cell endpoint, else
ask the grid for the first endpoint's neighbors (which may throw) and report
a violation when the second endpoint is not among them. -/
def passageErrs [DecidableEq T] (cells : List T)
    (neighbors : T → Except String (List T)) :
    List (T × T) → Except String (List String)
  | [] => Except.ok []
  | p :: ps =>
    if p.1 ∈ cells ∧ p.2 ∈ cells then
      match neighbors p.1 with
      | Except.error e => Except.error e
      | Except.ok nbrsA =>
        match passageErrs cells neighbors ps with
        | Except.error e => Except.error e
        | Except.ok rest =>
          Except.ok ((if p.2 ∈ nbrsA then []
            else ["Invalid passage between non-neighbors"]) ++ rest)
    else passageErrs cells neighbors ps

/-- The validator's BFS over the passage adjacency: the queue may hold
duplicates; a popped node is skipped when already visited. -/
def valBfs [DecidableEq T] (adj : List (T × List T)) :
    Nat → List T → List T → Option (List T)
  | 0, _, _ => none
  | _ + 1, [], visited => some visited
  | fuel + 1, current :: rest, visited =>
    if current ∈ visited then valBfs adj fuel rest visited
    else
      valBfs adj fuel
        (rest ++ (adjGet adj current).filter (fun n => decide (n ∉ jsInsert visited current)))
        (jsInsert visited current)

/-- `validateMaze` from `maze-generator.ts`. -/
def validateMaze [DecidableEq T] (mz : Maze T)
    (neighbors : T → Except String (List T)) : Except String (List String) :=
  let e1 : List String :=
    if mz.entrance ∈ mz.cells then [] else ["Entrance not in maze cells"]
  let e2 : List String :=
    if mz.exit ∈ mz.cells then [] else ["Exit not in maze cells"]
  match passageErrs mz.cells neighbors mz.passages with
  | Except.error e => Except.error e
  | Except.ok e3 =>
    match valBfs (buildAdj mz) (mz.cells.length + 2 * mz.passages.length + 2)
        [mz.entrance] [] with
    | none => Except.error "bfs out of fuel"
    | some visited =>
      let e4 : List String :=
        if visited.length ≠ mz.cells.length then ["Not all cells reachable"] else []
      let e5 : List String :=
        if mz.exit ∈ visited then [] else ["Exit not reachable from entrance"]
      Except.ok (e1 ++ e2 ++ e3 ++ e4 ++ e5)

/-! ### Totality of the validator -/

theorem passageErrs_total [DecidableEq T] (cells : List T) (nbrs : T → List T) :
    ∀ ps, ∃ errs, passageErrs cells (fun c => Except.ok (nbrs c)) ps
      = Except.ok errs := by
  intro ps
  induction ps with
  | nil => exact ⟨[], rfl⟩
  | cons p ps ih =>
    obtain ⟨errs, herrs⟩ := ih
    by_cases hp : p.1 ∈ cells ∧ p.2 ∈ cells
    · refine ⟨(if p.2 ∈ nbrs p.1 then []
        else ["Invalid passage between non-neighbors"]) ++ errs, ?_⟩
      rw [passageErrs, if_pos hp, herrs]
    · exact ⟨errs, by rw [passageErrs, if_neg hp]; exact herrs⟩

/-- The per-cell BFS weight: `1 +` the adjacency degree. -/
def bfsWeight [DecidableEq T] (adj : List (T × List T)) (c : T) : Nat :=
  1 + (adjGet adj c).length

/-- The termination measure of the validator's BFS. -/
def bfsMeasure [DecidableEq T] (adj : List (T × List T)) (cells : List T)
    (queue visited : List T) : Nat :=
  queue.length + ((cells.filter (fun c => decide (c ∉ visited))).map
    (bfsWeight adj)).sum

theorem sum_filter_stronger [DecidableEq T] (w : T → Nat) (visited : List T)
    (current : T) :
    ∀ cells : List T,
      ((cells.filter (fun c => decide (c ∉ visited ++ [current]))).map w).sum ≤
      ((cells.filter (fun c => decide (c ∉ visited))).map w).sum := by
  intro cells
  induction cells with
  | nil => simp
  | cons c cs ih =>
    rw [List.filter_cons, List.filter_cons]
    by_cases h1 : c ∉ visited ++ [current]
    · have h2 : c ∉ visited := fun hh => h1 (List.mem_append_left _ hh)
      rw [if_pos (by simpa using h1), if_pos (by simpa using h2)]
      simp only [List.map_cons, List.sum_cons]
      omega
    · rw [if_neg (by simpa using h1)]
      by_cases h2 : c ∉ visited
      · rw [if_pos (by simpa using h2)]
        simp only [List.map_cons, List.sum_cons]
        omega
      · rw [if_neg (by simpa using h2)]
        exact ih

theorem sum_filter_remove [DecidableEq T] (w : T → Nat) (visited : List T)
    (current : T) (hcv : current ∉ visited) :
    ∀ cells : List T, current ∈ cells →
      ((cells.filter (fun c => decide (c ∉ visited ++ [current]))).map w).sum
          + w current ≤
      ((cells.filter (fun c => decide (c ∉ visited))).map w).sum := by
  intro cells
  induction cells with
  | nil => intro h; cases h
  | cons c cs ih =>
    intro hmem
    rw [List.filter_cons, List.filter_cons]
    by_cases hc : c = current
    · subst hc
      rw [if_neg (by simp), if_pos (by simpa using hcv)]
      simp only [List.map_cons, List.sum_cons]
      have := sum_filter_stronger w visited c cs
      omega
    · have hiff : (c ∉ visited ++ [current]) ↔ (c ∉ visited) := by
        simp only [List.mem_append, List.mem_singleton]
        constructor
        · intro h hh
          exact h (Or.inl hh)
        · intro h hh
          rcases hh with hh | hh
          · exact h hh
          · exact hc hh
      rcases List.mem_cons.mp hmem with h1 | h1
      · exact absurd h1.symm hc
      · by_cases h2 : c ∉ visited
        · rw [if_pos (by simpa using (hiff.mpr h2)), if_pos (by simpa using h2)]
          simp only [List.map_cons, List.sum_cons]
          have := ih h1
          omega
        · rw [if_neg (by simpa using (fun hh => h2 (hiff.mp hh) : ¬(c ∉ visited ++ [current]))),
            if_neg (by simpa using h2)]
          exact ih h1

/-- The BFS of the validator terminates within any fuel above the measure. -/
theorem valBfs_total [DecidableEq T] (adj : List (T × List T)) (cells : List T)
    (hdom : ∀ x, (mget adj x).isSome ↔ x ∈ cells) :
    ∀ (fuel : Nat) (queue visited : List T),
      bfsMeasure adj cells queue visited < fuel →
      ∃ vis, valBfs adj fuel queue visited = some vis := by
  intro fuel
  induction fuel with
  | zero =>
    intro queue visited hfuel
    exact absurd hfuel (by omega)
  | succ f ih =>
    intro queue visited hfuel
    cases queue with
    | nil => exact ⟨visited, rfl⟩
    | cons current rest =>
      by_cases hv : current ∈ visited
      · have hstep : valBfs adj (f + 1) (current :: rest) visited =
            valBfs adj f rest visited := by
          rw [valBfs, if_pos hv]
        rw [hstep]
        apply ih
        have : bfsMeasure adj cells (current :: rest) visited =
            bfsMeasure adj cells rest visited + 1 := by
          simp [bfsMeasure]
          omega
        omega
      · have hstep : valBfs adj (f + 1) (current :: rest) visited =
            valBfs adj f
              (rest ++ (adjGet adj current).filter
                (fun n => decide (n ∉ jsInsert visited current)))
              (jsInsert visited current) := by
          rw [valBfs, if_neg hv]
        rw [hstep]
        apply ih
        have hins : jsInsert visited current = visited ++ [current] := by
          rw [jsInsert, if_neg hv]
        rw [hins]
        have hqlen : (rest ++ (adjGet adj current).filter
            (fun n => decide (n ∉ visited ++ [current]))).length ≤
            rest.length + (adjGet adj current).length := by
          rw [List.length_append]
          have := List.length_filter_le
            (fun n => decide (n ∉ visited ++ [current])) (adjGet adj current)
          omega
        by_cases hcell : current ∈ cells
        · have hsum := sum_filter_remove (bfsWeight adj) visited current hv cells hcell
          have hw : bfsWeight adj current = 1 + (adjGet adj current).length := rfl
          simp only [bfsMeasure] at hfuel ⊢
          simp only [List.length_cons] at hfuel
          omega
        · have hadj : adjGet adj current = [] := by
            rw [adjGet, Option.not_isSome_iff_eq_none.mp
              (fun hh => hcell ((hdom current).mp hh))]
            rfl
          have hfil : cells.filter (fun c => decide (c ∉ visited ++ [current])) =
              cells.filter (fun c => decide (c ∉ visited)) := by
            apply List.filter_congr
            intro d hd
            have hdc : d ≠ current := fun hh => hcell (hh ▸ hd)
            apply decide_eq_decide.mpr
            simp only [List.mem_append, List.mem_singleton]
            constructor
            · intro h hh
              exact h (Or.inl hh)
            · intro h hh
              rcases hh with hh | hh
              · exact h hh
              · exact hdc hh
          simp only [bfsMeasure, hfil] at hfuel ⊢
          simp only [List.length_cons] at hfuel
          rw [hadj] at hqlen
          simp only [hadj, List.filter_nil, List.append_nil] at hqlen ⊢
          omega

theorem length_jsInsert_le [DecidableEq T] (s : List T) (x : T) :
    (jsInsert s x).length ≤ s.length + 1 := by
  rw [jsInsert]
  by_cases h : x ∈ s
  · rw [if_pos h]
    omega
  · rw [if_neg h]
    simp

theorem adjGet_adjInit [DecidableEq T] (cells : List T) (c : T) :
    adjGet (adjInit cells) c = [] := by
  rw [adjGet, adjInit_mget]
  by_cases h : c ∈ cells
  · rw [if_pos h]
    rfl
  · rw [if_neg h]
    rfl

theorem degSum_adjAdd [DecidableEq T] (m : List (T × List T)) (a b : T) :
    ∀ cells : List T, cells.Nodup →
      ((cells.map (fun c => (adjGet (adjAdd m a b) c).length)).sum ≤
        (cells.map (fun c => (adjGet m c).length)).sum + 1) := by
  intro cells
  induction cells with
  | nil => intro _; simp
  | cons c cs ih =>
    intro hnd
    have hnd2 := List.nodup_cons.mp hnd
    simp only [List.map_cons, List.sum_cons]
    by_cases hca : c = a
    · subst hca
      have hhead : adjGet (adjAdd m c b) c = jsInsert (adjGet m c) b := by
        rw [adjGet, adjAdd, mget_mset_self]
        rfl
      have htail : cs.map (fun d => (adjGet (adjAdd m c b) d).length) =
          cs.map (fun d => (adjGet m d).length) := by
        apply List.map_congr_left
        intro d hd
        have hdc : d ≠ c := fun hh => hnd2.1 (hh ▸ hd)
        rw [adjGet, adjAdd, mget_mset_ne _ _ _ _ hdc]
        rfl
      rw [hhead, htail]
      have := length_jsInsert_le (adjGet m c) b
      omega
    · have hhead : adjGet (adjAdd m a b) c = adjGet m c := by
        rw [adjGet, adjAdd, mget_mset_ne _ _ _ _ hca]
        rfl
      rw [hhead]
      have := ih hnd2.2
      omega

theorem degSum_buildAdj [DecidableEq T] (mz : Maze T) (hnd : mz.cells.Nodup) :
    (mz.cells.map (fun c => (adjGet (buildAdj mz) c).length)).sum ≤
      2 * mz.passages.length := by
  suffices h : ∀ (ps : List (T × T)) (m : List (T × List T)),
      (mz.cells.map (fun c => (adjGet (ps.foldl (fun m p =>
        if p.1 ∈ mz.cells ∧ p.2 ∈ mz.cells then adjAdd (adjAdd m p.1 p.2) p.2 p.1
        else m) m) c).length)).sum ≤
      (mz.cells.map (fun c => (adjGet m c).length)).sum + 2 * ps.length by
    have h0 := h mz.passages (adjInit mz.cells)
    have hinit : (mz.cells.map (fun c => (adjGet (adjInit mz.cells) c).length)).sum
        = 0 := by
      have : mz.cells.map (fun c => (adjGet (adjInit mz.cells) c).length) =
          mz.cells.map (fun _ => 0) := by
        apply List.map_congr_left
        intro d _
        rw [adjGet_adjInit]
        simp
      rw [this]
      simp
    rw [buildAdj]
    omega
  intro ps
  induction ps with
  | nil => intro m; simp
  | cons p ps ih =>
    intro m
    rw [List.foldl_cons]
    by_cases hp : p.1 ∈ mz.cells ∧ p.2 ∈ mz.cells
    · rw [if_pos hp]
      have h1 := ih (adjAdd (adjAdd m p.1 p.2) p.2 p.1)
      have h2 := degSum_adjAdd (adjAdd m p.1 p.2) p.2 p.1 mz.cells hnd
      have h3 := degSum_adjAdd m p.1 p.2 mz.cells hnd
      simp only [List.length_cons]
      omega
    · rw [if_neg hp]
      have h1 := ih m
      simp only [List.length_cons]
      omega

theorem sum_map_one_add [DecidableEq T] (f : T → Nat) :
    ∀ l : List T, (l.map (fun c => 1 + f c)).sum = l.length + (l.map f).sum := by
  intro l
  induction l with
  | nil => simp
  | cons c cs ih =>
    simp only [List.map_cons, List.sum_cons, List.length_cons, ih]
    omega

/-- The fuel `validateMaze` hands its BFS always suffices, so with a total
neighbors function the validator returns a violation list. -/
theorem validateMaze_total [DecidableEq T] (mz : Maze T) (nbrs : T → List T)
    (hnd : mz.cells.Nodup) :
    ∃ errs, validateMaze mz (fun c => Except.ok (nbrs c)) = Except.ok errs := by
  obtain ⟨e3, he3⟩ := passageErrs_total mz.cells nbrs mz.passages
  have hM : bfsMeasure (buildAdj mz) mz.cells [mz.entrance] [] <
      mz.cells.length + 2 * mz.passages.length + 2 := by
    rw [bfsMeasure]
    have hfil : mz.cells.filter (fun c => decide (c ∉ ([] : List T))) = mz.cells := by
      apply List.filter_eq_self.mpr
      intro a _
      simp
    rw [hfil]
    have hsum : (mz.cells.map (bfsWeight (buildAdj mz))).sum =
        mz.cells.length + (mz.cells.map
          (fun c => (adjGet (buildAdj mz) c).length)).sum := by
      have heq : mz.cells.map (bfsWeight (buildAdj mz)) =
          mz.cells.map (fun c => 1 + (adjGet (buildAdj mz) c).length) := rfl
      rw [heq]
      exact sum_map_one_add (fun c => (adjGet (buildAdj mz) c).length) mz.cells
    have hdeg := degSum_buildAdj mz hnd
    simp only [List.length_singleton]
    omega
  obtain ⟨vis, hvis⟩ := valBfs_total (buildAdj mz) mz.cells (buildAdj_spec mz).1
    (mz.cells.length + 2 * mz.passages.length + 2) [mz.entrance] [] hM
  refine ⟨(if mz.entrance ∈ mz.cells then [] else ["Entrance not in maze cells"]) ++
    (if mz.exit ∈ mz.cells then [] else ["Exit not in maze cells"]) ++ e3 ++
    (if vis.length ≠ mz.cells.length then ["Not all cells reachable"] else []) ++
    (if mz.exit ∈ vis then [] else ["Exit not reachable from entrance"]), ?_⟩
  simp only [validateMaze, he3, hvis]

/-- The two-cell maze carrying the same passage in both orientations: two
passage entries but only one cell pair. -/
def vmz3 : Maze Nat := Maze.mk [0, 1] [(0, 1), (1, 0)] [] 0 1

/-- A total neighbors function making 0 and 1 mutual neighbors. -/
def vnb3 : Nat → Except String (List Nat) :=
  fun c => Except.ok (if c = 0 then [1] else [0])

/-- C3 (counterexample to the claim as stated): a maze with 2 passages and 2
cells (so `|passages| ≠ |cells| − 1`) passes `validateMaze` with no
violations: the validator has no spanning-count check. -/
theorem validateMaze_accepts_non_spanning :
    vmz3.passages.length ≠ vmz3.cells.length - 1 ∧
    validateMaze vmz3 vnb3 = Except.ok [] :=
  ⟨by decide, by rfl⟩

/-- C3 (amended): `validateMaze` checks entrance/exit membership,
passage-neighborliness and reachability only; it performs no
`|passages| = |cells| − 1` check, and a maze violating that count can be
reported violation-free. -/
theorem validateMaze_no_spanning_check :
    ∃ (mz : Maze Nat) (nbrs : Nat → Except String (List Nat)),
      mz.cells.Nodup ∧ mz.passages.length ≠ mz.cells.length - 1 ∧
      validateMaze mz nbrs = Except.ok [] :=
  ⟨vmz3, vnb3, by decide, by decide, by rfl⟩

/-- A maze whose cells include a malformed hexagonal id, with a passage
touching it. -/
def badMaze : Maze (List Char) :=
  Maze.mk [['!'], String.data "0,0"] [(['!'], String.data "0,0")] []
    (String.data "0,0") (String.data "0,0")

/-- C4 (counterexample to the claim as stated): validating a hand-constructed
maze against a hexagonal grid propagates the id-parsing throw from
`grid.neighbors` instead of returning a violation list. -/
theorem validateMaze_propagates_parse_error :
    validateMaze badMaze (hexNeighbors 1) =
      Except.error "Invalid cell ID format" := by rfl

/-- C4 (amended): `validateMaze` never fails on its own — whenever the grid's
`neighbors` is total (as for `RectangularGrid`), it returns a violation list
for every maze. (`mz.cells.Nodup` models that `maze.cells` is a JS `Set`.) -/
theorem validateMaze_total_when_neighbors_total [DecidableEq T] (mz : Maze T)
    (nbrs : T → List T) (hnd : mz.cells.Nodup) :
    ∃ errs, validateMaze mz (fun c => Except.ok (nbrs c)) = Except.ok errs :=
  validateMaze_total mz nbrs hnd

/-- C4's amended theorem applied at a concrete single-cell maze. -/
theorem validateMaze_total_when_neighbors_total_witness :
    ∃ errs, validateMaze (Maze.mk [5] [] [] 5 5 : Maze Nat)
      (fun _ => Except.ok ([] : List Nat)) = Except.ok errs :=
  validateMaze_total_when_neighbors_total (Maze.mk [5] [] [] 5 5)
    (fun _ => []) (by decide)

end Mazegen
